import Mathlib

/-!
# templategen: a verification development

A shallow embedding of `main.go` (the `templategen` command): `main`,
`generateDocsFromSchema` and `emitFile`, over an explicit world (file system,
symbolic links, standard error, the messages handed to glog and a trace of the calls
that were attempted).

The collaborators that `main.go` imports are not part of the repository; they
are modelled from their documented behaviour:

* `path.Clean`, `path.Join`, `path.Dir` (Go standard library), at the level of
  slash-separated path elements, and checked against the tables of the package's own
  tests (`Clean_table`, `Join_table`, `Dir_table`);
* `os.MkdirAll` (behind `tools.EnsureDir`), `os.Mkdir`, `os.Create`, `(*File).Write`,
  `os.Remove` and `os.Symlink`, over a tree-shaped file system in which the paths
  that these calls receive (cleaned paths, in this program) are resolved against the
  working directory; the only symbolic links are the ones glog makes, and no path of
  the program is followed through one;
* `ioutil.ReadFile`, which receives the schema path as the user gave it: the path is
  walked element by element, every element from a directory that exists, so that
  `nodir/../schema.json` and `schema.json/` fail where the cleaned path would not;
* `flag.Parse` with the error handling `ExitOnError` of the default flag set, over the
  flags that the environment registers;
* `json.Unmarshal`, `schema.ImportSpec`, `templates.GeneratePackage` and the order in
  which `range` visits a map, which are parameters of the development (`Env`);
* failures that the environment forces on a system call (permissions, a full disk, an
  I/O error), which are a parameter too (`Env.fault`);
* `glog.Infof`, with the flags `-logtostderr`, `-alsologtostderr` and `-log_dir`:
  unless it logs to standard error, the first message makes glog create its log file
  (in `-log_dir` or else in `os.TempDir()`), replace its symbolic link to that file and
  write the header to the file; when no log file can be created, glog ends the process
  with status 2. The message itself stays in glog's buffer, which `os.Exit(1)` never
  flushes.
-/

namespace Templategen

/-! ## Go strings, byte slices and errors -/

/-- A Go `string`. The characters that matter here (`/` and `.`) are ASCII. -/
abbrev GoString := List Char

/-- A Go `[]byte`. -/
abbrev Bytes := List (Fin 256)

/-- A Go `error` value: either an error of some collaborator, or an error wrapped
with a message by `errors.Wrap` / `errors.Wrapf` (github.com/pkg/errors). -/
inductive GoError where
  | leaf (msg : GoString)
  | withMessage (cause : GoError) (msg : GoString)
  deriving DecidableEq, Repr

/-- The method `Error()`: a wrapped error prints its message, `": "`, and then its
cause. -/
def GoError.Error : GoError → GoString
  | .leaf msg => msg
  | .withMessage cause msg => msg ++ ": ".toList ++ cause.Error

/-- The cause that `errors.Wrap` recorded, if the error is a wrapped one. -/
def GoError.cause : GoError → Option GoError
  | .leaf _ => none
  | .withMessage cause _ => some cause

/-- The message that `errors.Wrap` put in front of the cause (for an error that is
not wrapped, its whole text). -/
def GoError.context : GoError → GoString
  | .leaf msg => msg
  | .withMessage _ msg => msg

/-- `errors.Wrap(err, message)`. -/
def Wrap (err : GoError) (message : GoString) : GoError :=
  .withMessage err message

/-! ## Package `path` -/

/-- The elements of a path between its slashes: `"a//b/"` has the elements
`a`, the empty element, `b`, and the empty element. -/
def splitSlash : GoString → List GoString
  | [] => [[]]
  | c :: cs =>
    match splitSlash cs with
    | [] => [[c]]
    | h :: t => if c = '/' then [] :: h :: t else (c :: h) :: t

/-- Elements joined with one slash between neighbours. -/
def joinSlash : List GoString → GoString
  | [] => []
  | [a] => a
  | a :: b :: t => a ++ '/' :: joinSlash (b :: t)

/-- Whether the path begins with a slash (`path[0] == '/'`). -/
def isRooted (p : GoString) : Bool :=
  match p with
  | '/' :: _ => true
  | _ => false

/-- One element of `path.Clean`, applied to the elements kept so far (the last one
kept comes first), by the rules of the package's documentation: multiple slashes
count as one (an empty element is dropped), each `.` is dropped, each inner `..` is
dropped along with the element before it that is not `..`, a `..` that begins a
rooted path is dropped, and a `..` that begins another path is kept. -/
def cleanStep (rooted : Bool) (kept : List GoString) (e : GoString) : List GoString :=
  if e = [] ∨ e = ['.'] then kept
  else if e = ['.', '.'] then
    match kept with
    | [] => if rooted then [] else [e]
    | top :: below => if top = ['.', '.'] then e :: kept else below
  else e :: kept

/-- The loop of `path.Clean` over the elements of a path. -/
def cleanElems (rooted : Bool) (kept : List GoString) (es : List GoString) : List GoString :=
  es.foldl (cleanStep rooted) kept

/-- The text of a cleaned path: a slash first when rooted, the kept elements
separated by slashes, and `.` for what would be the empty string. -/
def render (rooted : Bool) (kept : List GoString) : GoString :=
  let body := joinSlash kept.reverse
  if rooted then '/' :: body
  else if body = [] then ['.'] else body

/-- `path.Clean`. -/
def Clean (p : GoString) : GoString :=
  render (isRooted p) (cleanElems (isRooted p) [] (splitSlash p))

/-- `path.Join(a, b)`: empty arguments are ignored, the rest is joined with a slash
and cleaned; the result is empty when both are empty. -/
def Join (a b : GoString) : GoString :=
  if a = [] then (if b = [] then [] else Clean b)
  else Clean (a ++ '/' :: b)

/-- `path.Split`, its first result: the path up to and including its last slash. -/
def splitDir (p : GoString) : GoString :=
  match (splitSlash p).dropLast with
  | [] => []
  | es => joinSlash es ++ ['/']

/-- `path.Dir`: the path without its last element, cleaned. -/
def Dir (p : GoString) : GoString :=
  Clean (splitDir p)

/-! ## The file system -/

/-- An absolute location: the names from the root down. -/
abbrev AbsPath := List GoString

/-- What a location holds: a regular file with its bytes, or a directory. -/
inductive Node where
  | file (contents : Bytes)
  | dir
  deriving DecidableEq, Repr

/-- The file system: what each location holds, if anything, of regular files and
directories. Symbolic links are kept apart (`World.links`). -/
abbrev FS := AbsPath → Option Node

/-- The file system with location `loc` now holding `n`. -/
def FS.set (fs : FS) (loc : AbsPath) (n : Node) : FS :=
  fun q => if q = loc then some n else fs q

/-- The file system with nothing at location `loc`. -/
def FS.unset (fs : FS) (loc : AbsPath) : FS :=
  fun q => if q = loc then none else fs q

/-- One element of a path, followed from the location reached so far (its last
name first): an empty element and `.` stay, `..` goes to the parent (the root is
its own parent), a name goes down. -/
def walkStep (reached : List GoString) (e : GoString) : List GoString :=
  if e = [] ∨ e = ['.'] then reached
  else if e = ['.', '.'] then reached.tail
  else e :: reached

/-- The location a path names: a rooted path is followed from the root, any other
from the working directory. -/
def resolve (cwd : AbsPath) (p : GoString) : AbsPath :=
  ((splitSlash p).foldl walkStep (if isRooted p then [] else cwd.reverse)).reverse

/-- The walk of a path as the system does it when it opens the path as given: every
element, the empty ones and `.` and `..` too, is followed from a location that has to
be a directory. The result is the location reached (its last name first), or the
error of the walk. -/
def walkPath (fs : FS) : List GoString → List GoString → Except Bool (List GoString)
  | [], reached => .ok reached
  | e :: es, reached =>
    match fs reached.reverse with
    | some .dir => walkPath fs es (walkStep reached e)
    | some (.file _) => .error true
    | none => .error false

/-- The location that a path as given names, when the walk to it succeeds: not for
the empty path, not through something that is missing (error `false`) or that is a
regular file (error `true`). -/
def lookup (fs : FS) (cwd : AbsPath) (p : GoString) : Except Bool AbsPath :=
  if p = [] then .error false
  else
    match walkPath fs (splitSlash p) (if isRooted p then [] else cwd.reverse) with
    | .ok reached => .ok reached.reverse
    | .error notDir => .error notDir

/-- The tree shape of a file system: the root is a directory, and whatever exists
below the root lies in a directory. -/
def FS.WF (fs : FS) : Prop :=
  fs [] = some .dir ∧ ∀ loc, loc ≠ [] → fs loc ≠ none → fs loc.dropLast = some .dir

/-! ## The world, its events and the environment -/

/-- A call the program attempted, in the order of the attempts. -/
inductive Event where
  | readFile (name : GoString)
  | unmarshal
  | importSpec
  | generatePackage
  | mkdir (loc : AbsPath)
  | create (loc : AbsPath)
  | write (loc : AbsPath) (b : Bytes)
  | remove (loc : AbsPath)
  | symlink (loc : AbsPath) (target : GoString)
  deriving DecidableEq, Repr

/-- The state a run acts on. `fs` holds the regular files and the directories;
`links` holds the symbolic links, which only glog makes and which the program never
follows; `glog` holds the messages handed to `glog.Infof`, in order; `stderr` what was
written to standard error. -/
structure World where
  fs : FS
  stderr : List GoString
  glog : List GoString
  trace : List Event
  links : AbsPath → Option GoString

/-- A Go `map[string][]byte`: entries with pairwise different keys. -/
structure GoMap where
  entries : List (GoString × Bytes)
  nodup : (entries.map Prod.fst).Nodup

/-- Everything `main.go` takes from outside. `Spec` is `schema.PackageSpec` and
`Pkg` is `*schema.Package`; both are opaque to the program. -/
structure Env (Spec Pkg : Type) where
  /-- The working directory of the process. -/
  cwd : AbsPath
  /-- The flags registered with package `flag` (glog registers its own):
  `some true` for a boolean flag, `some false` for a flag that takes a value. -/
  formal : GoString → Option Bool
  /-- Whether `Value.Set` of the named flag accepts the value. -/
  flagSet : GoString → GoString → Bool
  /-- The exit status of package `flag` after `-h` or `-help` when no such flag is
  registered (2 up to Go 1.14, 0 since). -/
  helpExit : Nat
  /-- What package `flag` prints when it rejects the command line. -/
  flagMessage : List GoString → GoString
  /-- `json.Unmarshal(schema, &PackageSpec{})`. -/
  Unmarshal : Bytes → Except GoError Spec
  /-- `schema.ImportSpec(spec, nil)`. -/
  ImportSpec : Spec → Except GoError Pkg
  /-- `templates.GeneratePackage(tool, pkg)`. -/
  GeneratePackage : GoString → Pkg → Except GoError GoMap
  /-- The order in which `range` visits a map, which the runtime is free to
  choose anew each time. -/
  rangeOrder : List Event → GoMap → List (GoString × Bytes)
  /-- Every entry is visited once. -/
  rangeOrder_perm : ∀ h m, (rangeOrder h m).Perm m.entries
  /-- A failure the environment forces on a system call (given the calls so far
  and the call attempted), whatever the state of the file system. -/
  fault : List Event → Event → Option GoError
  /-- How many bytes a failing `Write` had written before it failed. -/
  shortWrite : List Event → Nat
  /-- Whether `Remove` finds a directory empty. The answer `true` is given only for a
  directory with nothing in it; the answer `false` makes `Remove` fail. -/
  emptyDir : FS → AbsPath → Bool
  /-- A directory found empty has nothing in it. -/
  emptyDir_sound : ∀ fs loc, emptyDir fs loc = true →
    ∀ q, q ≠ [] → q.dropLast = loc → fs q = none
  /-- The directory for temporary files, `os.TempDir()`. -/
  tempDir : GoString
  /-- The name of glog's log file for the severity INFO, made of the program, the host,
  the user, the time and the process id. -/
  glogFile : GoString
  /-- The name of glog's symbolic link to that file, the program and `.INFO`. -/
  glogLink : GoString
  /-- The header that glog writes to a log file it has created. -/
  glogHeader : Bytes
  /-- What glog puts in front of a message: the severity, the time, the process id,
  the file and the line. -/
  glogPrefix : List Event → GoString
  /-- Whether glog's flags `-alsologtostderr` or `-stderrthreshold`, as the command
  line sets them, copy a message of severity INFO to standard error. -/
  glogAlsoStderr : List GoString → Bool

/-- The world after one more attempted call. -/
def World.log (w : World) (e : Event) : World :=
  { w with trace := w.trace ++ [e] }

/-! ## Package `os` and `ioutil` -/

/-- The error of a path that names nothing, or whose parent is missing. -/
def ENOENT : GoError := .leaf "no such file or directory".toList

/-- The error of `Mkdir` on a location that is taken. -/
def EEXIST : GoError := .leaf "file exists".toList

/-- The error of `MkdirAll` on a path that names a regular file. -/
def ENOTDIR : GoError := .leaf "not a directory".toList

/-- The error of opening a directory as a file. -/
def EISDIR : GoError := .leaf "is a directory".toList

/-- The error of writing through a handle that names no regular file. -/
def EBADF : GoError := .leaf "bad file descriptor".toList

/-- The error of removing a directory that is not empty (or the root). -/
def ENOTEMPTY : GoError := .leaf "directory not empty".toList

variable {Spec Pkg : Type}

/-- `os.Stat`: what the path names, if anything. -/
def Stat (env : Env Spec Pkg) (name : GoString) (w : World) : Option Node :=
  w.fs (resolve env.cwd name)

/-- `os.Mkdir`: makes one directory; its parent has to be a directory and the
location has to be free. -/
def Mkdir (env : Env Spec Pkg) (name : GoString) (w : World) : Option GoError × World :=
  let loc := resolve env.cwd name
  let w1 := w.log (.mkdir loc)
  match env.fault w.trace (.mkdir loc) with
  | some e => (some e, w1)
  | none =>
    match w.fs loc with
    | some _ => (some EEXIST, w1)
    | none =>
      if loc ≠ [] ∧ w.fs loc.dropLast = some .dir then
        (none, { w1 with fs := w.fs.set loc .dir })
      else (some ENOENT, w1)

/-- The parent that `os.MkdirAll` recurses into: trailing separators are skipped,
then the last element is scanned over; with `j` the index where that element
starts, the parent is `path[:j-1]` when `j > 1`, and there is none otherwise. -/
def mkdirAllParent (path : GoString) : Option GoString :=
  let upToElem := ((path.reverse.dropWhile (· = '/')).dropWhile (· ≠ '/')).reverse
  if upToElem.length > 1 then some upToElem.dropLast else none

/-- `os.MkdirAll`, with a budget for its recursion. A path that is a directory is
done; a path that is a file is an error; otherwise the parent is made first and
then the directory itself, and a failure of `Mkdir` is forgiven when the directory
is there after all. -/
def mkdirAllLoop (env : Env Spec Pkg) : Nat → GoString → World → Option GoError × World
  | 0, _, w => (some (.leaf "MkdirAll: recursion budget exhausted".toList), w)
  | budget + 1, path, w =>
    match Stat env path w with
    | some .dir => (none, w)
    | some (.file _) => (some ENOTDIR, w)
    | none =>
      let up : Option GoError × World :=
        match mkdirAllParent path with
        | some parent => mkdirAllLoop env budget parent w
        | none => (none, w)
      match up with
      | (some err, w1) => (some err, w1)
      | (none, w1) =>
        match Mkdir env path w1 with
        | (some err, w2) =>
          if Stat env path w2 = some .dir then (none, w2) else (some err, w2)
        | (none, w2) => (none, w2)

/-- `os.MkdirAll(path, perm)`. Each recursive call is on a shorter path, so a budget
of the length of the path plus one is never used up (`mkdirAllLoop_budget`). -/
def MkdirAll (env : Env Spec Pkg) (path : GoString) (w : World) : Option GoError × World :=
  mkdirAllLoop env (path.length + 1) path w

/-- `tools.EnsureDir(path)`, which is `os.MkdirAll(path, 0700)`. -/
def EnsureDir (env : Env Spec Pkg) (path : GoString) (w : World) : Option GoError × World :=
  MkdirAll env path w

/-- `os.Create(name)`: opens the file for writing, creating it when it is missing
and truncating it when it is there. -/
def Create (env : Env Spec Pkg) (name : GoString) (w : World) : Option GoError × World :=
  let loc := resolve env.cwd name
  let w1 := w.log (.create loc)
  match env.fault w.trace (.create loc) with
  | some e => (some e, w1)
  | none =>
    match w.fs loc with
    | some .dir => (some EISDIR, w1)
    | some (.file _) => (none, { w1 with fs := w.fs.set loc (.file []) })
    | none =>
      if loc ≠ [] ∧ w.fs loc.dropLast = some .dir then
        (none, { w1 with fs := w.fs.set loc (.file []) })
      else (some ENOENT, w1)

/-- Bytes `b` written over `old` from offset 0. -/
def overwrite (old b : Bytes) : Bytes :=
  b ++ old.drop b.length

/-- `f.Write(b)` on the file that `os.Create(name)` opened (the handle is named by
the path it was opened with): the bytes go to the start of the file. A failing write
leaves the bytes it had written. -/
def Write (env : Env Spec Pkg) (name : GoString) (b : Bytes) (w : World) :
    Option GoError × World :=
  let loc := resolve env.cwd name
  let w1 := w.log (.write loc b)
  match w.fs loc with
  | some (.file old) =>
    match env.fault w.trace (.write loc b) with
    | some e =>
      (some e, { w1 with fs := w.fs.set loc (.file (overwrite old (b.take (env.shortWrite w.trace)))) })
    | none => (none, { w1 with fs := w.fs.set loc (.file (overwrite old b)) })
  | _ => (some EBADF, w1)

/-- The error `*os.PathError` of an operation on a path, as it prints. -/
def PathError (op path : GoString) (err : GoError) : GoError :=
  .leaf (op ++ " ".toList ++ path ++ ": ".toList ++ err.Error)

/-- `ioutil.ReadFile(filename)`: the path is walked as given, and what it names has
to be a regular file. -/
def ReadFile (env : Env Spec Pkg) (filename : GoString) (w : World) :
    Except GoError Bytes × World :=
  let w1 := w.log (.readFile filename)
  match env.fault w.trace (.readFile filename) with
  | some e => (.error e, w1)
  | none =>
    match lookup w.fs env.cwd filename with
    | .error true => (.error (PathError "open".toList filename ENOTDIR), w1)
    | .error false => (.error (PathError "open".toList filename ENOENT), w1)
    | .ok loc =>
      match w.fs loc with
      | some (.file b) => (.ok b, w1)
      | some .dir => (.error (PathError "read".toList filename EISDIR), w1)
      | none => (.error (PathError "open".toList filename ENOENT), w1)

/-- `os.Remove(name)`: unlinks a symbolic link or a regular file, or removes a
directory that is empty. -/
def Remove (env : Env Spec Pkg) (name : GoString) (w : World) : Option GoError × World :=
  let loc := resolve env.cwd name
  let w1 := w.log (.remove loc)
  match env.fault w.trace (.remove loc) with
  | some e => (some e, w1)
  | none =>
    match w.links loc with
    | some _ => (none, { w1 with links := fun q => if q = loc then none else w.links q })
    | none =>
      match w.fs loc with
      | some (.file _) => (none, { w1 with fs := w.fs.unset loc })
      | some .dir =>
        if loc ≠ [] ∧ env.emptyDir w.fs loc = true then
          (none, { w1 with fs := w.fs.unset loc })
        else (some ENOTEMPTY, w1)
      | none => (some ENOENT, w1)

/-- `os.Symlink(target, name)`: makes a symbolic link at a location that is free, in
a directory. -/
def Symlink (env : Env Spec Pkg) (target name : GoString) (w : World) :
    Option GoError × World :=
  let loc := resolve env.cwd name
  let w1 := w.log (.symlink loc target)
  match env.fault w.trace (.symlink loc target) with
  | some e => (some e, w1)
  | none =>
    match w.fs loc, w.links loc with
    | none, none =>
      if loc ≠ [] ∧ w.fs loc.dropLast = some .dir then
        (none, { w1 with links := fun q => if q = loc then some target else w.links q })
      else (some ENOENT, w1)
    | _, _ => (some EEXIST, w1)

/-! ## Package `flag` -/

/-- How `flag.Parse()` ends: the process exits with a status, or the arguments that
are left are the positional ones (`flag.Args()`). -/
inductive FlagResult where
  | exit (code : Nat)
  | args (positional : List GoString)
  deriving DecidableEq, Repr

/-- A flag `name=value` split at its first `=` (which cannot be its first
character). -/
def splitFlag (body : GoString) : GoString × Option GoString :=
  match body with
  | [] => ([], none)
  | c :: cs =>
    if '=' ∈ cs then (c :: cs.takeWhile (· ≠ '='), some (cs.dropWhile (· ≠ '=')).tail)
    else (body, none)

/-- What `parseOne` of package `flag` makes of the next argument. -/
inductive FlagStep where
  /-- Not a flag: it and the rest are the positional arguments. -/
  | positional
  /-- The terminator `--`: the rest are the positional arguments. -/
  | terminator
  /-- A flag that is rejected: the process exits with this status. -/
  | rejected (code : Nat)
  /-- A flag that is complete in this argument and accepted, with the value set. -/
  | seen (name value : GoString)
  /-- A registered flag that takes its value from the next argument. -/
  | wantsValue (name : GoString)
  deriving DecidableEq, Repr

/-- The first argument as `parseOne` reads it: `-name`, `--name`, `-name=value`. A
flag that is malformed, not registered, or whose value `Set` refuses is rejected
with status 2 (`ExitOnError`). -/
def flagStep (env : Env Spec Pkg) (s : GoString) : FlagStep :=
  if s.length < 2 ∨ s.head? ≠ some '-' then .positional
  else if s = ['-', '-'] then .terminator
  else
    let body := if s.get? 1 = some '-' then s.drop 2 else s.drop 1
    if body = [] ∨ body.head? = some '-' ∨ body.head? = some '=' then .rejected 2
    else
      let name := (splitFlag body).1
      match env.formal name, (splitFlag body).2 with
      | none, _ =>
        if name = "help".toList ∨ name = "h".toList then .rejected env.helpExit
        else .rejected 2
      | some true, value =>
        if env.flagSet name (value.getD "true".toList) then
          .seen name (value.getD "true".toList)
        else .rejected 2
      | some false, some v => if env.flagSet name v then .seen name v else .rejected 2
      | some false, none => .wantsValue name

/-- `flag.Parse()` on the command line after the program name, with error handling
`ExitOnError`: flags are consumed up to the first argument that is not one (or
`--`); a flag that is rejected or left without its value ends the process. -/
def flagParse (env : Env Spec Pkg) : List GoString → FlagResult
  | [] => .args []
  | s :: rest =>
    match flagStep env s with
    | .positional => .args (s :: rest)
    | .terminator => .args rest
    | .rejected code => .exit code
    | .seen _ _ => flagParse env rest
    | .wantsValue name =>
      match rest with
      | [] => .exit 2
      | v :: rest1 => if env.flagSet name v then flagParse env rest1 else .exit 2

/-- The values that `flag.Parse()` sets, flag by flag in the order of the command
line, up to where the parse stops. -/
def flagActual (env : Env Spec Pkg) : List GoString → List (GoString × GoString)
  | [] => []
  | s :: rest =>
    match flagStep env s with
    | .seen name value => (name, value) :: flagActual env rest
    | .wantsValue name =>
      match rest with
      | [] => []
      | v :: rest1 => if env.flagSet name v then (name, v) :: flagActual env rest1 else []
    | _ => []

/-- The value a flag has after `flag.Parse()`, when the command line sets it: the
last one set. -/
def flagValue (env : Env Spec Pkg) (name : GoString) (cmdline : List GoString) :
    Option GoString :=
  ((flagActual env cmdline).reverse.find? (fun a => decide (a.1 = name))).map Prod.snd

/-- `strconv.ParseBool`. -/
def parseBool (s : GoString) : Option Bool :=
  if s ∈ ["1".toList, "t".toList, "T".toList, "TRUE".toList, "true".toList, "True".toList]
  then some true
  else if s ∈ ["0".toList, "f".toList, "F".toList, "FALSE".toList, "false".toList,
    "False".toList]
  then some false
  else none

/-! ## Package `glog` -/

/-- Whether glog logs to standard error instead of files: its flag `-logtostderr`,
false unless the command line sets it to true. -/
def glogToStderr (env : Env Spec Pkg) (cmdline : List GoString) : Bool :=
  match flagValue env "logtostderr".toList cmdline with
  | some v => decide (parseBool v = some true)
  | none => false

/-- The directories in which glog tries to create its log file: the one of its flag
`-log_dir`, when the flag names one, and then `os.TempDir()`. -/
def glogDirs (env : Env Spec Pkg) (cmdline : List GoString) : List GoString :=
  (match flagValue env "log_dir".toList cmdline with
    | some d => if d = [] then [] else [d]
    | none => []) ++ [env.tempDir]

/-- The function `create` of glog: the log file is created in the first of the
directories in which `os.Create` succeeds; the symbolic link next to it is removed and
made anew, errors of which are ignored. The result is the path of the file, or the
error of the last `os.Create` (`none` when there is no directory to try). -/
def glogCreate (env : Env Spec Pkg) :
    List GoString → Option GoError → World → Except (Option GoError) GoString × World
  | [], last, w => (.error last, w)
  | dir :: dirs, _, w =>
    match Create env (Join dir env.glogFile) w with
    | (none, w1) =>
      let w2 := (Remove env (Join dir env.glogLink) w1).2
      let w3 := (Symlink env env.glogFile (Join dir env.glogLink) w2).2
      (.ok (Join dir env.glogFile), w3)
    | (some err, w1) => glogCreate env dirs (some err) w1

/-- The functions `createFiles` and `rotateFile` of glog, for the first message of
severity INFO: the log file is created and the header is written to it. -/
def glogStart (env : Env Spec Pkg) (cmdline : List GoString) (w : World) :
    Option GoError × World :=
  match glogCreate env (glogDirs env cmdline) none w with
  | (.error last, w1) =>
    (some (.leaf ("log: cannot create log: ".toList ++
      (match last with
        | some err => err.Error
        | none => "<nil>".toList))), w1)
  | (.ok fname, w1) => Write env fname env.glogHeader w1

/-- The line that glog makes of a message: its prefix, the message, a newline. -/
def glogLine (env : Env Spec Pkg) (msg : GoString) (w : World) : GoString :=
  env.glogPrefix w.trace ++ msg ++ ['\n']

/-- The world in which glog, not logging to standard error, turns to its log file: the
message is noted, and copied to standard error when the flags ask for that. -/
def glogNoted (env : Env Spec Pkg) (cmdline : List GoString) (msg : GoString) (w : World) :
    World :=
  if env.glogAlsoStderr cmdline = true then
    { w with glog := w.glog ++ [msg], stderr := w.stderr ++ [glogLine env msg w] }
  else { w with glog := w.glog ++ [msg] }

/-- `glog.Infof(format, args...)`, called once, after `flag.Parse()`, with the message
already formatted. With `-logtostderr` the line goes to standard error. Otherwise the
log file is created first; when that fails the line and the error go to standard error
and glog ends the process with status 2 (the result `some 2`); when it succeeds the
line goes to the buffer of the file, which nothing flushes before `os.Exit`. -/
def glogInfof (env : Env Spec Pkg) (cmdline : List GoString) (msg : GoString) (w : World) :
    Option Nat × World :=
  if glogToStderr env cmdline = true then
    (none, { w with glog := w.glog ++ [msg], stderr := w.stderr ++ [glogLine env msg w] })
  else
    match glogStart env cmdline (glogNoted env cmdline msg w) with
    | (some err, w2) =>
      (some 2, { w2 with
                 stderr := w2.stderr ++ [glogLine env msg w,
                   "log: exiting because of error: ".toList ++ err.Error ++ ['\n']] })
    | (none, w2) => (none, w2)

/-! ## `main.go` -/

/-- `emitFile(outDir, relPath, contents)`. -/
def emitFile (env : Env Spec Pkg) (outDir relPath : GoString) (contents : Bytes) (w : World) :
    Option GoError × World :=
  let p := Join outDir relPath
  match EnsureDir env (Dir p) w with
  | (some err, w1) => (some (Wrap err "creating directory".toList), w1)
  | (none, w1) =>
    match Create env p w1 with
    | (some err, w2) => (some (Wrap err "creating file".toList), w2)
    | (none, w2) =>
      -- `defer contract.IgnoreClose(f)`: the file is closed, an error of the close is dropped
      Write env p contents w2

/-- The loop `for f, contents := range files` of `generateDocsFromSchema`, over the
entries in the order of the visit. -/
def emitAll (env : Env Spec Pkg) (outDir : GoString) :
    List (GoString × Bytes) → World → Option GoError × World
  | [], w => (none, w)
  | (f, contents) :: rest, w =>
    match emitFile env outDir f contents w with
    | (some err, w1) => (some (Wrap err ("emitting file ".toList ++ f)), w1)
    | (none, w1) => emitAll env outDir rest w1

/-- The tool name that `generateDocsFromSchema` passes to the generator. -/
def toolName : GoString := "Pulumi Templates Generator".toList

/-- `generateDocsFromSchema(outDir, spec)`. -/
def generateDocsFromSchema (env : Env Spec Pkg) (outDir : GoString) (spec : Spec) (w : World) :
    Option GoError × World :=
  let w1 := w.log .importSpec
  match env.ImportSpec spec with
  | .error err =>
    (some (Wrap err ("error importing package spec: ".toList ++ err.Error)), w1)
  | .ok pulPkg =>
    let w2 := w1.log .generatePackage
    match env.GeneratePackage toolName pulPkg with
    | .error err => (some (Wrap err "generating Pulumi package".toList), w2)
    | .ok files => emitAll env outDir (env.rangeOrder w2.trace files) w2

/-- The usage line of `main`, with `os.Args[0]` filled in. -/
def usage (prog : GoString) : GoString :=
  "error: usage: ".toList ++ prog ++ " <out-dir> <provider-schema-file>\n".toList

/-- The end of a failing run of `main`: the message goes to `glog.Infof`, and then
`os.Exit(1)` ends the process, unless glog has ended it already. -/
def exitLogged (env : Env Spec Pkg) (cmdline : List GoString) (msg : GoString) (w : World) :
    Nat × World :=
  match glogInfof env cmdline msg w with
  | (some code, w1) => (code, w1)
  | (none, w1) => (1, w1)

/-- `main()`: the exit status of the process and the world it leaves, for the
program name `os.Args[0]` and the command line `os.Args[1:]`. The first branch is
`flag.Parse()` ending the process, the last one is `len(args) < 2`; `os.Exit(1)` ends
the process at once, without the deferred `glog.Flush()`, and a return from `main` is
the exit status 0 (the deferred `glog.Flush()` finds no log file to flush then). -/
def main (env : Env Spec Pkg) (prog : GoString) (cmdline : List GoString) (w : World) :
    Nat × World :=
  match flagParse env cmdline with
  | .exit code => (code, { w with stderr := w.stderr ++ [env.flagMessage cmdline] })
  | .args args =>
    match args with
    | outDir :: schemaFile :: _ =>
      match ReadFile env schemaFile w with
      | (.error err, w1) =>
        exitLogged env cmdline ("error reading schema file from path: ".toList ++ err.Error) w1
      | (.ok schema, w1) =>
        let w2 := w1.log .unmarshal
        match env.Unmarshal schema with
        | .error err =>
          exitLogged env cmdline
            ("error unmarshalling schema into a PackageSpec: ".toList ++ err.Error) w2
        | .ok mainSpec =>
          match generateDocsFromSchema env outDir mainSpec w2 with
          | (some err, w3) =>
            exitLogged env cmdline
              ("error generating docs from schema: ".toList ++ err.Error) w3
          | (none, w3) => (0, w3)
    | _ => (1, { w with stderr := w.stderr ++ [usage prog] })

/-! ## Sample environments -/

/-- A file system with the root, the working directory `/home`, the schema file
`/home/schema.json` holding `{}`, the directory `/tmp`, and nothing else. -/
def sampleFS : FS := fun q =>
  if q = [] then some .dir
  else if q = ["home".toList] then some .dir
  else if q = ["home".toList, "schema.json".toList] then some (.file [123, 125])
  else if q = ["tmp".toList] then some .dir
  else none

/-- An environment over `sampleFS`: the flags of glog `-v` and `-logtostderr`, an
importer that accepts every schema, a generator that returns `m`, a range order that
is the order of `m.entries`, and no forced failure. -/
def sampleEnv (m : GoMap) : Env Unit Unit where
  cwd := ["home".toList]
  formal := fun n =>
    if n = "v".toList then some false
    else if n = "logtostderr".toList then some true else none
  flagSet := fun _ _ => true
  helpExit := 2
  flagMessage := fun _ => "flag provided but not defined".toList
  Unmarshal := fun _ => .ok ()
  ImportSpec := fun _ => .ok ()
  GeneratePackage := fun _ _ => .ok m
  rangeOrder := fun _ m => m.entries
  rangeOrder_perm := fun _ _ => List.Perm.refl _
  fault := fun _ _ => none
  shortWrite := fun _ => 0
  emptyDir := fun _ _ => false
  emptyDir_sound := fun _ _ h => by cases h
  tempDir := "/tmp".toList
  glogFile := "templategen.host.user.log.INFO.20200101-000000.1".toList
  glogLink := "templategen.INFO".toList
  glogHeader := [76, 111, 103]
  glogPrefix := fun _ => "I0101 00:00:00.000000 1 main.go:49] ".toList
  glogAlsoStderr := fun _ => false

/-- The generator's result with no file. -/
def emptyMap : GoMap := ⟨[], by decide⟩

/-- A generator's result with two files, one of them in a directory. -/
def nestedMap : GoMap :=
  ⟨[("a/b.txt".toList, [1, 2]), ("c".toList, [3])], by decide⟩

/-- A generator's result whose two keys, `a` and `./a`, name the same file. -/
def collidingMap : GoMap :=
  ⟨[("a".toList, [1]), ("./a".toList, [2])], by decide⟩

/-- The world before a run: `sampleFS`, nothing printed, nothing attempted. -/
def sampleWorld : World := ⟨sampleFS, [], [], [], fun _ => none⟩

/-! ## Notions used in the statements -/

/-- The file system `fs'` is `fs` with directories added: every location holds what
it held, or held nothing and now holds a directory. -/
def Grows (fs fs' : FS) : Prop :=
  ∀ q, fs' q = fs q ∨ (fs q = none ∧ fs' q = some .dir)

/-- The destination of a generated file: the location that the path
`path.Join(outDir, relPath)` names. -/
def dest (env : Env Spec Pkg) (outDir relPath : GoString) : AbsPath :=
  resolve env.cwd (Join outDir relPath)

/-- The writes among the calls of a trace: where, and which bytes. -/
def writes : List Event → List (AbsPath × Bytes)
  | [] => []
  | .write loc b :: t => (loc, b) :: writes t
  | _ :: t => writes t

/-- The environment forces no failure on any call made after the calls `t0`. -/
def Quiet (env : Env Spec Pkg) (t0 : List Event) : Prop :=
  ∀ h e, env.fault (t0 ++ h) e = none

/-- An environment like `sampleEnv` whose runtime visits a map in the order of its
entries at first and in the opposite order once more than two calls have been
made. -/
def flipEnv (m : GoMap) : Env Unit Unit :=
  { sampleEnv m with
    rangeOrder := fun h m => if h.length ≤ 2 then m.entries else m.entries.reverse
    rangeOrder_perm := fun h m => by
      by_cases hh : h.length ≤ 2
      · simp [hh]
      · simp [hh] }

/-- An environment like `sampleEnv` in which the write of the bytes `[2]` fails
(the disk is full) before any byte is written. -/
def fullDiskEnv (m : GoMap) : Env Unit Unit :=
  { sampleEnv m with
    fault := fun _ e =>
      match e with
      | .write _ b => if b = [2] then some (.leaf "no space left on device".toList) else none
      | _ => none }

/-- A generator's result with three files; the second holds the bytes `[2]`. -/
def nestedMap2 : GoMap :=
  ⟨[("a/b.txt".toList, [1, 2]), ("c".toList, [2]), ("d".toList, [4])], by decide⟩

/-! ## Notions about paths used in the statements -/

/-- The elements of a path that name something: what stands between its slashes,
without the empty elements and the elements `.`. -/
def elems (p : GoString) : List GoString :=
  (splitSlash p).filter (fun e => decide (e ≠ [] ∧ e ≠ ['.']))

/-- Whether following the elements steps above the directory the walk started in,
`depth` being the number of directories entered so far and not left again. -/
def climbsFrom : Nat → List GoString → Bool
  | _, [] => false
  | depth, e :: es =>
    if e = [] ∨ e = ['.'] then climbsFrom depth es
    else if e = ['.', '.'] then
      match depth with
      | 0 => true
      | d + 1 => climbsFrom d es
    else climbsFrom (depth + 1) es

/-- Whether a relative path steps above the directory it starts in, as `../x` and
`a/../../x` do. -/
def climbs (relPath : GoString) : Bool :=
  climbsFrom 0 (splitSlash relPath)

/-- An element that `path.Clean` keeps: not empty, not `.`, and without a slash. -/
def Plain (e : GoString) : Prop :=
  e ≠ [] ∧ e ≠ ['.'] ∧ '/' ∉ e

/-- The shape of what `path.Clean` keeps (the last element kept comes first): names,
and below them the `..` elements that lead a path that is not rooted. -/
def CleanShape (rooted : Bool) (kept : List GoString) : Prop :=
  ∃ names dots, kept = names ++ dots ∧ (∀ k ∈ names, k ≠ ['.', '.']) ∧
    (∀ k ∈ dots, k = ['.', '.']) ∧ (rooted = true → dots = [])

/-- The locations that glog may touch when it creates its log file in one of the
directories: the log file and the symbolic link in each. -/
def glogLocsOf (env : Env Spec Pkg) : List GoString → List AbsPath
  | [] => []
  | dir :: dirs =>
    resolve env.cwd (Join dir env.glogFile) :: resolve env.cwd (Join dir env.glogLink)
      :: glogLocsOf env dirs

/-- The locations that glog may touch in a run with the command line `cmdline`. -/
def glogLocs (env : Env Spec Pkg) (cmdline : List GoString) : List AbsPath :=
  glogLocsOf env (glogDirs env cmdline)

/-- A file operation at one of the locations `locs`: a `Create`, a `Write`, a `Remove`
or a `Symlink` (no `Mkdir`, and no call of a collaborator). -/
def Event.isFileOpAt (locs : List AbsPath) : Event → Prop
  | .create loc => loc ∈ locs
  | .write loc _ => loc ∈ locs
  | .remove loc => loc ∈ locs
  | .symlink loc _ => loc ∈ locs
  | _ => False

/-! # Theorems -/

/-! ## Argument handling and schema loading -/

/-- C3: when flag parsing leaves fewer than two positional arguments, `main` writes
the usage line (with the program name filled in) to standard error, exits with
status 1, attempts no call at all (no read, no unmarshal, no importer, no generator,
no file operation), and leaves the file system as it was. -/
theorem main_usage (env : Env Spec Pkg) (prog : GoString) (cmdline args : List GoString)
    (w : World) (hparse : flagParse env cmdline = .args args) (hlen : args.length < 2) :
    (main env prog cmdline w).1 = 1 ∧
    (main env prog cmdline w).2.stderr =
      w.stderr ++ ["error: usage: ".toList ++ prog ++ " <out-dir> <provider-schema-file>\n".toList] ∧
    (main env prog cmdline w).2.trace = w.trace ∧
    (main env prog cmdline w).2.fs = w.fs := by
  unfold main
  rw [hparse]
  match args, hlen with
  | [], _ => simp [usage]
  | [_], _ => simp [usage]
  | _ :: _ :: _, h => simp at h; omega

theorem main_usage_witness :
    flagParse (sampleEnv emptyMap) ["-v".toList, "2".toList, "out".toList]
      = .args ["out".toList] ∧
    (main (sampleEnv emptyMap) "templategen".toList
      ["-v".toList, "2".toList, "out".toList] sampleWorld).1 = 1 :=
  ⟨by decide, (main_usage (sampleEnv emptyMap) "templategen".toList
    ["-v".toList, "2".toList, "out".toList] ["out".toList] sampleWorld
    (by decide) (by decide)).1⟩

/-- `ioutil.ReadFile` changes nothing but the trace. -/
theorem ReadFile_world (env : Env Spec Pkg) (filename : GoString) (w : World) :
    (ReadFile env filename w).2 = w.log (.readFile filename) := by
  unfold ReadFile
  dsimp only
  split
  · rfl
  · split
    · rfl
    · rfl
    · split <;> rfl

/-- A walk that succeeds ends where the elements lead. -/
theorem walkPath_ok (fs : FS) (es : List GoString) :
    ∀ (reached r : List GoString), walkPath fs es reached = .ok r →
      r = es.foldl walkStep reached := by
  induction es with
  | nil => intro reached r h; simp [walkPath] at h; exact h.symm
  | cons e es ih =>
    intro reached r h
    unfold walkPath at h
    split at h
    · exact ih _ r h
    · cases h
    · cases h

/-- The location that a path as given names is the one that `resolve` computes. -/
theorem lookup_ok (fs : FS) (cwd : AbsPath) (p : GoString) (loc : AbsPath)
    (h : lookup fs cwd p = .ok loc) : loc = resolve cwd p := by
  unfold lookup at h
  split at h
  · cases h
  · split at h
    · rename_i reached hw
      cases h
      rw [walkPath_ok fs _ _ _ hw]
      rfl
    · cases h

/-- Reading a path that names nothing fails. -/
theorem ReadFile_missing (env : Env Spec Pkg) (filename : GoString) (w : World)
    (h : w.fs (resolve env.cwd filename) = none) :
    ∃ e, (ReadFile env filename w).1 = .error e := by
  unfold ReadFile
  dsimp only
  split
  · exact ⟨_, rfl⟩
  · split
    · exact ⟨_, rfl⟩
    · exact ⟨_, rfl⟩
    · rename_i loc hl
      rw [lookup_ok _ _ _ _ hl, h]
      exact ⟨_, rfl⟩

/-- When `glog.Infof` ends the process, it is with status 2. -/
theorem glogInfof_code (env : Env Spec Pkg) (cmdline : List GoString) (msg : GoString)
    (w : World) :
    (glogInfof env cmdline msg w).1 = none ∨ (glogInfof env cmdline msg w).1 = some 2 := by
  unfold glogInfof
  split
  · exact Or.inl rfl
  · split
    · exact Or.inr rfl
    · exact Or.inl rfl

/-- A failing run ends with status 1, or with status 2 when glog ended it. -/
theorem exitLogged_code (env : Env Spec Pkg) (cmdline : List GoString) (msg : GoString)
    (w : World) :
    (exitLogged env cmdline msg w).1 = 1 ∨ (exitLogged env cmdline msg w).1 = 2 := by
  have h := glogInfof_code env cmdline msg w
  unfold exitLogged
  rcases hg : glogInfof env cmdline msg w with ⟨r, w1⟩
  rw [hg] at h
  rcases h with h | h
  · dsimp only at h; subst h; exact Or.inl rfl
  · dsimp only at h; subst h; exact Or.inr rfl

/-! ## Errors of the collaborators -/

/-- C10: when the importer fails with `e`, `generateDocsFromSchema` returns `e`
wrapped: the text of the error begins with `error importing package spec` and its
cause is `e`; the importer is the only call attempted (the generator is never
called) and the file system is as before. -/
theorem generateDocsFromSchema_import_error (env : Env Spec Pkg) (outDir : GoString)
    (spec : Spec) (w : World) (e : GoError) (himport : env.ImportSpec spec = .error e) :
    ∃ err, (generateDocsFromSchema env outDir spec w).1 = some err ∧
      "error importing package spec".toList <+: err.Error ∧
      err.context = "error importing package spec: ".toList ++ e.Error ∧
      err.cause = some e ∧
      (generateDocsFromSchema env outDir spec w).2.trace = w.trace ++ [.importSpec] ∧
      (generateDocsFromSchema env outDir spec w).2.fs = w.fs := by
  unfold generateDocsFromSchema
  rw [himport]
  refine ⟨_, rfl, ?_, rfl, rfl, rfl, rfl⟩
  exact ⟨": ".toList ++ e.Error ++ ": ".toList ++ e.Error, by simp [Wrap, GoError.Error]⟩

/-- An environment whose importer fails with `e`. -/
theorem generateDocsFromSchema_import_error_witness :
    ∃ err, (generateDocsFromSchema
        { sampleEnv emptyMap with ImportSpec := fun _ => .error (.leaf "bad schema".toList) }
        "out".toList () sampleWorld).1 = some err ∧
      err.cause = some (.leaf "bad schema".toList) :=
  have h := generateDocsFromSchema_import_error
    { sampleEnv emptyMap with ImportSpec := fun _ => .error (.leaf "bad schema".toList) }
    "out".toList () sampleWorld (.leaf "bad schema".toList) rfl
  h.elim fun err he => ⟨err, he.1, he.2.2.2.1⟩

/-- C9 (as stated, refuted): when the generator fails with the error `boom`, the
error that `generateDocsFromSchema` returns does not read `generating package: boom`
(it reads `generating Pulumi package: boom`). -/
theorem generateDocsFromSchema_generate_error_text :
    (generateDocsFromSchema
      { sampleEnv emptyMap with GeneratePackage := fun _ _ => .error (.leaf "boom".toList) }
      "out".toList () sampleWorld).1.map GoError.Error
      ≠ some ("generating package".toList ++ ": ".toList ++ "boom".toList) ∧
    (generateDocsFromSchema
      { sampleEnv emptyMap with GeneratePackage := fun _ _ => .error (.leaf "boom".toList) }
      "out".toList () sampleWorld).1.map GoError.Error
      = some "generating Pulumi package: boom".toList := by
  decide

/-- C9 (amended): when the importer succeeds and the generator fails with `e`,
`generateDocsFromSchema` returns `e` wrapped with the context
`generating Pulumi package`: the text of the error is that context, `": "` and the
text of `e`, and its cause is `e`; the importer and the generator are the only calls
attempted, so no file is written, and the file system is as before. -/
theorem generateDocsFromSchema_generate_error (env : Env Spec Pkg) (outDir : GoString)
    (spec : Spec) (w : World) (pulPkg : Pkg) (e : GoError)
    (himport : env.ImportSpec spec = .ok pulPkg)
    (hgen : env.GeneratePackage toolName pulPkg = .error e) :
    ∃ err, (generateDocsFromSchema env outDir spec w).1 = some err ∧
      err.Error = "generating Pulumi package".toList ++ ": ".toList ++ e.Error ∧
      err.cause = some e ∧
      (generateDocsFromSchema env outDir spec w).2.trace =
        w.trace ++ [.importSpec, .generatePackage] ∧
      (generateDocsFromSchema env outDir spec w).2.fs = w.fs := by
  unfold generateDocsFromSchema
  rw [himport]
  dsimp only
  rw [hgen]
  exact ⟨_, rfl, rfl, rfl, by simp [World.log], rfl⟩

theorem generateDocsFromSchema_generate_error_witness :
    ∃ err, (generateDocsFromSchema
        { sampleEnv emptyMap with GeneratePackage := fun _ _ => .error (.leaf "boom".toList) }
        "out".toList () sampleWorld).1 = some err ∧
      err.Error = "generating Pulumi package".toList ++ ": ".toList ++ "boom".toList :=
  have h := generateDocsFromSchema_generate_error
    { sampleEnv emptyMap with GeneratePackage := fun _ _ => .error (.leaf "boom".toList) }
    "out".toList () sampleWorld () (.leaf "boom".toList) rfl rfl
  h.elim fun err he => ⟨err, he.1, he.2.1⟩

/-! ## The file system under the operations -/

theorem Grows.refl (fs : FS) : Grows fs fs := fun _ => Or.inl rfl

theorem Grows.trans {a b c : FS} (h1 : Grows a b) (h2 : Grows b c) : Grows a c := by
  intro q
  rcases h1 q with h | ⟨h, h'⟩ <;> rcases h2 q with g | ⟨g, g'⟩
  · exact Or.inl (g.trans h)
  · exact Or.inr ⟨h ▸ g, g'⟩
  · exact Or.inr ⟨h, g.trans h'⟩
  · rw [h'] at g; cases g

theorem FS.set_same (fs : FS) (loc : AbsPath) (n : Node) : fs.set loc n loc = some n := by
  simp [FS.set]

theorem FS.set_other (fs : FS) (loc q : AbsPath) (n : Node) (h : q ≠ loc) :
    fs.set loc n q = fs q := by
  simp [FS.set, h]

theorem Grows.of_set_dir {fs : FS} {loc : AbsPath} (h : fs loc = none) :
    Grows fs (fs.set loc .dir) := by
  intro q
  by_cases hq : q = loc
  · subst hq; exact Or.inr ⟨h, FS.set_same fs q .dir⟩
  · exact Or.inl (FS.set_other fs loc q .dir hq)

theorem dropLast_ne_self {α : Type} (l : List α) (h : l ≠ []) : l.dropLast ≠ l := by
  intro heq
  have := congrArg List.length heq
  rw [List.length_dropLast] at this
  have hpos : 0 < l.length := List.length_pos.mpr h
  omega

theorem FS.WF.set_dir {fs : FS} {loc : AbsPath} (hwf : fs.WF) (hne : loc ≠ [])
    (hparent : fs loc.dropLast = some .dir) : (fs.set loc .dir).WF := by
  refine ⟨by rw [FS.set_other _ _ _ _ (Ne.symm hne)]; exact hwf.1, ?_⟩
  intro l hl hsome
  by_cases h1 : l.dropLast = loc
  · rw [h1]; exact FS.set_same fs loc .dir
  · rw [FS.set_other _ _ _ _ h1]
    by_cases h2 : l = loc
    · subst h2; exact hparent
    · rw [FS.set_other _ _ _ _ h2] at hsome
      exact hwf.2 l hl hsome

theorem FS.WF.set_file {fs : FS} {loc : AbsPath} (c : Bytes) (hwf : fs.WF) (hne : loc ≠ [])
    (hparent : fs loc.dropLast = some .dir) (hnd : fs loc ≠ some .dir) :
    (fs.set loc (.file c)).WF := by
  refine ⟨by rw [FS.set_other _ _ _ _ (Ne.symm hne)]; exact hwf.1, ?_⟩
  intro l hl hsome
  have hpl : loc.dropLast ≠ loc := dropLast_ne_self loc hne
  by_cases h2 : l = loc
  · subst h2
    rw [FS.set_other _ _ _ _ hpl]; exact hparent
  · rw [FS.set_other _ _ _ _ h2] at hsome
    have := hwf.2 l hl hsome
    by_cases h1 : l.dropLast = loc
    · rw [h1] at this; exact absurd this hnd
    · rw [FS.set_other _ _ _ _ h1]; exact this

/-- In a tree-shaped file system, whatever lies above something that exists is a
directory. -/
theorem FS.WF.prefix_dir {fs : FS} (hwf : fs.WF) :
    ∀ (s a : AbsPath), fs (a ++ s) ≠ none → s ≠ [] → fs a = some .dir := by
  intro s
  induction s using List.reverseRecOn with
  | nil => intro a _ h; exact absurd rfl h
  | append_singleton s x ih =>
    intro a hex _
    have hne : a ++ (s ++ [x]) ≠ [] := by simp
    have hp := hwf.2 _ hne hex
    have hdl : (a ++ (s ++ [x])).dropLast = a ++ s := by
      rw [← List.append_assoc, List.dropLast_concat]
    rw [hdl] at hp
    by_cases hs : s = []
    · subst hs; simpa using hp
    · exact ih a (by rw [hp]; simp) hs

theorem World.log_fs (w : World) (e : Event) : (w.log e).fs = w.fs := rfl

theorem World.log_trace (w : World) (e : Event) : (w.log e).trace = w.trace ++ [e] := rfl

/-- What `os.Mkdir` does to the world. -/
theorem Mkdir_spec (env : Env Spec Pkg) (name : GoString) (w : World) :
    Grows w.fs (Mkdir env name w).2.fs ∧
    (Mkdir env name w).2.trace = w.trace ++ [.mkdir (resolve env.cwd name)] ∧
    (w.fs.WF → (Mkdir env name w).2.fs.WF) ∧
    ((Mkdir env name w).1 = none →
      (Mkdir env name w).2.fs (resolve env.cwd name) = some .dir) := by
  unfold Mkdir
  dsimp only
  split
  · exact ⟨Grows.refl _, rfl, id, fun h => by cases h⟩
  · split
    · exact ⟨Grows.refl _, rfl, id, fun h => by cases h⟩
    · rename_i hnone
      split
      · rename_i hp
        exact ⟨Grows.of_set_dir hnone, rfl, fun hwf => hwf.set_dir hp.1 hp.2,
          fun _ => FS.set_same _ _ _⟩
      · exact ⟨Grows.refl _, rfl, id, fun h => by cases h⟩

/-- What `os.MkdirAll` does to the world, whatever its outcome: directories are
added and nothing else changes, the calls it makes are `Mkdir` calls, the tree shape
is kept, and when it reports success the path names a directory. -/
theorem mkdirAllLoop_spec (env : Env Spec Pkg) :
    ∀ (budget : Nat) (path : GoString) (w : World),
      Grows w.fs (mkdirAllLoop env budget path w).2.fs ∧
      (∃ t, (mkdirAllLoop env budget path w).2.trace = w.trace ++ t ∧
        ∀ e ∈ t, ∃ l, e = Event.mkdir l) ∧
      (w.fs.WF → (mkdirAllLoop env budget path w).2.fs.WF) ∧
      ((mkdirAllLoop env budget path w).1 = none →
        (mkdirAllLoop env budget path w).2.fs (resolve env.cwd path) = some .dir) := by
  intro budget
  induction budget with
  | zero =>
    intro path w
    exact ⟨Grows.refl _, ⟨[], by simp [mkdirAllLoop], by simp⟩, id, fun h => by cases h⟩
  | succ n ih =>
    intro path w
    unfold mkdirAllLoop
    split
    · rename_i hst
      exact ⟨Grows.refl _, ⟨[], by simp, by simp⟩, id, fun _ => hst⟩
    · exact ⟨Grows.refl _, ⟨[], by simp, by simp⟩, id, fun h => by cases h⟩
    · -- the path names nothing: parent first
      have hup : ∀ up : Option GoError × World,
          up = (match mkdirAllParent path with
            | some parent => mkdirAllLoop env n parent w
            | none => (none, w)) →
          Grows w.fs up.2.fs ∧
          (∃ t, up.2.trace = w.trace ++ t ∧ ∀ e ∈ t, ∃ l, e = Event.mkdir l) ∧
          (w.fs.WF → up.2.fs.WF) := by
        intro up hup
        subst hup
        split
        · rename_i parent _
          exact ⟨(ih parent w).1, (ih parent w).2.1, (ih parent w).2.2.1⟩
        · exact ⟨Grows.refl _, ⟨[], by simp, by simp⟩, id⟩
      generalize (match mkdirAllParent path with
            | some parent => mkdirAllLoop env n parent w
            | none => (none, w)) = up at hup
      obtain ⟨hg, ⟨t, ht, hte⟩, hwf⟩ := hup up rfl
      rcases up with ⟨r, w1⟩
      dsimp only at hg ht hwf ⊢
      cases r with
      | some err => exact ⟨hg, ⟨t, ht, hte⟩, hwf, fun h => by cases h⟩
      | none =>
        dsimp only
        have hm := Mkdir_spec env path w1
        rcases hmk : Mkdir env path w1 with ⟨r2, w2⟩
        rw [hmk] at hm
        dsimp only at hm
        have htr : ∃ t', w2.trace = w.trace ++ t' ∧ ∀ e ∈ t', ∃ l, e = Event.mkdir l := by
          refine ⟨t ++ [.mkdir (resolve env.cwd path)], ?_, ?_⟩
          · rw [hm.2.1, ht, List.append_assoc]
          · intro e he
            rcases List.mem_append.mp he with h | h
            · exact hte e h
            · exact ⟨_, List.mem_singleton.mp h⟩
        cases r2 with
        | none => exact ⟨hg.trans hm.1, htr, fun h => hm.2.2.1 (hwf h), fun _ => hm.2.2.2 rfl⟩
        | some err =>
          dsimp only
          split
          · rename_i hst
            exact ⟨hg.trans hm.1, htr, fun h => hm.2.2.1 (hwf h), fun _ => hst⟩
          · exact ⟨hg.trans hm.1, htr, fun h => hm.2.2.1 (hwf h), fun h => by cases h⟩

/-- What `os.Create` does to the world. -/
theorem Create_spec (env : Env Spec Pkg) (name : GoString) (w : World) :
    (Create env name w).2.trace = w.trace ++ [.create (resolve env.cwd name)] ∧
    (w.fs.WF → (Create env name w).2.fs.WF) ∧
    ((Create env name w).1 = none →
      (Create env name w).2.fs = w.fs.set (resolve env.cwd name) (.file []) ∧
      w.fs (resolve env.cwd name) ≠ some .dir ∧
      env.fault w.trace (.create (resolve env.cwd name)) = none) ∧
    ((Create env name w).1 ≠ none → (Create env name w).2.fs = w.fs) := by
  unfold Create
  dsimp only
  split
  · exact ⟨rfl, id, (fun h => by cases h), fun _ => rfl⟩
  · rename_i hfault
    split
    · exact ⟨rfl, id, (fun h => by cases h), fun _ => rfl⟩
    · rename_i old hfile
      refine ⟨rfl, fun hwf => ?_, fun _ => ⟨rfl, by rw [hfile]; simp, hfault⟩,
        fun h => absurd rfl h⟩
      have hne : resolve env.cwd name ≠ [] := by
        intro h0; rw [h0, hwf.1] at hfile; cases hfile
      exact hwf.set_file [] hne (hwf.2 _ hne (by rw [hfile]; simp)) (by rw [hfile]; simp)
    · rename_i hnone
      split
      · rename_i hp
        exact ⟨rfl, fun hwf => hwf.set_file [] hp.1 hp.2 (by rw [hnone]; simp),
          fun _ => ⟨rfl, by rw [hnone]; simp, hfault⟩, fun h => absurd rfl h⟩
      · exact ⟨rfl, id, (fun h => by cases h), fun _ => rfl⟩

/-- What `Write` does to the world. -/
theorem Write_spec (env : Env Spec Pkg) (name : GoString) (b : Bytes) (w : World) :
    (Write env name b w).2.trace = w.trace ++ [.write (resolve env.cwd name) b] ∧
    (w.fs.WF → (Write env name b w).2.fs.WF) ∧
    (∀ q, q ≠ resolve env.cwd name → (Write env name b w).2.fs q = w.fs q) ∧
    (∀ old, w.fs (resolve env.cwd name) = some (.file old) →
      ∃ c, (Write env name b w).2.fs (resolve env.cwd name) = some (.file c) ∧
        ((Write env name b w).1 = none → c = overwrite old b) ∧
        (env.fault w.trace (.write (resolve env.cwd name) b) = none →
          (Write env name b w).1 = none)) := by
  unfold Write
  dsimp only
  split
  · rename_i old hfile
    have hwf : ∀ c, w.fs.WF → (w.fs.set (resolve env.cwd name) (.file c)).WF := by
      intro c hwf
      have hne : resolve env.cwd name ≠ [] := by
        intro h0; rw [h0, hwf.1] at hfile; cases hfile
      exact hwf.set_file c hne (hwf.2 _ hne (by rw [hfile]; simp)) (by rw [hfile]; simp)
    split
    · rename_i e hfault
      refine ⟨rfl, hwf _, fun q hq => FS.set_other _ _ _ _ hq, ?_⟩
      intro old' _
      exact ⟨_, FS.set_same _ _ _, (fun h => by cases h), (fun h => by rw [hfault] at h; cases h)⟩
    · refine ⟨rfl, hwf _, fun q hq => FS.set_other _ _ _ _ hq, ?_⟩
      intro old' hold'
      rw [hfile] at hold'
      cases hold'
      exact ⟨_, FS.set_same _ _ _, fun _ => rfl, fun _ => rfl⟩
  · rename_i hnf
    refine ⟨rfl, id, fun _ _ => rfl, ?_⟩
    intro old hold
    exact absurd hold (hnf old)

theorem overwrite_nil (b : Bytes) : overwrite [] b = b := by
  simp [overwrite]

theorem writes_append (t u : List Event) : writes (t ++ u) = writes t ++ writes u := by
  induction t with
  | nil => rfl
  | cons e t ih => cases e <;> simp [writes, ih]

theorem writes_mkdirs (t : List Event) (h : ∀ e ∈ t, ∃ l, e = Event.mkdir l) :
    writes t = [] := by
  induction t with
  | nil => rfl
  | cons e t ih =>
    obtain ⟨l, hl⟩ := h e (List.mem_cons_self _ _)
    subst hl
    simp only [writes]
    exact ih (fun e he => h e (List.mem_cons_of_mem _ he))

/-- The ways `emitFile` can end. The directory is ensured first, in a world `w1`
that differs from the start by directories added; then either that failed and the
error is wrapped with `creating directory`, or the parent is a directory in `w1` and
the file is created there: a failing `Create` is wrapped with `creating file` and
leaves `w1`, and otherwise the destination holds a file with the bytes that
`Write` left, which are `contents` when `Write` reports no error. -/
theorem emitFile_cases (env : Env Spec Pkg) (outDir relPath : GoString) (contents : Bytes)
    (w : World) :
    ∃ r1 w1, EnsureDir env (Dir (Join outDir relPath)) w = (r1, w1) ∧
      Grows w.fs w1.fs ∧
      (∃ t, w1.trace = w.trace ++ t ∧ ∀ e ∈ t, ∃ l, e = Event.mkdir l) ∧
      (w.fs.WF → w1.fs.WF) ∧
      ((∃ e, r1 = some e ∧
          emitFile env outDir relPath contents w
            = (some (Wrap e "creating directory".toList), w1)) ∨
       (r1 = none ∧ w1.fs (resolve env.cwd (Dir (Join outDir relPath))) = some .dir ∧
        ((∃ e, (Create env (Join outDir relPath) w1).1 = some e ∧
            emitFile env outDir relPath contents w
              = (some (Wrap e "creating file".toList),
                  w1.log (.create (dest env outDir relPath)))) ∨
         (∃ c, w1.fs (dest env outDir relPath) ≠ some .dir ∧
            env.fault w1.trace (.create (dest env outDir relPath)) = none ∧
            (emitFile env outDir relPath contents w).2.fs
              = w1.fs.set (dest env outDir relPath) (.file c) ∧
            (emitFile env outDir relPath contents w).2.trace
              = w1.trace ++ [.create (dest env outDir relPath),
                  .write (dest env outDir relPath) contents] ∧
            ((emitFile env outDir relPath contents w).1 = none → c = contents) ∧
            (env.fault (w1.trace ++ [.create (dest env outDir relPath)])
                (.write (dest env outDir relPath) contents) = none →
              (emitFile env outDir relPath contents w).1 = none))))) := by
  have hmk := mkdirAllLoop_spec env ((Dir (Join outDir relPath)).length + 1)
    (Dir (Join outDir relPath)) w
  unfold emitFile
  dsimp only
  rcases he : EnsureDir env (Dir (Join outDir relPath)) w with ⟨r1, w1⟩
  have he' : mkdirAllLoop env ((Dir (Join outDir relPath)).length + 1)
      (Dir (Join outDir relPath)) w = (r1, w1) := he
  rw [he'] at hmk
  dsimp only at hmk
  refine ⟨r1, w1, rfl, hmk.1, hmk.2.1, hmk.2.2.1, ?_⟩
  cases r1 with
  | some e => exact Or.inl ⟨e, rfl, rfl⟩
  | none =>
    refine Or.inr ⟨rfl, hmk.2.2.2 rfl, ?_⟩
    dsimp only
    have hc := Create_spec env (Join outDir relPath) w1
    rcases hcr : Create env (Join outDir relPath) w1 with ⟨r2, w2⟩
    rw [hcr] at hc
    dsimp only at hc
    cases r2 with
    | some e =>
      refine Or.inl ⟨e, rfl, ?_⟩
      dsimp only
      have hfs := hc.2.2.2 (by simp)
      have htr := hc.1
      have : w2 = w1.log (.create (dest env outDir relPath)) := by
        have hw2 : w2 = (Create env (Join outDir relPath) w1).2 := by rw [hcr]
        rw [hw2]
        unfold Create
        dsimp only
        split
        · rfl
        · split
          · rfl
          · exfalso
            rename_i hf _ _ hfile
            have : (Create env (Join outDir relPath) w1).1 = none := by
              unfold Create
              dsimp only
              rw [hf, hfile]
            rw [hcr] at this
            cases this
          · split
            · exfalso
              rename_i hf _ hnone hp
              have : (Create env (Join outDir relPath) w1).1 = none := by
                unfold Create
                dsimp only
                rw [hf, hnone, if_pos hp]
              rw [hcr] at this
              cases this
            · rfl
      rw [this]
    | none =>
      refine Or.inr ?_
      dsimp only
      obtain ⟨hfs2, hnd, hnf⟩ := hc.2.2.1 rfl
      have hws := Write_spec env (Join outDir relPath) contents w2
      have hfile2 : w2.fs (resolve env.cwd (Join outDir relPath)) = some (.file []) := by
        rw [hfs2]; exact FS.set_same _ _ _
      obtain ⟨c, hc1, hc2, hc3⟩ := hws.2.2.2 [] hfile2
      refine ⟨c, hnd, hnf, ?_, ?_, ?_, ?_⟩
      · funext q
        by_cases hq : q = dest env outDir relPath
        · rw [hq, FS.set_same]; exact hc1
        · rw [FS.set_other _ _ _ _ hq, hws.2.2.1 q hq, hfs2]
          exact FS.set_other _ _ _ _ hq
      · rw [hws.1, hc.1, List.append_assoc]; rfl
      · intro h; rw [hc2 h, overwrite_nil]
      · intro h
        apply hc3
        rw [hc.1]
        exact h

/-- Whatever its outcome, `emitFile` leaves every location other than its
destination as it was, or with a directory where there was nothing. -/
theorem emitFile_frame (env : Env Spec Pkg) (outDir relPath : GoString) (contents : Bytes)
    (w : World) (q : AbsPath) (hq : q ≠ dest env outDir relPath) :
    (emitFile env outDir relPath contents w).2.fs q = w.fs q ∨
    (w.fs q = none ∧ (emitFile env outDir relPath contents w).2.fs q = some .dir) := by
  obtain ⟨r1, w1, _, hg, _, _, hcase⟩ := emitFile_cases env outDir relPath contents w
  rcases hcase with ⟨e, _, h⟩ | ⟨_, _, ⟨e, _, h⟩ | ⟨c, _, _, hfs, _⟩⟩
  · rw [h]; exact hg q
  · rw [h]; exact hg q
  · rw [hfs, FS.set_other _ _ _ _ hq]; exact hg q

/-- Whatever its outcome, the calls that `emitFile` attempts are `Mkdir` calls, the
`Create` of its destination and the `Write` of its contents to its destination. -/
theorem emitFile_trace (env : Env Spec Pkg) (outDir relPath : GoString) (contents : Bytes)
    (w : World) :
    ∃ t, (emitFile env outDir relPath contents w).2.trace = w.trace ++ t ∧
      ∀ e ∈ t, (∃ l, e = Event.mkdir l) ∨ e = .create (dest env outDir relPath) ∨
        e = .write (dest env outDir relPath) contents := by
  obtain ⟨r1, w1, _, _, ⟨t, ht, hte⟩, _, hcase⟩ := emitFile_cases env outDir relPath contents w
  have hmk : ∀ e ∈ t, (∃ l, e = Event.mkdir l) ∨ e = .create (dest env outDir relPath) ∨
      e = .write (dest env outDir relPath) contents := fun e he => Or.inl (hte e he)
  rcases hcase with ⟨e, _, h⟩ | ⟨_, _, ⟨e, _, h⟩ | ⟨c, _, _, _, htr, _⟩⟩
  · rw [h]; exact ⟨t, ht, hmk⟩
  · rw [h]
    refine ⟨t ++ [.create (dest env outDir relPath)], ?_, ?_⟩
    · rw [World.log_trace, ht, List.append_assoc]
    · intro e he
      rcases List.mem_append.mp he with h1 | h1
      · exact hmk e h1
      · exact Or.inr (Or.inl (List.mem_singleton.mp h1))
  · refine ⟨t ++ [.create (dest env outDir relPath),
      .write (dest env outDir relPath) contents], ?_, ?_⟩
    · rw [htr, ht, List.append_assoc]
    · intro e he
      rcases List.mem_append.mp he with h1 | h1
      · exact hmk e h1
      · simp only [List.mem_cons, List.mem_singleton, List.not_mem_nil, or_false] at h1
        exact Or.inr h1

/-- An `emitFile` that reports no error: the destination holds exactly `contents`,
directories are still directories, files are still files, the parent of the
destination is a directory, and one write was made, of `contents` to the
destination. -/
theorem emitFile_ok (env : Env Spec Pkg) (outDir relPath : GoString) (contents : Bytes)
    (w : World) (hok : (emitFile env outDir relPath contents w).1 = none) :
    (emitFile env outDir relPath contents w).2.fs (dest env outDir relPath)
      = some (.file contents) ∧
    (∀ q, w.fs q = some .dir →
      (emitFile env outDir relPath contents w).2.fs q = some .dir) ∧
    (∀ q c, w.fs q = some (.file c) →
      ∃ c1, (emitFile env outDir relPath contents w).2.fs q = some (.file c1)) ∧
    (emitFile env outDir relPath contents w).2.fs
      (resolve env.cwd (Dir (Join outDir relPath))) = some .dir ∧
    (∃ t, (emitFile env outDir relPath contents w).2.trace = w.trace ++ t ∧
      writes t = [(dest env outDir relPath, contents)]) := by
  obtain ⟨r1, w1, _, hg, ⟨t, ht, hte⟩, _, hcase⟩ := emitFile_cases env outDir relPath contents w
  rcases hcase with ⟨e, _, h⟩ | ⟨_, hdir, ⟨e, _, h⟩ | ⟨c, hnd, _, hfs, htr, hc, _⟩⟩
  · rw [h] at hok; cases hok
  · rw [h] at hok; cases hok
  · have hcc := hc hok
    rw [hcc] at hfs
    have hdirs : ∀ q, w.fs q = some .dir →
        (emitFile env outDir relPath contents w).2.fs q = some .dir := by
      intro q hqd
      have h1 : w1.fs q = some .dir := by
        rcases hg q with h | ⟨h, _⟩
        · rw [h]; exact hqd
        · rw [h] at hqd; cases hqd
      have hne : q ≠ dest env outDir relPath := by
        intro heq; rw [heq] at h1; exact hnd h1
      rw [hfs, FS.set_other _ _ _ _ hne]; exact h1
    refine ⟨by rw [hfs]; exact FS.set_same _ _ _, hdirs, ?_, ?_, ?_⟩
    · intro q c0 hq
      by_cases hqd : q = dest env outDir relPath
      · exact ⟨contents, by rw [hfs, hqd]; exact FS.set_same _ _ _⟩
      · refine ⟨c0, ?_⟩
        rw [hfs, FS.set_other _ _ _ _ hqd]
        rcases hg q with h | ⟨h, _⟩
        · rw [h]; exact hq
        · rw [h] at hq; cases hq
    · have hne : resolve env.cwd (Dir (Join outDir relPath)) ≠ dest env outDir relPath := by
        intro heq; rw [heq] at hdir; exact hnd hdir
      rw [hfs, FS.set_other _ _ _ _ hne]; exact hdir
    · refine ⟨t ++ [.create (dest env outDir relPath),
        .write (dest env outDir relPath) contents], ?_, ?_⟩
      · rw [htr, ht, List.append_assoc]
      · rw [writes_append, writes_mkdirs t hte]; rfl

/-! ## The loop over the generated files -/

/-- The loop over a visit in two parts: the second part runs in the world the first
part left, unless the first part ended in an error. -/
theorem emitAll_append (env : Env Spec Pkg) (outDir : GoString)
    (pre rest : List (GoString × Bytes)) (w : World) :
    emitAll env outDir (pre ++ rest) w =
      match emitAll env outDir pre w with
      | (some err, w1) => (some err, w1)
      | (none, w1) => emitAll env outDir rest w1 := by
  induction pre generalizing w with
  | nil => rfl
  | cons x pre ih =>
    obtain ⟨f, contents⟩ := x
    simp only [List.cons_append, emitAll]
    rcases emitFile env outDir f contents w with ⟨r, w1⟩
    cases r with
    | some err => rfl
    | none => exact ih w1

/-- Whatever its outcome, the loop leaves every location that is not a destination of
a visited entry as it was, or with a directory where there was nothing. -/
theorem emitAll_frame (env : Env Spec Pkg) (outDir : GoString)
    (l : List (GoString × Bytes)) (w : World) (q : AbsPath)
    (hq : q ∉ l.map (fun e => dest env outDir e.1)) :
    (emitAll env outDir l w).2.fs q = w.fs q ∨
    (w.fs q = none ∧ (emitAll env outDir l w).2.fs q = some .dir) := by
  induction l generalizing w with
  | nil => exact Or.inl rfl
  | cons x l ih =>
    obtain ⟨f, contents⟩ := x
    simp only [List.map_cons, List.mem_cons, not_or] at hq
    have h1 := emitFile_frame env outDir f contents w q hq.1
    simp only [emitAll]
    rcases hemit : emitFile env outDir f contents w with ⟨r, w1⟩
    rw [hemit] at h1
    cases r with
    | some err => exact h1
    | none =>
      dsimp only at h1 ⊢
      rcases ih w1 hq.2 with h2 | ⟨h2, h2'⟩
      · rcases h1 with h1 | ⟨h1, h1'⟩
        · exact Or.inl (h2.trans h1)
        · exact Or.inr ⟨h1, h2.trans h1'⟩
      · rcases h1 with h1 | ⟨h1, h1'⟩
        · exact Or.inr ⟨h1 ▸ h2, h2'⟩
        · rw [h1'] at h2; cases h2

/-- A loop that ends without an error: directories are still directories, files
are still files, after it the destination of every visited entry is a file whose
parent is a directory, the writes made are those of the entries in the order of the
visit, and when the destinations of the visited entries are pairwise different, each
holds exactly the contents of its entry. -/
theorem emitAll_ok (env : Env Spec Pkg) (outDir : GoString)
    (l : List (GoString × Bytes)) (w : World)
    (hok : (emitAll env outDir l w).1 = none) :
    (∀ q, w.fs q = some .dir → (emitAll env outDir l w).2.fs q = some .dir) ∧
    (∀ q c, w.fs q = some (.file c) →
      ∃ c1, (emitAll env outDir l w).2.fs q = some (.file c1)) ∧
    (∀ e ∈ l,
      (emitAll env outDir l w).2.fs (resolve env.cwd (Dir (Join outDir e.1))) = some .dir ∧
      ∃ c, (emitAll env outDir l w).2.fs (dest env outDir e.1) = some (.file c)) ∧
    (∃ t, (emitAll env outDir l w).2.trace = w.trace ++ t ∧
      writes t = l.map (fun e => (dest env outDir e.1, e.2))) ∧
    ((l.map (fun e => dest env outDir e.1)).Nodup →
      ∀ e ∈ l, (emitAll env outDir l w).2.fs (dest env outDir e.1) = some (.file e.2)) := by
  induction l generalizing w with
  | nil =>
    exact ⟨fun _ h => h, fun _ c h => ⟨c, h⟩, by simp, ⟨[], by simp [emitAll], rfl⟩, by simp⟩
  | cons x l ih =>
    obtain ⟨f, contents⟩ := x
    simp only [emitAll] at hok ⊢
    have h1 := emitFile_ok env outDir f contents w
    rcases hemit : emitFile env outDir f contents w with ⟨r, w1⟩
    rw [hemit] at hok h1
    cases r with
    | some err => cases hok
    | none =>
      dsimp only at hok h1 ⊢
      obtain ⟨hdest, hdirs, hfiles, hparent, t1, ht1, hw1⟩ := h1 rfl
      obtain ⟨idirs, ifiles, ieach, ⟨t2, ht2, hw2⟩, icontents⟩ := ih w1 hok
      refine ⟨fun q h => idirs q (hdirs q h), ?_, ?_, ?_, ?_⟩
      · intro q c h
        obtain ⟨c1, h1⟩ := hfiles q c h
        exact ifiles q c1 h1
      · intro e he
        rcases List.mem_cons.mp he with h | h
        · subst h
          exact ⟨idirs _ hparent, ifiles _ _ hdest⟩
        · exact ieach e h
      · refine ⟨t1 ++ t2, ?_, ?_⟩
        · rw [ht2, ht1, List.append_assoc]
        · rw [writes_append, hw1, hw2]; rfl
      · intro hnd e he
        rw [List.map_cons, List.nodup_cons] at hnd
        rcases List.mem_cons.mp he with h | h
        · subst h
          rcases emitAll_frame env outDir l w1 _ hnd.1 with h2 | ⟨h2, _⟩
          · rw [h2]; exact hdest
          · rw [hdest] at h2; cases h2
        · exact icontents hnd.2 e h

/-! ## A whole run -/

/-- The world in which the loop over the generated files starts: the read, the
unmarshal, the importer and the generator have been called. -/
theorem main_loaded (env : Env Spec Pkg) (prog : GoString) (cmdline : List GoString)
    (outDir schemaFile : GoString) (more : List GoString) (w : World)
    (schema : Bytes) (mainSpec : Spec) (pulPkg : Pkg) (files : GoMap)
    (hparse : flagParse env cmdline = .args (outDir :: schemaFile :: more))
    (hread : (ReadFile env schemaFile w).1 = .ok schema)
    (hunm : env.Unmarshal schema = .ok mainSpec)
    (himp : env.ImportSpec mainSpec = .ok pulPkg)
    (hgen : env.GeneratePackage toolName pulPkg = .ok files) :
    main env prog cmdline w =
      match emitAll env outDir
        (env.rangeOrder (w.trace ++ [.readFile schemaFile, .unmarshal,
          .importSpec, .generatePackage]) files)
        ((((w.log (.readFile schemaFile)).log .unmarshal).log
          .importSpec).log .generatePackage) with
      | (some err, w3) =>
        exitLogged env cmdline ("error generating docs from schema: ".toList ++ err.Error) w3
      | (none, w3) => (0, w3) := by
  have hw := ReadFile_world env schemaFile w
  unfold main
  rw [hparse]
  dsimp only
  rcases hrd : ReadFile env schemaFile w with ⟨r, w1⟩
  rw [hrd] at hw hread
  dsimp only at hw hread
  subst hw hread
  dsimp only
  rw [hunm]
  dsimp only
  unfold generateDocsFromSchema
  dsimp only
  rw [himp]
  dsimp only
  rw [hgen]
  dsimp only
  have htr : ((((w.log (.readFile schemaFile)).log .unmarshal).log
      .importSpec).log .generatePackage).trace =
      w.trace ++ [.readFile schemaFile, .unmarshal,
        .importSpec, .generatePackage] := by
    simp [World.log]
  rw [htr]

/-- C1 (as stated, refuted): the generator returns the two entries `a ↦ [1]` and
`./a ↦ [2]`; the run succeeds (exit status 0, every directory creation, file creation
and write succeeded), yet the file at `path.Join("out", "a")` does not hold `[1]` (it
holds `[2]`), and the two entries ended up in one file. -/
theorem main_colliding_keys :
    (main (sampleEnv collidingMap) "templategen".toList
      ["out".toList, "schema.json".toList] sampleWorld).1 = 0 ∧
    ("a".toList, [1]) ∈ collidingMap.entries ∧
    (main (sampleEnv collidingMap) "templategen".toList
      ["out".toList, "schema.json".toList] sampleWorld).2.fs
        (dest (sampleEnv collidingMap) "out".toList "a".toList) ≠ some (.file [1]) ∧
    (main (sampleEnv collidingMap) "templategen".toList
      ["out".toList, "schema.json".toList] sampleWorld).2.fs
        (dest (sampleEnv collidingMap) "out".toList "a".toList) = some (.file [2]) ∧
    ((writes (main (sampleEnv collidingMap) "templategen".toList
      ["out".toList, "schema.json".toList] sampleWorld).2.trace).map Prod.fst).dedup.length
      ≠ collidingMap.entries.length := by
  decide

/-- C1 (amended): when the schema is read, unmarshalled and imported, the generator
returns `files`, the run ends with exit status 0, and the destinations
`path.Join(outDir, relPath)` of the entries of `files` are pairwise different
locations, then after the run every entry's destination holds exactly the entry's
contents; every other location holds what it held before, or a directory where
there was nothing; and the writes of the run are exactly one for each entry, to
pairwise different files, as many as the mapping has entries. -/
theorem main_writes_generated_files (env : Env Spec Pkg) (prog : GoString)
    (cmdline : List GoString) (outDir schemaFile : GoString) (more : List GoString)
    (w : World) (schema : Bytes) (mainSpec : Spec) (pulPkg : Pkg) (files : GoMap)
    (hparse : flagParse env cmdline = .args (outDir :: schemaFile :: more))
    (hread : (ReadFile env schemaFile w).1 = .ok schema)
    (hunm : env.Unmarshal schema = .ok mainSpec)
    (himp : env.ImportSpec mainSpec = .ok pulPkg)
    (hgen : env.GeneratePackage toolName pulPkg = .ok files)
    (hdistinct : (files.entries.map (fun e => dest env outDir e.1)).Nodup)
    (hexit : (main env prog cmdline w).1 = 0) :
    (∀ e ∈ files.entries,
      (main env prog cmdline w).2.fs (dest env outDir e.1) = some (.file e.2)) ∧
    (∀ q, q ∉ files.entries.map (fun e => dest env outDir e.1) →
      (main env prog cmdline w).2.fs q = w.fs q ∨
      (w.fs q = none ∧ (main env prog cmdline w).2.fs q = some .dir)) ∧
    (∃ t, (main env prog cmdline w).2.trace = w.trace ++ t ∧
      (writes t).Perm (files.entries.map (fun e => (dest env outDir e.1, e.2))) ∧
      ((writes t).map Prod.fst).Nodup ∧
      (writes t).length = files.entries.length) := by
  have hmain := main_loaded env prog cmdline outDir schemaFile more w schema mainSpec pulPkg
    files hparse hread hunm himp hgen
  have hperm := env.rangeOrder_perm (w.trace ++ [.readFile schemaFile,
    .unmarshal, .importSpec, .generatePackage]) files
  generalize env.rangeOrder (w.trace ++ [.readFile schemaFile,
    .unmarshal, .importSpec, .generatePackage]) files = order at hmain hperm
  have hfr := emitAll_frame env outDir order ((((w.log (.readFile schemaFile)).log .unmarshal).log .importSpec).log .generatePackage)
  have hall := emitAll_ok env outDir order ((((w.log (.readFile schemaFile)).log .unmarshal).log .importSpec).log .generatePackage)
  rcases hem : emitAll env outDir order ((((w.log (.readFile schemaFile)).log .unmarshal).log .importSpec).log .generatePackage) with ⟨r, w3⟩
  rw [hem] at hmain hfr hall
  cases r with
  | some err =>
    rw [hmain] at hexit
    dsimp only at hexit
    rcases exitLogged_code env cmdline
      ("error generating docs from schema: ".toList ++ err.Error) w3 with h | h <;>
      (rw [h] at hexit; cases hexit)
  | none =>
    dsimp only at hmain hfr hall
    rw [hmain]
    dsimp only
    obtain ⟨_, _, _, ⟨t, ht, hwt⟩, hcontents⟩ := hall rfl
    have hnd : (order.map (fun e => dest env outDir e.1)).Nodup :=
      (hperm.map _).nodup_iff.mpr hdistinct
    refine ⟨fun e he => hcontents hnd e (hperm.mem_iff.mpr he), ?_, ?_⟩
    · intro q hq
      exact hfr q (fun h => hq ((hperm.map _).mem_iff.mp h))
    · refine ⟨[.readFile schemaFile, .unmarshal, .importSpec,
        .generatePackage] ++ t, ?_, ?_, ?_, ?_⟩
      · rw [ht]; simp [World.log]
      · rw [writes_append, hwt]; exact hperm.map _
      · rw [writes_append, hwt]
        simpa [writes, List.map_map, Function.comp_def] using hnd
      · rw [writes_append, hwt]
        simpa [writes] using hperm.length_eq

theorem main_writes_generated_files_witness :
    (main (sampleEnv nestedMap) "templategen".toList
      ["out".toList, "schema.json".toList] sampleWorld).2.fs
        (dest (sampleEnv nestedMap) "out".toList "a/b.txt".toList) = some (.file [1, 2]) ∧
    (main (sampleEnv nestedMap) "templategen".toList
      ["out".toList, "schema.json".toList] sampleWorld).2.fs
        (dest (sampleEnv nestedMap) "out".toList "c".toList) = some (.file [3]) :=
  have h := main_writes_generated_files (sampleEnv nestedMap) "templategen".toList
    ["out".toList, "schema.json".toList] "out".toList "schema.json".toList [] sampleWorld
    [123, 125] () () nestedMap (by decide) rfl rfl rfl rfl (by decide) (by decide)
  ⟨h.1 ("a/b.txt".toList, [1, 2]) (by decide), h.1 ("c".toList, [3]) (by decide)⟩

/-! ## Failure in the middle of the loop, and a second run -/

/-- `tools.EnsureDir` on a path that names a directory does nothing. -/
theorem EnsureDir_existing (env : Env Spec Pkg) (path : GoString) (w : World)
    (h : w.fs (resolve env.cwd path) = some .dir) :
    EnsureDir env path w = (none, w) := by
  unfold EnsureDir MkdirAll mkdirAllLoop Stat
  rw [h]

/-- `os.Create` on a path that names a file succeeds unless the environment forces
a failure. -/
theorem Create_existing (env : Env Spec Pkg) (name : GoString) (w : World) (c : Bytes)
    (hfile : w.fs (resolve env.cwd name) = some (.file c))
    (hfault : env.fault w.trace (.create (resolve env.cwd name)) = none) :
    (Create env name w).1 = none := by
  unfold Create
  dsimp only
  rw [hfault, hfile]

theorem Quiet.append {env : Env Spec Pkg} {t0 : List Event} (h : Quiet env t0)
    (t : List Event) : Quiet env (t0 ++ t) := by
  intro h1 e
  rw [List.append_assoc]
  exact h (t ++ h1) e

/-- `emitFile` on a destination that is a file in a directory succeeds when the
environment forces no failure. -/
theorem emitFile_quiet (env : Env Spec Pkg) (outDir relPath : GoString) (contents : Bytes)
    (w : World)
    (hdir : w.fs (resolve env.cwd (Dir (Join outDir relPath))) = some .dir)
    (hfile : ∃ c, w.fs (dest env outDir relPath) = some (.file c))
    (hquiet : Quiet env w.trace) :
    (emitFile env outDir relPath contents w).1 = none := by
  obtain ⟨r1, w1, he, _, _, _, hcase⟩ := emitFile_cases env outDir relPath contents w
  rw [EnsureDir_existing env _ w hdir] at he
  cases he
  obtain ⟨c, hc⟩ := hfile
  rcases hcase with ⟨e, h, _⟩ | ⟨_, _, ⟨e, h, _⟩ | ⟨c1, _, _, _, _, _, hw⟩⟩
  · cases h
  · have hq := hquiet [] (.create (resolve env.cwd (Join outDir relPath)))
    rw [List.append_nil] at hq
    rw [Create_existing env _ w c hc hq] at h
    cases h
  · exact hw (hquiet _ _)

/-- The loop over entries whose destinations are files in directories succeeds when
the environment forces no failure. -/
theorem emitAll_quiet (env : Env Spec Pkg) (outDir : GoString)
    (l : List (GoString × Bytes)) (w : World)
    (hinv : ∀ e ∈ l, w.fs (resolve env.cwd (Dir (Join outDir e.1))) = some .dir ∧
      ∃ c, w.fs (dest env outDir e.1) = some (.file c))
    (hquiet : Quiet env w.trace) :
    (emitAll env outDir l w).1 = none := by
  induction l generalizing w with
  | nil => rfl
  | cons x l ih =>
    obtain ⟨f, contents⟩ := x
    have h1 := emitFile_quiet env outDir f contents w
      (hinv _ (List.mem_cons_self _ _)).1 (hinv _ (List.mem_cons_self _ _)).2 hquiet
    have h2 := emitFile_ok env outDir f contents w h1
    obtain ⟨t, ht, _⟩ := emitFile_trace env outDir f contents w
    simp only [emitAll]
    rcases hemit : emitFile env outDir f contents w with ⟨r, w1⟩
    rw [hemit] at h1 h2 ht
    dsimp only at h1 h2 ht
    subst h1
    dsimp only
    apply ih
    · intro e he
      have := hinv e (List.mem_cons_of_mem _ he)
      obtain ⟨c, hc⟩ := this.2
      exact ⟨h2.2.1 _ this.1, h2.2.2.1 _ c hc⟩
    · rw [ht]; exact hquiet.append t

/-- `generateDocsFromSchema` when the importer and the generator succeed: the loop,
in the world after the two calls. -/
theorem generateDocsFromSchema_loaded (env : Env Spec Pkg) (outDir : GoString) (spec : Spec)
    (w : World) (pulPkg : Pkg) (files : GoMap)
    (himp : env.ImportSpec spec = .ok pulPkg)
    (hgen : env.GeneratePackage toolName pulPkg = .ok files) :
    generateDocsFromSchema env outDir spec w =
      emitAll env outDir
        (env.rangeOrder (w.trace ++ [.importSpec, .generatePackage]) files)
        ((w.log .importSpec).log .generatePackage) := by
  unfold generateDocsFromSchema
  dsimp only
  rw [himp]
  dsimp only
  rw [hgen]
  dsimp only
  have htr : ((w.log .importSpec).log .generatePackage).trace =
      w.trace ++ [.importSpec, .generatePackage] := by
    simp [World.log]
  rw [htr]

/-- C8 (as stated, refuted): the generator returns `a ↦ [1]` and `./a ↦ [2]`, visited
in this order, and the write of `[2]` fails. `generateDocsFromSchema` returns an error,
the entry `a` was visited before and `[1]` was written to its file, yet that file no
longer holds `[1]`: the failing entry had truncated it. -/
theorem generateDocsFromSchema_failure_truncates :
    (generateDocsFromSchema (fullDiskEnv collidingMap) "out".toList () sampleWorld).1 ≠ none ∧
    (dest (fullDiskEnv collidingMap) "out".toList "a".toList, [1]) ∈
      writes (generateDocsFromSchema (fullDiskEnv collidingMap) "out".toList ()
        sampleWorld).2.trace ∧
    (generateDocsFromSchema (fullDiskEnv collidingMap) "out".toList () sampleWorld).2.fs
      (dest (fullDiskEnv collidingMap) "out".toList "a".toList) ≠ some (.file [1]) ∧
    (generateDocsFromSchema (fullDiskEnv collidingMap) "out".toList () sampleWorld).2.fs
      (dest (fullDiskEnv collidingMap) "out".toList "a".toList) = some (.file []) := by
  decide

/-- C8 (amended): the importer and the generator succeed, the entries are visited in
the order `pre`, then `(f, contents)`, then `post`, the entries of `pre` are emitted
without an error and `emitFile` fails on `(f, contents)` with `err`. Then
`generateDocsFromSchema` returns `err` wrapped with `emitting file f`, in the world that
the failing `emitFile` left (no entry of `post` is attempted, nothing is undone), and
when the destinations of the entries visited so far, the failing one included, are
pairwise different, the file of every entry of `pre` holds the entry's contents. -/
theorem generateDocsFromSchema_fail_fast (env : Env Spec Pkg) (outDir : GoString)
    (spec : Spec) (w w1 w2 : World) (pulPkg : Pkg) (files : GoMap)
    (pre post : List (GoString × Bytes)) (f : GoString) (contents : Bytes) (err : GoError)
    (himp : env.ImportSpec spec = .ok pulPkg)
    (hgen : env.GeneratePackage toolName pulPkg = .ok files)
    (horder : env.rangeOrder (w.trace ++ [.importSpec, .generatePackage]) files
      = pre ++ (f, contents) :: post)
    (hpre : emitAll env outDir pre ((w.log .importSpec).log .generatePackage) = (none, w1))
    (hfail : emitFile env outDir f contents w1 = (some err, w2)) :
    generateDocsFromSchema env outDir spec w
      = (some (Wrap err ("emitting file ".toList ++ f)), w2) ∧
    (∃ t, w2.trace = w1.trace ++ t ∧
      ∀ e ∈ t, (∃ l, e = Event.mkdir l) ∨ e = .create (dest env outDir f) ∨
        e = .write (dest env outDir f) contents) ∧
    (((pre ++ [(f, contents)]).map (fun e => dest env outDir e.1)).Nodup →
      ∀ e ∈ pre, w2.fs (dest env outDir e.1) = some (.file e.2)) := by
  refine ⟨?_, ?_, ?_⟩
  · rw [generateDocsFromSchema_loaded env outDir spec w pulPkg files himp hgen, horder,
      emitAll_append, hpre]
    simp only [emitAll, hfail]
  · have := emitFile_trace env outDir f contents w1
    rw [hfail] at this
    exact this
  · intro hnd e he
    rw [List.map_append, List.nodup_append] at hnd
    have hpreok := emitAll_ok env outDir pre ((w.log .importSpec).log .generatePackage)
      (by rw [hpre])
    rw [hpre] at hpreok
    have h1 : w1.fs (dest env outDir e.1) = some (.file e.2) := hpreok.2.2.2.2 hnd.1 e he
    have hne : dest env outDir e.1 ≠ dest env outDir f := by
      intro heq
      exact hnd.2.2 (List.mem_map.mpr ⟨e, he, rfl⟩) (by simp [heq])
    have h2 := emitFile_frame env outDir f contents w1 _ hne
    rw [hfail] at h2
    rcases h2 with h2 | ⟨h2, _⟩
    · rw [h2]; exact h1
    · rw [h1] at h2; cases h2

theorem generateDocsFromSchema_fail_fast_witness :
    (generateDocsFromSchema (fullDiskEnv nestedMap2) "out".toList () sampleWorld).1
      = some (Wrap (.leaf "no space left on device".toList)
          ("emitting file ".toList ++ "c".toList)) ∧
    (generateDocsFromSchema (fullDiskEnv nestedMap2) "out".toList () sampleWorld).2.fs
      (dest (fullDiskEnv nestedMap2) "out".toList "a/b.txt".toList) = some (.file [1, 2]) :=
  have h := generateDocsFromSchema_fail_fast (fullDiskEnv nestedMap2) "out".toList ()
    sampleWorld
    (emitAll (fullDiskEnv nestedMap2) "out".toList [("a/b.txt".toList, [1, 2])]
      ((sampleWorld.log .importSpec).log .generatePackage)).2
    (emitFile (fullDiskEnv nestedMap2) "out".toList "c".toList [2]
      (emitAll (fullDiskEnv nestedMap2) "out".toList [("a/b.txt".toList, [1, 2])]
        ((sampleWorld.log .importSpec).log .generatePackage)).2).2
    () nestedMap2 [("a/b.txt".toList, [1, 2])] [("d".toList, [4])] "c".toList [2]
    (.leaf "no space left on device".toList) rfl rfl rfl rfl rfl
  ⟨by rw [h.1], by rw [h.1]; exact h.2.2 (by decide) ("a/b.txt".toList, [1, 2]) (by decide)⟩

/-- C6 (as stated, refuted): the generator returns `a ↦ [1]` and `./a ↦ [2]`, and the
runtime visits the map in one order in the first run and in the opposite order in the
second. Both runs succeed, and the destination of `a` holds `[2]` after the first run
and `[1]` after the second. -/
theorem generateDocsFromSchema_second_run_differs :
    (generateDocsFromSchema (flipEnv collidingMap) "out".toList () sampleWorld).1 = none ∧
    (generateDocsFromSchema (flipEnv collidingMap) "out".toList ()
      (generateDocsFromSchema (flipEnv collidingMap) "out".toList () sampleWorld).2).1 = none ∧
    (generateDocsFromSchema (flipEnv collidingMap) "out".toList () sampleWorld).2.fs
      (dest (flipEnv collidingMap) "out".toList "a".toList) = some (.file [2]) ∧
    (generateDocsFromSchema (flipEnv collidingMap) "out".toList ()
      (generateDocsFromSchema (flipEnv collidingMap) "out".toList () sampleWorld).2).2.fs
      (dest (flipEnv collidingMap) "out".toList "a".toList) = some (.file [1]) := by
  decide

/-- C6 (amended): the importer and the generator succeed, a first run of
`generateDocsFromSchema` ends without an error in the world `w1`, the destinations of
the entries are pairwise different locations, and the environment forces no failure
on the calls of the second run. Then a second run from `w1` ends without an error,
whatever the order of its visit, and every destination holds after it what it held
after the first run, the contents of its entry. And whenever `emitFile` succeeds on a
destination that was a file, the file holds exactly the new bytes, whatever it held:
the old bytes are replaced, not appended to. -/
theorem generateDocsFromSchema_idempotent (env : Env Spec Pkg) (outDir : GoString)
    (spec : Spec) (w w1 : World) (pulPkg : Pkg) (files : GoMap)
    (himp : env.ImportSpec spec = .ok pulPkg)
    (hgen : env.GeneratePackage toolName pulPkg = .ok files)
    (hfirst : generateDocsFromSchema env outDir spec w = (none, w1))
    (hdistinct : (files.entries.map (fun e => dest env outDir e.1)).Nodup)
    (hquiet : Quiet env w1.trace) :
    (generateDocsFromSchema env outDir spec w1).1 = none ∧
    (∀ e ∈ files.entries,
      (generateDocsFromSchema env outDir spec w1).2.fs (dest env outDir e.1)
        = w1.fs (dest env outDir e.1) ∧
      w1.fs (dest env outDir e.1) = some (.file e.2)) ∧
    (∀ (w0 : World) (relPath : GoString) (contents old : Bytes),
      w0.fs (dest env outDir relPath) = some (.file old) →
      (emitFile env outDir relPath contents w0).1 = none →
      (emitFile env outDir relPath contents w0).2.fs (dest env outDir relPath)
        = some (.file contents)) := by
  have hrun1 := generateDocsFromSchema_loaded env outDir spec w pulPkg files himp hgen
  have hrun2 := generateDocsFromSchema_loaded env outDir spec w1 pulPkg files himp hgen
  have hperm1 := env.rangeOrder_perm (w.trace ++ [.importSpec, .generatePackage]) files
  have hperm2 := env.rangeOrder_perm (w1.trace ++ [.importSpec, .generatePackage]) files
  generalize env.rangeOrder (w.trace ++ [.importSpec, .generatePackage]) files = order1
    at hrun1 hperm1
  generalize env.rangeOrder (w1.trace ++ [.importSpec, .generatePackage]) files = order2
    at hrun2 hperm2
  rw [hfirst] at hrun1
  have hok1 := emitAll_ok env outDir order1 ((w.log .importSpec).log .generatePackage)
    (by rw [← hrun1])
  rw [← hrun1] at hok1
  dsimp only at hok1
  have hnd1 : (order1.map (fun e => dest env outDir e.1)).Nodup :=
    (hperm1.map _).nodup_iff.mpr hdistinct
  have hnd2 : (order2.map (fun e => dest env outDir e.1)).Nodup :=
    (hperm2.map _).nodup_iff.mpr hdistinct
  have hsecond : (emitAll env outDir order2 ((w1.log .importSpec).log .generatePackage)).1
      = none := by
    apply emitAll_quiet
    · intro e he
      exact hok1.2.2.1 e (hperm1.mem_iff.mpr (hperm2.mem_iff.mp he))
    · have : ((w1.log .importSpec).log .generatePackage).trace
          = w1.trace ++ [.importSpec, .generatePackage] := by simp [World.log]
      rw [this]; exact hquiet.append _
  have hok2 := emitAll_ok env outDir order2 ((w1.log .importSpec).log .generatePackage)
    hsecond
  refine ⟨by rw [hrun2]; exact hsecond, ?_, ?_⟩
  · intro e he
    have h1 : w1.fs (dest env outDir e.1) = some (.file e.2) :=
      hok1.2.2.2.2 hnd1 e (hperm1.mem_iff.mpr he)
    have h2 := hok2.2.2.2.2 hnd2 e (hperm2.mem_iff.mpr he)
    rw [hrun2]
    exact ⟨h2.trans h1.symm, h1⟩
  · intro w0 relPath contents old _ hok
    exact (emitFile_ok env outDir relPath contents w0 hok).1

theorem generateDocsFromSchema_idempotent_witness :
    (generateDocsFromSchema (flipEnv nestedMap) "out".toList ()
      (generateDocsFromSchema (flipEnv nestedMap) "out".toList () sampleWorld).2).1 = none ∧
    (generateDocsFromSchema (flipEnv nestedMap) "out".toList ()
      (generateDocsFromSchema (flipEnv nestedMap) "out".toList () sampleWorld).2).2.fs
      (dest (flipEnv nestedMap) "out".toList "a/b.txt".toList) = some (.file [1, 2]) :=
  have h := generateDocsFromSchema_idempotent (flipEnv nestedMap) "out".toList ()
    sampleWorld (generateDocsFromSchema (flipEnv nestedMap) "out".toList () sampleWorld).2
    () nestedMap rfl rfl (Prod.ext (by decide) rfl) (by decide) (fun _ _ => rfl)
  ⟨h.1, ((h.2.1 ("a/b.txt".toList, [1, 2]) (by decide)).1).trans
    (h.2.1 ("a/b.txt".toList, [1, 2]) (by decide)).2⟩

/-! ## Paths: elements and slashes -/

theorem splitSlash_ne_nil (p : GoString) : splitSlash p ≠ [] := by
  cases p with
  | nil => simp [splitSlash]
  | cons c cs =>
    unfold splitSlash
    split
    · simp
    · split <;> simp

theorem splitSlash_cons_slash (cs : GoString) :
    splitSlash ('/' :: cs) = [] :: splitSlash cs := by
  rcases h : splitSlash cs with _ | ⟨a, t⟩
  · exact absurd h (splitSlash_ne_nil cs)
  · rw [splitSlash, h]; simp

theorem splitSlash_cons_other (c : Char) (cs h : GoString) (t : List GoString)
    (hc : c ≠ '/') (hs : splitSlash cs = h :: t) :
    splitSlash (c :: cs) = (c :: h) :: t := by
  rw [splitSlash, hs]; simp [hc]

theorem splitSlash_append_slash (a b : GoString) :
    splitSlash (a ++ '/' :: b) = splitSlash a ++ splitSlash b := by
  induction a with
  | nil => rw [List.nil_append, splitSlash_cons_slash]; rfl
  | cons c a ih =>
    by_cases hc : c = '/'
    · subst hc
      rw [List.cons_append, splitSlash_cons_slash, splitSlash_cons_slash, ih]; rfl
    · rcases hs : splitSlash a with _ | ⟨h, t⟩
      · exact absurd hs (splitSlash_ne_nil a)
      · rw [List.cons_append, splitSlash_cons_other c _ h (t ++ splitSlash b) hc
          (by rw [ih, hs]; rfl), splitSlash_cons_other c a h t hc hs]; rfl

theorem mem_splitSlash (p e : GoString) (he : e ∈ splitSlash p) : '/' ∉ e := by
  induction p generalizing e with
  | nil => simp [splitSlash] at he; subst he; simp
  | cons c cs ih =>
    rcases hs : splitSlash cs with _ | ⟨h, t⟩
    · exact absurd hs (splitSlash_ne_nil cs)
    · by_cases hc : c = '/'
      · subst hc
        rw [splitSlash_cons_slash] at he
        rcases List.mem_cons.mp he with h1 | h1
        · subst h1; simp
        · exact ih e h1
      · rw [splitSlash_cons_other c cs h t hc hs] at he
        rcases List.mem_cons.mp he with h1 | h1
        · subst h1
          have := ih h (by rw [hs]; exact List.mem_cons_self _ _)
          simp only [List.mem_cons, not_or]
          exact ⟨fun h2 => hc h2.symm, this⟩
        · exact ih e (by rw [hs]; exact List.mem_cons_of_mem _ h1)

theorem splitSlash_of_noSlash (a : GoString) (ha : '/' ∉ a) : splitSlash a = [a] := by
  induction a with
  | nil => rfl
  | cons c a ih =>
    simp only [List.mem_cons, not_or] at ha
    exact splitSlash_cons_other c a a [] (fun h => ha.1 h.symm) (ih ha.2)

theorem splitSlash_joinSlash (es : List GoString) (hne : es ≠ [])
    (hes : ∀ e ∈ es, '/' ∉ e) : splitSlash (joinSlash es) = es := by
  induction es with
  | nil => exact absurd rfl hne
  | cons a t ih =>
    cases t with
    | nil => exact splitSlash_of_noSlash a (hes a (List.mem_cons_self _ _))
    | cons b t =>
      rw [joinSlash, splitSlash_append_slash,
        splitSlash_of_noSlash a (hes a (List.mem_cons_self _ _)),
        ih (by simp) (fun e he => hes e (List.mem_cons_of_mem _ he))]
      rfl

theorem joinSlash_splitSlash (p : GoString) : joinSlash (splitSlash p) = p := by
  induction p with
  | nil => rfl
  | cons c cs ih =>
    rcases hs : splitSlash cs with _ | ⟨h, t⟩
    · exact absurd hs (splitSlash_ne_nil cs)
    · rw [hs] at ih
      by_cases hc : c = '/'
      · subst hc
        rw [splitSlash_cons_slash, hs, joinSlash, ih]; rfl
      · rw [splitSlash_cons_other c cs h t hc hs]
        cases t with
        | nil => rw [joinSlash] at ih ⊢; rw [ih]
        | cons b t => rw [joinSlash] at ih ⊢; rw [← ih]; rfl

theorem joinSlash_append (q : List GoString) (last : GoString) (hq : q ≠ []) :
    joinSlash (q ++ [last]) = joinSlash q ++ '/' :: last := by
  induction q with
  | nil => exact absurd rfl hq
  | cons a t ih =>
    cases t with
    | nil => rfl
    | cons b t =>
      rw [List.cons_append, List.cons_append, joinSlash, ← List.cons_append, ih (by simp),
        joinSlash, List.append_assoc]
      rfl

/-! ## Paths: `Clean` and the location a path names -/

theorem cleanStep_plain (rooted : Bool) (kept : List GoString) (e : GoString)
    (hk : ∀ k ∈ kept, Plain k) (he : '/' ∉ e) : ∀ k ∈ cleanStep rooted kept e, Plain k := by
  unfold cleanStep
  split
  · exact hk
  · rename_i h1
    have hp : Plain e := ⟨fun h => h1 (Or.inl h), fun h => h1 (Or.inr h), he⟩
    split
    · split
      · split
        · simp
        · intro k hk1; rw [List.mem_singleton.mp hk1]; exact hp
      · rename_i top below
        split
        · intro k hk1
          rcases List.mem_cons.mp hk1 with h | h
          · rw [h]; exact hp
          · exact hk k h
        · intro k hk1; exact hk k (List.mem_cons_of_mem _ hk1)
    · intro k hk1
      rcases List.mem_cons.mp hk1 with h | h
      · rw [h]; exact hp
      · exact hk k h

theorem cleanElems_plain (rooted : Bool) (es : List GoString) :
    ∀ (kept : List GoString), (∀ k ∈ kept, Plain k) → (∀ e ∈ es, '/' ∉ e) →
      ∀ k ∈ cleanElems rooted kept es, Plain k := by
  induction es with
  | nil => intro kept hk _; exact hk
  | cons e es ih =>
    intro kept hk hes
    exact ih _ (cleanStep_plain rooted kept e hk (hes e (List.mem_cons_self _ _)))
      (fun e he => hes e (List.mem_cons_of_mem _ he))

theorem cleanElems_append (rooted : Bool) (kept : List GoString) (es fs : List GoString) :
    cleanElems rooted kept (es ++ fs) = cleanElems rooted (cleanElems rooted kept es) fs := by
  simp [cleanElems, List.foldl_append]

theorem filter_plain (l : List GoString) (h : ∀ k ∈ l, Plain k) :
    l.filter (fun e => decide (e ≠ [] ∧ e ≠ ['.'])) = l := by
  apply List.filter_eq_self.mpr
  intro k hk
  exact decide_eq_true ⟨(h k hk).1, (h k hk).2.1⟩

theorem joinSlash_eq_nil (l : List GoString) (h : ∀ k ∈ l, Plain k) (hl : joinSlash l = []) :
    l = [] := by
  cases l with
  | nil => rfl
  | cons a t =>
    exfalso
    have ha := (h a (List.mem_cons_self _ _)).1
    cases t with
    | nil => exact ha hl
    | cons b t => rw [joinSlash] at hl; simp at hl

/-- The elements of a cleaned path are the elements that were kept. -/
theorem elems_render (rooted : Bool) (kept : List GoString) (h : ∀ k ∈ kept, Plain k) :
    elems (render rooted kept) = kept.reverse := by
  have hr : ∀ k ∈ kept.reverse, Plain k := fun k hk => h k (List.mem_reverse.mp hk)
  have hs : ∀ k ∈ kept.reverse, '/' ∉ k := fun k hk => (hr k hk).2.2
  unfold render elems
  dsimp only
  by_cases hnil : kept.reverse = []
  · rw [hnil]
    cases rooted <;> decide
  · have hj : joinSlash kept.reverse ≠ [] := fun h0 => hnil (joinSlash_eq_nil _ hr h0)
    cases rooted
    · simp only [Bool.false_eq_true, if_false, if_neg hj]
      rw [splitSlash_joinSlash _ hnil hs]
      exact filter_plain _ hr
    · simp only [if_true]
      rw [splitSlash_cons_slash, splitSlash_joinSlash _ hnil hs, List.filter_cons]
      simp only [ne_eq, not_true_eq_false, false_and, decide_False, Bool.false_eq_true,
        if_false]
      exact filter_plain _ hr

theorem isRooted_render (rooted : Bool) (kept : List GoString) (h : ∀ k ∈ kept, Plain k) :
    isRooted (render rooted kept) = rooted := by
  have hr : ∀ k ∈ kept.reverse, Plain k := fun k hk => h k (List.mem_reverse.mp hk)
  unfold render
  dsimp only
  cases rooted
  · simp only [Bool.false_eq_true, if_false]
    split
    · rfl
    · rename_i hj
      rcases hk : kept.reverse with _ | ⟨a, t⟩
      · rw [hk] at hj; exact absurd rfl hj
      · have ha := hr a (by rw [hk]; exact List.mem_cons_self _ _)
        rcases a with _ | ⟨c, a⟩
        · exact absurd rfl ha.1
        · have hc : c ≠ '/' := fun h0 => ha.2.2 (by rw [h0]; exact List.mem_cons_self _ _)
          cases t with
          | nil =>
            simp only [joinSlash, isRooted]
            split
            · rename_i heq; simp at heq; exact absurd heq.1 hc
            · rfl
          | cons b t =>
            simp only [joinSlash, isRooted, List.cons_append]
            split
            · rename_i heq; simp at heq; exact absurd heq.1 hc
            · rfl
  · rfl

theorem walk_filter (es : List GoString) :
    ∀ (reached : List GoString),
      es.foldl walkStep reached
        = (es.filter (fun e => decide (e ≠ [] ∧ e ≠ ['.']))).foldl walkStep reached := by
  induction es with
  | nil => intro _; rfl
  | cons e es ih =>
    intro reached
    by_cases he : e = [] ∨ e = ['.']
    · have hf : decide (e ≠ [] ∧ e ≠ ['.']) = false := by
        apply decide_eq_false
        rcases he with h | h <;> simp [h]
      rw [List.filter_cons, hf]
      simp only [List.foldl_cons, Bool.false_eq_true, if_false]
      rw [show walkStep reached e = reached from by simp [walkStep, he]]
      exact ih reached
    · have hf : decide (e ≠ [] ∧ e ≠ ['.']) = true := by
        apply decide_eq_true
        exact ⟨fun h => he (Or.inl h), fun h => he (Or.inr h)⟩
      rw [List.filter_cons, hf]
      simp only [List.foldl_cons, if_true]
      exact ih _

/-- One step of `path.Clean` means one step of the walk: following the kept elements
after the step leads where following them before the step and then the new element
leads. -/
theorem walk_cleanStep (rooted : Bool) (base kept : List GoString) (e : GoString)
    (hk : ∀ k ∈ kept, Plain k) (hb : rooted = true → base = []) :
    (cleanStep rooted kept e).reverse.foldl walkStep base
      = walkStep (kept.reverse.foldl walkStep base) e := by
  unfold cleanStep
  split
  · rename_i h1
    simp [walkStep, h1]
  · rename_i h1
    split
    · rename_i h2
      subst h2
      cases kept with
      | nil =>
        cases rooted
        · simp [walkStep]
        · simp [walkStep, hb rfl]
      | cons top below =>
        dsimp only
        split
        · simp [List.foldl_append, walkStep]
        · rename_i h3
          have hp := hk top (List.mem_cons_self _ _)
          simp [List.foldl_append, walkStep, h3, hp.1, hp.2.1]
    · rename_i h2
      simp [List.foldl_append, walkStep, h1, h2]

theorem walk_cleanElems (rooted : Bool) (base : List GoString) (es : List GoString)
    (hb : rooted = true → base = []) :
    ∀ (kept : List GoString), (∀ k ∈ kept, Plain k) → (∀ e ∈ es, '/' ∉ e) →
      (cleanElems rooted kept es).reverse.foldl walkStep base
        = es.foldl walkStep (kept.reverse.foldl walkStep base) := by
  induction es with
  | nil => intro kept _ _; rfl
  | cons e es ih =>
    intro kept hk hes
    have h1 := ih (cleanStep rooted kept e)
      (cleanStep_plain rooted kept e hk (hes e (List.mem_cons_self _ _)))
      (fun e he => hes e (List.mem_cons_of_mem _ he))
    rw [walk_cleanStep rooted base kept e hk hb] at h1
    exact h1

/-- A path and its cleaned form name the same location. -/
theorem resolve_Clean (cwd : AbsPath) (p : GoString) :
    resolve cwd (Clean p) = resolve cwd p := by
  have hplain : ∀ k ∈ cleanElems (isRooted p) [] (splitSlash p), Plain k :=
    cleanElems_plain (isRooted p) (splitSlash p) [] (by simp) (mem_splitSlash p)
  have hroot : isRooted (Clean p) = isRooted p := isRooted_render _ _ hplain
  have helems := elems_render (isRooted p) _ hplain
  unfold resolve
  rw [hroot, walk_filter (splitSlash (Clean p))]
  have : (splitSlash (Clean p)).filter (fun e => decide (e ≠ [] ∧ e ≠ ['.']))
      = (cleanElems (isRooted p) [] (splitSlash p)).reverse := helems
  rw [this, walk_cleanElems (isRooted p) _ (splitSlash p) (by
    intro h; rw [h]; rfl) [] (by simp) (mem_splitSlash p)]
  rfl

/-! ## Where `path.Join` puts a relative path -/

/-- Cleaning elements that never step above their start only adds to what was kept
before, and keeps no `..`. -/
theorem cleanElems_noClimb (rooted : Bool) (es : List GoString) :
    ∀ (S K : List GoString), (∀ k ∈ S, k ≠ ['.', '.']) → climbsFrom S.length es = false →
      cleanElems rooted (S ++ K) es = cleanElems false S es ++ K ∧
      ∀ k ∈ cleanElems false S es, k ≠ ['.', '.'] := by
  induction es with
  | nil => intro S K hS _; exact ⟨rfl, hS⟩
  | cons e es ih =>
    intro S K hS hc
    simp only [cleanElems, List.foldl_cons]
    unfold climbsFrom at hc
    by_cases h1 : e = [] ∨ e = ['.']
    · rw [if_pos h1] at hc
      have e1 : cleanStep rooted (S ++ K) e = S ++ K := by simp [cleanStep, h1]
      have e2 : cleanStep false S e = S := by simp [cleanStep, h1]
      rw [e1, e2]
      exact ih S K hS hc
    · rw [if_neg h1] at hc
      by_cases h2 : e = ['.', '.']
      · rw [if_pos h2] at hc
        cases S with
        | nil => simp at hc
        | cons top below =>
          have htop := hS top (List.mem_cons_self _ _)
          have e1 : cleanStep rooted (top :: below ++ K) e = below ++ K := by
            simp [cleanStep, h2, htop]
          have e2 : cleanStep false (top :: below) e = below := by
            simp [cleanStep, h2, htop]
          rw [e1, e2]
          exact ih below K (fun k hk => hS k (List.mem_cons_of_mem _ hk)) hc
      · rw [if_neg h2] at hc
        have e1 : cleanStep rooted (S ++ K) e = (e :: S) ++ K := by
          simp [cleanStep, h1, h2]
        have e2 : cleanStep false S e = e :: S := by simp [cleanStep, h1, h2]
        rw [e1, e2]
        refine ih (e :: S) K ?_ hc
        intro k hk
        rcases List.mem_cons.mp hk with h | h
        · rw [h]; exact h2
        · exact hS k h

/-- Walking elements that never step above their start only goes down from where
the walk was. -/
theorem walk_noClimb (es : List GoString) :
    ∀ (S B : List GoString), (∀ k ∈ S, k ≠ ['.', '.']) → climbsFrom S.length es = false →
      es.foldl walkStep (S ++ B) = cleanElems false S es ++ B := by
  induction es with
  | nil => intro S B _ _; rfl
  | cons e es ih =>
    intro S B hS hc
    simp only [cleanElems, List.foldl_cons]
    unfold climbsFrom at hc
    by_cases h1 : e = [] ∨ e = ['.']
    · rw [if_pos h1] at hc
      have e1 : walkStep (S ++ B) e = S ++ B := by simp [walkStep, h1]
      have e2 : cleanStep false S e = S := by simp [cleanStep, h1]
      rw [e1, e2]
      exact ih S B hS hc
    · rw [if_neg h1] at hc
      by_cases h2 : e = ['.', '.']
      · rw [if_pos h2] at hc
        cases S with
        | nil => simp at hc
        | cons top below =>
          have htop := hS top (List.mem_cons_self _ _)
          have e1 : walkStep (top :: below ++ B) e = below ++ B := by
            simp [walkStep, h2]
          have e2 : cleanStep false (top :: below) e = below := by
            simp [cleanStep, h2, htop]
          rw [e1, e2]
          exact ih below B (fun k hk => hS k (List.mem_cons_of_mem _ hk)) hc
      · rw [if_neg h2] at hc
        have e1 : walkStep (S ++ B) e = (e :: S) ++ B := by
          simp [walkStep, h1, h2]
        have e2 : cleanStep false S e = e :: S := by simp [cleanStep, h1, h2]
        rw [e1, e2]
        refine ih (e :: S) B ?_ hc
        intro k hk
        rcases List.mem_cons.mp hk with h | h
        · rw [h]; exact h2
        · exact hS k h

/-- The elements of the cleaned form of a path that never steps above its start. -/
theorem elems_Clean_noClimb (relPath : GoString) (hclimb : climbs relPath = false) :
    elems (Clean relPath) = (cleanElems false [] (splitSlash relPath)).reverse ∧
    ['.', '.'] ∉ elems (Clean relPath) := by
  have h := cleanElems_noClimb (isRooted relPath) (splitSlash relPath) [] [] (by simp) hclimb
  have hplain : ∀ k ∈ cleanElems (isRooted relPath) [] (splitSlash relPath), Plain k :=
    cleanElems_plain _ (splitSlash relPath) [] (by simp) (mem_splitSlash relPath)
  have he : elems (Clean relPath) = (cleanElems false [] (splitSlash relPath)).reverse := by
    unfold Clean
    rw [elems_render _ _ hplain]
    have := h.1
    simp only [List.append_nil, List.nil_append] at this
    rw [this]
  refine ⟨he, ?_⟩
  rw [he]
  intro hmem
  exact h.2 _ (List.mem_reverse.mp hmem) rfl

theorem isRooted_append (a b : GoString) (ha : a ≠ []) : isRooted (a ++ b) = isRooted a := by
  cases a with
  | nil => exact absurd rfl ha
  | cons c a =>
    by_cases hc : c = '/'
    · subst hc; rfl
    · unfold isRooted
      split
      · rename_i heq; simp at heq; exact absurd heq.1 hc
      · split
        · rename_i heq; simp at heq; exact absurd heq.1 hc
        · rfl

theorem resolve_nil (cwd : AbsPath) : resolve cwd [] = cwd := by
  simp [resolve, splitSlash, walkStep, isRooted]

/-- C2 (as stated, refuted): for the output directory `out` and the relative path
`../x`, `path.Join` gives `x`, and the elements of the cleaned output directory are
not a prefix of the elements of `x`: the destination is next to `out`, not under
it. -/
theorem Join_escapes :
    Join "out".toList "../x".toList = "x".toList ∧
    ¬ (elems (Clean "out".toList) <+: elems (Join "out".toList "../x".toList)) := by
  decide

/-- C2 (amended): when `relPath` never steps above the directory it starts in (and is
not a rooted path joined to an empty `outDir`), the path `path.Join(outDir, relPath)`
that `emitFile` computes lies under `outDir`: it is rooted exactly when `outDir` is, its
elements are those of the cleaned `outDir` followed by those of the cleaned `relPath`,
none of which is `..`, and the location it names is the location of `outDir` followed
by the elements of the cleaned `relPath`. -/
theorem Join_under (outDir relPath : GoString)
    (hout : outDir = [] → isRooted relPath = false) (hclimb : climbs relPath = false) :
    isRooted (Join outDir relPath) = isRooted outDir ∧
    elems (Join outDir relPath) = elems (Clean outDir) ++ elems (Clean relPath) ∧
    ['.', '.'] ∉ elems (Clean relPath) ∧
    ∀ cwd : AbsPath,
      resolve cwd (Join outDir relPath) = resolve cwd outDir ++ elems (Clean relPath) := by
  obtain ⟨hrel, hdots⟩ := elems_Clean_noClimb relPath hclimb
  have hwalk : ∀ B : List GoString,
      (splitSlash relPath).foldl walkStep B
        = cleanElems false [] (splitSlash relPath) ++ B := fun B =>
    walk_noClimb (splitSlash relPath) [] B (by simp) hclimb
  by_cases ho : outDir = []
  · subst ho
    have hr := hout rfl
    by_cases hre : relPath = []
    · subst hre
      refine ⟨rfl, by decide, hdots, fun cwd => ?_⟩
      simp only [Join, if_true]
      rw [resolve_nil]
      have : elems (Clean []) = [] := by decide
      rw [this, List.append_nil]
    · have hj : Join [] relPath = Clean relPath := by simp [Join, hre]
      have hplain : ∀ k ∈ cleanElems (isRooted relPath) [] (splitSlash relPath), Plain k :=
        cleanElems_plain _ (splitSlash relPath) [] (by simp) (mem_splitSlash relPath)
      rw [hj]
      refine ⟨?_, ?_, hdots, fun cwd => ?_⟩
      · unfold Clean; rw [isRooted_render _ _ hplain, hr]; rfl
      · have : elems (Clean []) = [] := by decide
        rw [this, List.nil_append]
      · rw [resolve_Clean, resolve_nil, hrel]
        unfold resolve
        rw [hr]
        simp only [Bool.false_eq_true, if_false]
        rw [hwalk, List.reverse_append, List.reverse_reverse]
  · have hj : Join outDir relPath = Clean (outDir ++ '/' :: relPath) := by simp [Join, ho]
    have hroot : isRooted (outDir ++ '/' :: relPath) = isRooted outDir :=
      isRooted_append outDir _ ho
    have hplainA : ∀ k ∈ cleanElems (isRooted outDir) [] (splitSlash outDir), Plain k :=
      cleanElems_plain _ (splitSlash outDir) [] (by simp) (mem_splitSlash outDir)
    have hnc := cleanElems_noClimb (isRooted outDir) (splitSlash relPath) []
      (cleanElems (isRooted outDir) [] (splitSlash outDir)) (by simp) hclimb
    simp only [List.nil_append] at hnc
    have hkept : cleanElems (isRooted outDir) [] (splitSlash (outDir ++ '/' :: relPath))
        = cleanElems false [] (splitSlash relPath)
          ++ cleanElems (isRooted outDir) [] (splitSlash outDir) := by
      rw [splitSlash_append_slash, cleanElems_append, hnc.1]
    have hplain : ∀ k ∈ cleanElems (isRooted outDir) []
        (splitSlash (outDir ++ '/' :: relPath)), Plain k :=
      cleanElems_plain _ _ [] (by simp) (mem_splitSlash _)
    rw [hj]
    refine ⟨?_, ?_, hdots, fun cwd => ?_⟩
    · unfold Clean; rw [hroot, isRooted_render _ _ hplain]
    · have h1 : elems (Clean (outDir ++ '/' :: relPath))
          = (cleanElems (isRooted outDir) [] (splitSlash (outDir ++ '/' :: relPath))).reverse := by
        unfold Clean; rw [hroot, elems_render _ _ hplain]
      have h2 : elems (Clean outDir)
          = (cleanElems (isRooted outDir) [] (splitSlash outDir)).reverse := by
        unfold Clean; rw [elems_render _ _ hplainA]
      rw [h1, h2, hrel, hkept, List.reverse_append]
    · rw [resolve_Clean, hrel]
      unfold resolve
      rw [hroot, splitSlash_append_slash, List.foldl_append]
      have := hwalk ((splitSlash outDir).foldl walkStep
        (if isRooted outDir = true then [] else cwd.reverse))
      rw [this, List.reverse_append]

theorem Join_under_witness :
    elems (Join "out/dir".toList "a/../b/c.txt".toList)
      = elems (Clean "out/dir".toList) ++ elems (Clean "a/../b/c.txt".toList) :=
  (Join_under "out/dir".toList "a/../b/c.txt".toList (by decide) (by decide)).2.1

/-! ## The parent directory of a destination -/

theorem tail_walkStep_suffix (reached : List GoString) (e : GoString) :
    (walkStep reached e).tail <:+ reached := by
  unfold walkStep
  split
  · exact List.tail_suffix _
  · split
    · exact (List.tail_suffix _).trans (List.tail_suffix _)
    · exact List.suffix_refl _

theorem dropLast_reverse_eq {α : Type} (l : List α) : l.reverse.dropLast = l.tail.reverse := by
  cases l with
  | nil => rfl
  | cons a t => simp [List.dropLast_concat]

theorem isRooted_append_slash (a b c : GoString) :
    isRooted (a ++ '/' :: b) = isRooted (a ++ '/' :: c) := by
  cases a with
  | nil => rfl
  | cons x a =>
    rw [isRooted_append (x :: a) _ (by simp), isRooted_append (x :: a) _ (by simp)]

/-- The location of a path without its last name lies on the way to the location of
`path.Dir` of the path. -/
theorem dropLast_resolve_prefix (cwd : AbsPath) (p : GoString) :
    (resolve cwd p).dropLast <+: resolve cwd (Dir p) := by
  unfold Dir
  rw [resolve_Clean]
  have key : ∀ (S : List GoString) (last : GoString),
      (walkStep S last).reverse.dropLast <+: S.reverse := by
    intro S last
    rw [dropLast_reverse_eq]
    exact List.reverse_prefix.mpr (tail_walkStep_suffix S last)
  rcases List.eq_nil_or_concat (splitSlash p) with h | ⟨q, last, h⟩
  · exact absurd h (splitSlash_ne_nil p)
  · rw [List.concat_eq_append] at h
    have hp : p = joinSlash (q ++ [last]) := by rw [← h, joinSlash_splitSlash]
    have hslash : ∀ e ∈ q, '/' ∉ e := fun e he =>
      mem_splitSlash p e (by rw [h]; exact List.mem_append_left _ he)
    have hlast : '/' ∉ last :=
      mem_splitSlash p last (by rw [h]; exact List.mem_append_right _ (List.mem_singleton_self _))
    have hdl : (splitSlash p).dropLast = q := by rw [h, List.dropLast_concat]
    by_cases hq : q = []
    · subst hq
      have hsd : splitDir p = [] := by unfold splitDir; rw [hdl]
      have hpl : p = last := by rw [hp]; rfl
      have hnr : isRooted p = false := by
        rw [hpl]
        cases last with
        | nil => rfl
        | cons c t =>
          have hc : c ≠ '/' := fun h0 => hlast (by rw [h0]; exact List.mem_cons_self _ _)
          unfold isRooted
          split
          · rename_i heq; simp at heq; exact absurd heq.1 hc
          · rfl
      rw [hsd, resolve_nil]
      unfold resolve
      rw [hnr, h]
      simp only [Bool.false_eq_true, if_false, List.nil_append, List.foldl_cons, List.foldl_nil]
      have := key cwd.reverse last
      rwa [List.reverse_reverse] at this
    · have hsd : splitDir p = joinSlash q ++ ['/'] := by
        unfold splitDir
        rw [hdl]
        cases q with
        | nil => exact absurd rfl hq
        | cons a t => rfl
      have hpj : p = joinSlash q ++ '/' :: last := by rw [hp, joinSlash_append q last hq]
      have hroot : isRooted (splitDir p) = isRooted p := by
        rw [hsd]
        conv_rhs => rw [hpj]
        exact isRooted_append_slash _ _ _
      have hsp : splitSlash (splitDir p) = q ++ [[]] := by
        rw [hsd, splitSlash_append_slash, splitSlash_joinSlash q hq hslash]
        rfl
      unfold resolve
      rw [hroot, hsp, h, List.foldl_append, List.foldl_append]
      simp only [List.foldl_cons, List.foldl_nil]
      have e1 : ∀ S : List GoString, walkStep S [] = S := fun S => by simp [walkStep]
      rw [e1]
      exact key _ last

theorem prefix_dropLast_of_ne {α : Type} (a l : List α) (h : a <+: l) (hne : a ≠ l) :
    a <+: l.dropLast := by
  obtain ⟨s, hs⟩ := h
  have hsne : s ≠ [] := by
    intro h0; rw [h0, List.append_nil] at hs; exact hne hs
  rw [← hs, List.dropLast_append_of_ne_nil _ hsne]
  exact List.prefix_append _ _

/-- In a tree-shaped file system, every location on the way to a directory is a
directory. -/
theorem FS.WF.dir_above {fs : FS} (hwf : fs.WF) (a d : AbsPath) (h : a <+: d)
    (hd : fs d = some .dir) : fs a = some .dir := by
  obtain ⟨s, hs⟩ := h
  by_cases hsn : s = []
  · rw [hsn, List.append_nil] at hs; rw [hs]; exact hd
  · exact hwf.prefix_dir s a (by rw [hs, hd]; simp) hsn

theorem sampleFS_WF : sampleFS.WF := by
  refine ⟨rfl, ?_⟩
  intro loc hne hsome
  unfold sampleFS at hsome ⊢
  by_cases h1 : loc = []
  · exact absurd h1 hne
  · by_cases h2 : loc = ["home".toList]
    · subst h2; rfl
    · by_cases h3 : loc = ["home".toList, "schema.json".toList]
      · subst h3; rfl
      · by_cases h4 : loc = ["tmp".toList]
        · subst h4; rfl
        · rw [if_neg h1, if_neg h2, if_neg h3, if_neg h4] at hsome
          exact absurd rfl hsome

theorem mkdirAllParent_shorter (path parent : GoString)
    (h : mkdirAllParent path = some parent) : parent.length < path.length := by
  unfold mkdirAllParent at h
  dsimp only at h
  split at h
  · rename_i hlen
    cases h
    have h1 : ((path.reverse.dropWhile (· = '/')).dropWhile (· ≠ '/')).length
        ≤ path.length := by
      calc ((path.reverse.dropWhile (· = '/')).dropWhile (· ≠ '/')).length
          ≤ (path.reverse.dropWhile (· = '/')).length := (List.dropWhile_sublist _).length_le
        _ ≤ path.reverse.length := (List.dropWhile_sublist _).length_le
        _ = path.length := List.length_reverse _
    rw [List.length_dropLast, List.length_reverse]
    rw [List.length_reverse] at hlen
    omega
  · cases h

/-- The budget of `os.MkdirAll` is never used up: any budget above the length of the
path gives the same result. -/
theorem mkdirAllLoop_budget (env : Env Spec Pkg) :
    ∀ (n m : Nat) (path : GoString) (w : World), path.length < n → path.length < m →
      mkdirAllLoop env n path w = mkdirAllLoop env m path w := by
  intro n
  induction n with
  | zero => intro m path w h; omega
  | succ n ih =>
    intro m path w hn hm
    cases m with
    | zero => omega
    | succ m =>
      unfold mkdirAllLoop
      split
      · rfl
      · rfl
      · rcases hp : mkdirAllParent path with _ | parent
        · rfl
        · have hlt := mkdirAllParent_shorter path parent hp
          dsimp only
          rw [ih m parent w (by omega) (by omega)]

/-! ## `os.MkdirAll` on a cleaned path succeeds when nothing is in the way -/

theorem dropWhile_all {α : Type} (p : α → Bool) (a : List α) (ha : ∀ x ∈ a, p x = true) :
    a.dropWhile p = [] := by
  induction a with
  | nil => rfl
  | cons x a ih =>
    rw [List.dropWhile_cons, if_pos (ha x (List.mem_cons_self _ _))]
    exact ih (fun y hy => ha y (List.mem_cons_of_mem _ hy))

theorem dropWhile_append_stop {α : Type} (p : α → Bool) (a : List α) (b : α) (c : List α)
    (ha : ∀ x ∈ a, p x = true) (hb : p b = false) : (a ++ b :: c).dropWhile p = b :: c := by
  induction a with
  | nil => simp [List.dropWhile_cons, hb]
  | cons x a ih =>
    rw [List.cons_append, List.dropWhile_cons, if_pos (ha x (List.mem_cons_self _ _))]
    exact ih (fun y hy => ha y (List.mem_cons_of_mem _ hy))

theorem dropWhile_none {α : Type} (p : α → Bool) (a l : List α) (hne : a ≠ [])
    (ha : ∀ x ∈ a, p x = false) : (a ++ l).dropWhile p = a ++ l := by
  cases a with
  | nil => exact absurd rfl hne
  | cons x a =>
    rw [List.cons_append, List.dropWhile_cons, ha x (List.mem_cons_self _ _)]
    simp

/-- The scan of `os.MkdirAll` over a path that ends in the element `top`: what stands
before the last slash, that slash included. -/
theorem mkdirAll_scan (front top : GoString) (htop : top ≠ []) (hs : '/' ∉ top) :
    (((front ++ '/' :: top).reverse.dropWhile (· = '/')).dropWhile (· ≠ '/')).reverse
      = front ++ ['/'] := by
  have hrev : (front ++ '/' :: top).reverse = top.reverse ++ '/' :: front.reverse := by
    simp
  have hne : top.reverse ≠ [] := by simpa using htop
  have hno : ∀ x ∈ top.reverse, x ≠ '/' := by
    intro x hx h0
    exact hs (by rw [← h0]; exact List.mem_reverse.mp hx)
  rw [hrev, dropWhile_none _ _ _ hne (by intro x hx; simpa using hno x hx),
    dropWhile_append_stop _ _ _ _ (by intro x hx; simpa using hno x hx) (by simp)]
  simp

theorem mkdirAll_scan_single (top : GoString) (hs : '/' ∉ top) :
    ((top.reverse.dropWhile (· = '/')).dropWhile (· ≠ '/')).reverse = [] := by
  have hno : ∀ x ∈ top.reverse, x ≠ '/' := by
    intro x hx h0
    exact hs (by rw [← h0]; exact List.mem_reverse.mp hx)
  by_cases hne : top.reverse = []
  · rw [hne]; rfl
  · have h1 := dropWhile_none (· = '/') top.reverse [] hne
      (by intro x hx; simpa using hno x hx)
    rw [List.append_nil] at h1
    rw [h1, dropWhile_all _ _ (by intro x hx; simpa using hno x hx)]
    rfl

/-- The parent that `os.MkdirAll` recurses into, for a cleaned path: the cleaned path
without its last element, and none when the path has one element. -/
theorem mkdirAllParent_render (rooted : Bool) (top : GoString) (below : List GoString)
    (hk : ∀ k ∈ top :: below, Plain k) :
    mkdirAllParent (render rooted (top :: below))
      = if below = [] then none else some (render rooted below) := by
  have htop := hk top (List.mem_cons_self _ _)
  have hbelow : ∀ k ∈ below.reverse, Plain k := fun k h =>
    hk k (List.mem_cons_of_mem _ (List.mem_reverse.mp h))
  by_cases hb : below = []
  · subst hb
    rw [if_pos rfl]
    cases rooted
    · have hr : render false [top] = top := by
        simp [render, joinSlash, htop.1]
      rw [hr]
      unfold mkdirAllParent
      dsimp only
      rw [mkdirAll_scan_single top htop.2.2]
      rfl
    · have hr : render true [top] = [] ++ '/' :: top := by
        simp [render, joinSlash]
      rw [hr]
      unfold mkdirAllParent
      dsimp only
      rw [mkdirAll_scan [] top htop.1 htop.2.2]
      rfl
  · rw [if_neg hb]
    have hbr : below.reverse ≠ [] := by simpa using hb
    have hj : joinSlash ((top :: below).reverse) = joinSlash below.reverse ++ '/' :: top := by
      rw [List.reverse_cons, joinSlash_append _ _ hbr]
    have hjne : joinSlash below.reverse ≠ [] := fun h0 => hbr (joinSlash_eq_nil _ hbelow h0)
    cases rooted
    · have hr : render false (top :: below) = joinSlash below.reverse ++ '/' :: top := by
        unfold render
        dsimp only
        rw [hj]
        simp
      have hr2 : render false below = joinSlash below.reverse := by
        unfold render
        dsimp only
        simp [hjne]
      rw [hr, hr2]
      unfold mkdirAllParent
      dsimp only
      rw [mkdirAll_scan _ top htop.1 htop.2.2]
      have hlen : (joinSlash below.reverse ++ ['/']).length > 1 := by
        have := List.length_pos.mpr hjne
        simp; omega
      rw [if_pos hlen, List.dropLast_concat]
    · have hr : render true (top :: below)
          = ('/' :: joinSlash below.reverse) ++ '/' :: top := by
        unfold render
        dsimp only
        rw [hj]
        simp
      have hr2 : render true below = '/' :: joinSlash below.reverse := by
        unfold render
        dsimp only
        simp
      rw [hr, hr2]
      unfold mkdirAllParent
      dsimp only
      rw [mkdirAll_scan _ top htop.1 htop.2.2]
      have hlen : (('/' :: joinSlash below.reverse) ++ ['/']).length > 1 := by simp
      rw [if_pos hlen, List.dropLast_concat]

/-- The location that a cleaned path names: the kept elements, walked from the root or
the working directory. -/
theorem resolve_render (cwd : AbsPath) (rooted : Bool) (kept : List GoString)
    (hk : ∀ k ∈ kept, Plain k) :
    resolve cwd (render rooted kept)
      = (kept.reverse.foldl walkStep (if rooted = true then [] else cwd.reverse)).reverse := by
  unfold resolve
  rw [isRooted_render rooted kept hk, walk_filter (splitSlash (render rooted kept))]
  have : (splitSlash (render rooted kept)).filter (fun e => decide (e ≠ [] ∧ e ≠ ['.']))
      = kept.reverse := elems_render rooted kept hk
  rw [this]

theorem cleanStep_shape (rooted : Bool) (kept : List GoString) (e : GoString)
    (h : CleanShape rooted kept) : CleanShape rooted (cleanStep rooted kept e) := by
  obtain ⟨names, dots, hk, hn, hd, hr⟩ := h
  unfold cleanStep
  split
  · exact ⟨names, dots, hk, hn, hd, hr⟩
  · split
    · rename_i h2
      cases names with
      | nil =>
        rw [List.nil_append] at hk
        subst hk
        cases kept with
        | nil =>
          dsimp only
          split
          · exact ⟨[], [], rfl, by simp, by simp, fun _ => rfl⟩
          · rename_i hroot
            exact ⟨[], [e], rfl, by simp, by simp [h2], fun h0 => absurd h0 hroot⟩
        | cons top below =>
          dsimp only
          have htop := hd top (List.mem_cons_self _ _)
          rw [if_pos htop]
          have hroot : rooted ≠ true := fun h0 => by
            have := hr h0; cases this
          refine ⟨[], e :: top :: below, rfl, by simp, ?_, fun h0 => absurd h0 hroot⟩
          intro k hk1
          rcases List.mem_cons.mp hk1 with h | h
          · rw [h]; exact h2
          · exact hd k h
      | cons top names =>
        subst hk
        dsimp only [List.cons_append]
        rw [if_neg (hn top (List.mem_cons_self _ _))]
        exact ⟨names, dots, rfl, fun k hk1 => hn k (List.mem_cons_of_mem _ hk1), hd, hr⟩
    · rename_i h2
      subst hk
      refine ⟨e :: names, dots, rfl, ?_, hd, hr⟩
      intro k hk1
      rcases List.mem_cons.mp hk1 with h | h
      · rw [h]; exact h2
      · exact hn k h

theorem cleanElems_shape (rooted : Bool) (es : List GoString) :
    ∀ kept, CleanShape rooted kept → CleanShape rooted (cleanElems rooted kept es) := by
  induction es with
  | nil => intro kept h; exact h
  | cons e es ih => intro kept h; exact ih _ (cleanStep_shape rooted kept e h)

theorem walk_dots (dots : List GoString) (hd : ∀ k ∈ dots, k = ['.', '.']) :
    ∀ base : List GoString, dots.foldl walkStep base <:+ base := by
  induction dots with
  | nil => intro base; exact List.suffix_refl _
  | cons d dots ih =>
    intro base
    have h1 : walkStep base d = base.tail := by
      rw [hd d (List.mem_cons_self _ _)]; simp [walkStep]
    rw [List.foldl_cons, h1]
    exact (ih (fun k hk => hd k (List.mem_cons_of_mem _ hk)) base.tail).trans
      (List.tail_suffix _)

/-- `os.Mkdir` of a location that is free or a directory already, in a directory,
without a forced failure: it succeeds or the directory is there. -/
theorem Mkdir_ok (env : Env Spec Pkg) (name : GoString) (w : World)
    (hfault : env.fault w.trace (.mkdir (resolve env.cwd name)) = none)
    (hne : resolve env.cwd name ≠ [])
    (hparent : w.fs (resolve env.cwd name).dropLast = some .dir)
    (hfree : w.fs (resolve env.cwd name) = none ∨ w.fs (resolve env.cwd name) = some .dir) :
    (Mkdir env name w).1 = none ∨
    (Mkdir env name w).2.fs (resolve env.cwd name) = some .dir := by
  unfold Mkdir
  dsimp only
  rw [hfault]
  dsimp only
  rcases hfree with h | h
  · rw [h]
    dsimp only
    rw [if_pos ⟨hne, hparent⟩]
    exact Or.inl rfl
  · rw [h]
    exact Or.inr h

/-- `os.MkdirAll` on a cleaned path succeeds in a tree-shaped file system when the
environment forces no failure, the working directory exists, and no location on the
way to the one the path names is a regular file. -/
theorem mkdirAllLoop_render_ok (env : Env Spec Pkg) (rooted : Bool) (dots : List GoString)
    (hdots : ∀ k ∈ dots, k = ['.', '.']) (hrd : rooted = true → dots = []) :
    ∀ (names : List GoString), (∀ k ∈ names, Plain k ∧ k ≠ ['.', '.']) →
    ∀ (n : Nat) (w : World), (render rooted (names ++ dots)).length < n →
      w.fs.WF → Quiet env w.trace → w.fs env.cwd = some .dir →
      (∀ a, a <+: resolve env.cwd (render rooted (names ++ dots)) →
        ∀ c, w.fs a ≠ some (.file c)) →
      (mkdirAllLoop env n (render rooted (names ++ dots)) w).1 = none := by
  have hplainDots : ∀ k ∈ dots, Plain k := by
    intro k hk; rw [hdots k hk]; exact ⟨by decide, by decide, by decide⟩
  have hbase : ∀ w : World, w.fs.WF → w.fs env.cwd = some .dir →
      w.fs (if rooted = true then ([] : List GoString) else env.cwd.reverse).reverse
        = some .dir := by
    intro w hwf hcwd
    cases rooted
    · simpa using hcwd
    · exact hwf.1
  intro names
  induction names with
  | nil =>
    intro _ n w hn hwf _ hcwd _
    have hloc : w.fs (resolve env.cwd (render rooted ([] ++ dots))) = some .dir := by
      rw [List.nil_append, resolve_render env.cwd rooted dots hplainDots]
      have hsuf := walk_dots dots.reverse
        (fun k hk => hdots k (List.mem_reverse.mp hk))
        (if rooted = true then [] else env.cwd.reverse)
      exact hwf.dir_above _ _ (List.reverse_prefix.mpr hsuf) (hbase w hwf hcwd)
    cases n with
    | zero => omega
    | succ n =>
      unfold mkdirAllLoop Stat
      rw [hloc]
  | cons top names ih =>
    intro hnames n w hn hwf hquiet hcwd hfree
    have htop := hnames top (List.mem_cons_self _ _)
    have hbelowPlain : ∀ k ∈ names ++ dots, Plain k := by
      intro k hk
      rcases List.mem_append.mp hk with h | h
      · exact (hnames k (List.mem_cons_of_mem _ h)).1
      · exact hplainDots k h
    have hallPlain : ∀ k ∈ top :: (names ++ dots), Plain k := by
      intro k hk
      rcases List.mem_cons.mp hk with h | h
      · rw [h]; exact htop.1
      · exact hbelowPlain k h
    have hlocEq : resolve env.cwd (render rooted (top :: (names ++ dots)))
        = resolve env.cwd (render rooted (names ++ dots)) ++ [top] := by
      rw [resolve_render _ _ _ hallPlain, resolve_render _ _ _ hbelowPlain,
        List.reverse_cons, List.foldl_append]
      simp only [List.foldl_cons, List.foldl_nil]
      have : ∀ S : List GoString, walkStep S top = top :: S := by
        intro S; simp [walkStep, htop.1.1, htop.1.2.1, htop.2]
      rw [this, List.reverse_cons]
    cases n with
    | zero => omega
    | succ n =>
      rw [List.cons_append] at hn hfree ⊢
      unfold mkdirAllLoop
      rcases hst : Stat env (render rooted (top :: (names ++ dots))) w with _ | node
      · -- the path names nothing
        dsimp only
        have hup : ∀ up : Option GoError × World,
            up = (match mkdirAllParent (render rooted (top :: (names ++ dots))) with
              | some parent => mkdirAllLoop env n parent w
              | none => (none, w)) →
            up.1 = none ∧ Grows w.fs up.2.fs ∧ (∃ t, up.2.trace = w.trace ++ t) ∧
            up.2.fs (resolve env.cwd (render rooted (names ++ dots))) = some .dir := by
          intro up hupeq
          rw [mkdirAllParent_render rooted top (names ++ dots) hallPlain] at hupeq
          by_cases hb : names ++ dots = []
          · rw [if_pos hb] at hupeq
            subst hupeq
            refine ⟨rfl, Grows.refl _, ⟨[], by simp⟩, ?_⟩
            rw [hb, resolve_render env.cwd rooted [] (by simp)]
            exact hbase w hwf hcwd
          · rw [if_neg hb] at hupeq
            dsimp only at hupeq
            have hshort := mkdirAllParent_shorter (render rooted (top :: (names ++ dots)))
              (render rooted (names ++ dots))
              (by rw [mkdirAllParent_render rooted top (names ++ dots) hallPlain, if_neg hb])
            have hok := ih (fun k hk => hnames k (List.mem_cons_of_mem _ hk)) n w
              (by omega) hwf hquiet hcwd
              (fun a ha c => hfree a (by rw [hlocEq]; exact ha.trans (List.prefix_append _ _)) c)
            have hspec := mkdirAllLoop_spec env n (render rooted (names ++ dots)) w
            subst hupeq
            exact ⟨hok, hspec.1, hspec.2.1.elim fun t ht => ⟨t, ht.1⟩, hspec.2.2.2 hok⟩
        generalize (match mkdirAllParent (render rooted (top :: (names ++ dots))) with
              | some parent => mkdirAllLoop env n parent w
              | none => (none, w)) = up at hup
        obtain ⟨hup1, hgrow, ⟨t, ht⟩, hparent⟩ := hup up rfl
        rcases up with ⟨r, w1⟩
        dsimp only at hup1 hgrow ht hparent
        subst hup1
        dsimp only
        have hfree1 : w1.fs (resolve env.cwd (render rooted (top :: (names ++ dots)))) = none ∨
            w1.fs (resolve env.cwd (render rooted (top :: (names ++ dots)))) = some .dir := by
          rcases hgrow (resolve env.cwd (render rooted (top :: (names ++ dots)))) with h | ⟨_, h⟩
          · left; rw [h]; exact hst
          · right; exact h
        have hmk := Mkdir_ok env (render rooted (top :: (names ++ dots))) w1
          (by rw [ht]; exact hquiet t _)
          (by rw [hlocEq]; simp)
          (by rw [hlocEq, List.dropLast_concat]; exact hparent)
          hfree1
        have hmspec := Mkdir_spec env (render rooted (top :: (names ++ dots))) w1
        rcases hmkd : Mkdir env (render rooted (top :: (names ++ dots))) w1 with ⟨r2, w2⟩
        rw [hmkd] at hmk hmspec
        dsimp only at hmk hmspec
        cases r2 with
        | none => rfl
        | some err =>
          dsimp only
          rcases hmk with h | h
          · cases h
          · unfold Stat
            rw [h, if_pos rfl]
      · cases node with
        | dir => rfl
        | file c =>
          exfalso
          exact hfree _ (List.prefix_refl _) c hst

/-- `tools.EnsureDir` of `path.Dir(p)` succeeds in a tree-shaped file system when the
environment forces no failure, the working directory exists, and no location on the
way to the directory is a regular file: every missing directory on the way is
made. -/
theorem EnsureDir_Dir_ok (env : Env Spec Pkg) (p : GoString) (w : World)
    (hwf : w.fs.WF) (hquiet : Quiet env w.trace) (hcwd : w.fs env.cwd = some .dir)
    (hfree : ∀ a, a <+: resolve env.cwd (Dir p) → ∀ c, w.fs a ≠ some (.file c)) :
    (EnsureDir env (Dir p) w).1 = none := by
  have hplain : ∀ k ∈ cleanElems (isRooted (splitDir p)) [] (splitSlash (splitDir p)),
      Plain k :=
    cleanElems_plain _ _ [] (by simp) (mem_splitSlash _)
  obtain ⟨names, dots, hk, hn, hd, hr⟩ :=
    cleanElems_shape (isRooted (splitDir p)) (splitSlash (splitDir p)) []
      ⟨[], [], rfl, by simp, by simp, fun _ => rfl⟩
  have hdir : Dir p = render (isRooted (splitDir p)) (names ++ dots) := by
    unfold Dir Clean; rw [hk]
  unfold EnsureDir MkdirAll
  rw [hdir] at hfree ⊢
  apply mkdirAllLoop_render_ok env _ dots hd hr names _ _ w (Nat.lt_succ_self _) hwf hquiet
    hcwd hfree
  intro k hkn
  exact ⟨hplain k (by rw [hk]; exact List.mem_append_left _ hkn), hn k hkn⟩

/-- Every outcome of `emitFile` keeps the file system tree-shaped. -/
theorem emitFile_WF (env : Env Spec Pkg) (outDir relPath : GoString) (contents : Bytes)
    (w : World) (hwf : w.fs.WF) : (emitFile env outDir relPath contents w).2.fs.WF := by
  have h1 := (mkdirAllLoop_spec env ((Dir (Join outDir relPath)).length + 1)
    (Dir (Join outDir relPath)) w).2.2.1 hwf
  unfold emitFile
  dsimp only
  rcases he : EnsureDir env (Dir (Join outDir relPath)) w with ⟨r1, w1⟩
  have he' : mkdirAllLoop env ((Dir (Join outDir relPath)).length + 1)
      (Dir (Join outDir relPath)) w = (r1, w1) := he
  rw [he'] at h1
  cases r1 with
  | some e => exact h1
  | none =>
    dsimp only
    have h2 := (Create_spec env (Join outDir relPath) w1).2.1 h1
    rcases hc : Create env (Join outDir relPath) w1 with ⟨r2, w2⟩
    rw [hc] at h2
    cases r2 with
    | some e => exact h2
    | none => exact (Write_spec env (Join outDir relPath) contents w2).2.1 h2

/-- Every outcome of the loop keeps the file system tree-shaped. -/
theorem emitAll_WF (env : Env Spec Pkg) (outDir : GoString) (l : List (GoString × Bytes))
    (w : World) (hwf : w.fs.WF) : (emitAll env outDir l w).2.fs.WF := by
  induction l generalizing w with
  | nil => exact hwf
  | cons x l ih =>
    obtain ⟨f, contents⟩ := x
    have h1 := emitFile_WF env outDir f contents w hwf
    simp only [emitAll]
    rcases hemit : emitFile env outDir f contents w with ⟨r, w1⟩
    rw [hemit] at h1
    cases r with
    | some err => exact h1
    | none => exact ih w1 h1

/-! ## The model of package `path` on the cases of the package's own tables -/

/-- `path.Clean` on the rows of the table `cleantests` of Go's package `path`. -/
theorem Clean_table :
    [ "", "abc", "abc/def", "a/b/c", ".", "..", "../..", "../../abc", "/abc", "/",
      "abc/", "abc/def/", "a/b/c/", "./", "../", "../../", "/abc/",
      "abc//def//ghi", "//abc", "///abc", "//abc//", "abc//",
      "abc/./def", "/./abc/def", "abc/.",
      "abc/def/ghi/../jkl", "abc/def/../ghi/../jkl", "abc/def/..", "abc/def/../..",
      "/abc/def/../..", "abc/def/../../..", "/abc/def/../../..",
      "abc/def/../../../ghi/jkl/../../../mno",
      "abc/./../def", "abc//./../def", "abc/../../././../def" ].map
      (fun s => String.mk (Clean s.toList))
    = [ ".", "abc", "abc/def", "a/b/c", ".", "..", "../..", "../../abc", "/abc", "/",
      "abc", "abc/def", "a/b/c", ".", "..", "../..", "/abc",
      "abc/def/ghi", "/abc", "/abc", "/abc", "abc",
      "abc/def", "/abc/def", "abc",
      "abc/def/jkl", "abc/jkl", "abc", ".",
      "/", "..", "/",
      "../../mno",
      "def", "def", "../../def" ] := by
  decide

/-- `path.Join` on the rows with two arguments of the table `jointests`. -/
theorem Join_table :
    [ ("a", "b"), ("a", ""), ("", "b"), ("/", "a"), ("/", ""), ("a/", "b"), ("a/", ""),
      ("", "") ].map (fun s => String.mk (Join s.1.toList s.2.toList))
    = [ "a/b", "a", "b", "/a", "/", "a/b", "a", "" ] := by
  decide

/-- `path.Dir` on the rows of the table `dirtests`. -/
theorem Dir_table :
    [ "", ".", "/.", "/", "////", "/foo", "x/", "abc", "abc/def", "abc////def",
      "a/b/.x", "a/b/c.", "a/b/c.x" ].map (fun s => String.mk (Dir s.toList))
    = [ ".", ".", "/", "/", "/", "/", "x", ".", "abc", "abc",
      "a/b", "a/b", "a/b" ] := by
  decide

/-- `path.Split` as documented: the path is its directory part followed by a file
part without a slash, and the directory part is empty or ends in a slash. -/
theorem splitDir_spec (p : GoString) :
    ∃ file, p = splitDir p ++ file ∧ '/' ∉ file ∧
      (splitDir p = [] ∨ ∃ front, splitDir p = front ++ ['/']) := by
  rcases List.eq_nil_or_concat (splitSlash p) with h | ⟨q, last, h⟩
  · exact absurd h (splitSlash_ne_nil p)
  · rw [List.concat_eq_append] at h
    have hp : p = joinSlash (q ++ [last]) := by rw [← h, joinSlash_splitSlash]
    have hlast : '/' ∉ last :=
      mem_splitSlash p last (by rw [h]; exact List.mem_append_right _ (List.mem_singleton_self _))
    have hdl : (splitSlash p).dropLast = q := by rw [h, List.dropLast_concat]
    refine ⟨last, ?_, hlast, ?_⟩
    · unfold splitDir
      rw [hdl]
      cases q with
      | nil => exact hp
      | cons a t =>
        dsimp only
        rw [List.append_assoc]
        rw [hp, joinSlash_append (a :: t) last (by simp)]
        rfl
    · unfold splitDir
      rw [hdl]
      cases q with
      | nil => exact Or.inl rfl
      | cons a t => exact Or.inr ⟨_, rfl⟩

/-! ## What glog does to the file system -/

theorem FS.unset_other (fs : FS) (loc q : AbsPath) (h : q ≠ loc) : fs.unset loc q = fs q := by
  simp [FS.unset, h]

/-- Taking away a regular file, or a directory with nothing in it, keeps the file
system tree-shaped. -/
theorem FS.WF.unset {fs : FS} {loc : AbsPath} (hwf : fs.WF) (hne : loc ≠ [])
    (hleaf : ∀ q, q ≠ [] → q.dropLast = loc → fs q = none) : (fs.unset loc).WF := by
  refine ⟨by rw [FS.unset_other _ _ _ (Ne.symm hne)]; exact hwf.1, ?_⟩
  intro l hl hsome
  by_cases h2 : l = loc
  · subst h2; simp [FS.unset] at hsome
  · rw [FS.unset_other _ _ _ h2] at hsome
    by_cases h1 : l.dropLast = loc
    · exact absurd (hleaf l hl h1) hsome
    · rw [FS.unset_other _ _ _ h1]; exact hwf.2 l hl hsome

/-- What `os.Remove` does to the world. -/
theorem Remove_spec (env : Env Spec Pkg) (name : GoString) (w : World) :
    (Remove env name w).2.trace = w.trace ++ [.remove (resolve env.cwd name)] ∧
    (∀ q, q ≠ resolve env.cwd name →
      (Remove env name w).2.fs q = w.fs q ∧ (Remove env name w).2.links q = w.links q) ∧
    (w.fs.WF → (Remove env name w).2.fs.WF) := by
  unfold Remove
  dsimp only
  split
  · exact ⟨rfl, fun _ _ => ⟨rfl, rfl⟩, id⟩
  · split
    · refine ⟨rfl, fun q hq => ⟨rfl, ?_⟩, id⟩
      simp [hq]
    · split
      · rename_i c hfile
        refine ⟨rfl, fun q hq => ⟨FS.unset_other _ _ _ hq, rfl⟩, fun hwf => ?_⟩
        have hne : resolve env.cwd name ≠ [] := by
          intro h0; rw [h0, hwf.1] at hfile; cases hfile
        apply hwf.unset hne
        intro q hq hd
        by_contra hsome
        have := hwf.2 q hq hsome
        rw [hd, hfile] at this
        cases this
      · split
        · rename_i hp
          refine ⟨rfl, fun q hq => ⟨FS.unset_other _ _ _ hq, rfl⟩, fun hwf => ?_⟩
          exact hwf.unset hp.1 (env.emptyDir_sound _ _ hp.2)
        · exact ⟨rfl, fun _ _ => ⟨rfl, rfl⟩, id⟩
      · exact ⟨rfl, fun _ _ => ⟨rfl, rfl⟩, id⟩

/-- What `os.Symlink` does to the world. -/
theorem Symlink_spec (env : Env Spec Pkg) (target name : GoString) (w : World) :
    (Symlink env target name w).2.trace
      = w.trace ++ [.symlink (resolve env.cwd name) target] ∧
    (Symlink env target name w).2.fs = w.fs ∧
    (∀ q, q ≠ resolve env.cwd name → (Symlink env target name w).2.links q = w.links q) := by
  unfold Symlink
  dsimp only
  split
  · exact ⟨rfl, rfl, fun _ _ => rfl⟩
  · split
    · split
      · refine ⟨rfl, rfl, fun q hq => ?_⟩
        simp [hq]
      · exact ⟨rfl, rfl, fun _ _ => rfl⟩
    · exact ⟨rfl, rfl, fun _ _ => rfl⟩

/-- `os.Create` leaves every other location and every symbolic link as it was. -/
theorem Create_frame (env : Env Spec Pkg) (name : GoString) (w : World) :
    (∀ q, q ≠ resolve env.cwd name → (Create env name w).2.fs q = w.fs q) ∧
    (Create env name w).2.links = w.links := by
  unfold Create
  dsimp only
  split
  · exact ⟨fun _ _ => rfl, rfl⟩
  · split
    · exact ⟨fun _ _ => rfl, rfl⟩
    · exact ⟨fun q hq => FS.set_other _ _ _ _ hq, rfl⟩
    · split
      · exact ⟨fun q hq => FS.set_other _ _ _ _ hq, rfl⟩
      · exact ⟨fun _ _ => rfl, rfl⟩

/-- `Write` leaves every symbolic link as it was. -/
theorem Write_links (env : Env Spec Pkg) (name : GoString) (b : Bytes) (w : World) :
    (Write env name b w).2.links = w.links := by
  unfold Write
  dsimp only
  split
  · split <;> rfl
  · rfl

theorem Event.isFileOpAt_mono {locs locs' : List AbsPath} (h : ∀ l ∈ locs, l ∈ locs')
    (ev : Event) (hev : ev.isFileOpAt locs) : ev.isFileOpAt locs' := by
  cases ev <;> simp only [Event.isFileOpAt] at hev ⊢
  all_goals exact h _ hev

/-- What the function `create` of glog does to the world: file operations at the
locations of its log file and its link only, and the file it reports is one of
them. -/
theorem glogCreate_spec (env : Env Spec Pkg) (dirs : List GoString) :
    ∀ (last : Option GoError) (w : World),
      (∃ t, (glogCreate env dirs last w).2.trace = w.trace ++ t ∧
        ∀ ev ∈ t, ev.isFileOpAt (glogLocsOf env dirs)) ∧
      (∀ q, q ∉ glogLocsOf env dirs →
        (glogCreate env dirs last w).2.fs q = w.fs q ∧
        (glogCreate env dirs last w).2.links q = w.links q) ∧
      (w.fs.WF → (glogCreate env dirs last w).2.fs.WF) ∧
      (∀ fname, (glogCreate env dirs last w).1 = .ok fname →
        resolve env.cwd fname ∈ glogLocsOf env dirs) := by
  induction dirs with
  | nil =>
    intro last w
    exact ⟨⟨[], by simp [glogCreate], by simp⟩, fun _ _ => ⟨rfl, rfl⟩, id,
      fun _ h => by simp [glogCreate] at h⟩
  | cons dir dirs ih =>
    intro last w
    have hc := Create_spec env (Join dir env.glogFile) w
    have hcf := Create_frame env (Join dir env.glogFile) w
    unfold glogCreate
    rcases hcr : Create env (Join dir env.glogFile) w with ⟨r, w1⟩
    rw [hcr] at hc hcf
    dsimp only at hc hcf
    cases r with
    | none =>
      dsimp only
      have hr := Remove_spec env (Join dir env.glogLink) w1
      have hs := Symlink_spec env env.glogFile (Join dir env.glogLink)
        (Remove env (Join dir env.glogLink) w1).2
      refine ⟨⟨[.create (resolve env.cwd (Join dir env.glogFile)),
          .remove (resolve env.cwd (Join dir env.glogLink)),
          .symlink (resolve env.cwd (Join dir env.glogLink)) env.glogFile], ?_, ?_⟩,
        ?_, ?_, ?_⟩
      · rw [hs.1, hr.1, hc.1]; simp
      · intro ev hev
        simp only [List.mem_cons, List.mem_singleton, List.not_mem_nil, or_false] at hev
        rcases hev with h | h | h <;> subst h <;> simp [Event.isFileOpAt, glogLocsOf]
      · intro q hq
        simp only [glogLocsOf, List.mem_cons, not_or] at hq
        rw [hs.2.1, hs.2.2 q hq.2.1, (hr.2.1 q hq.2.1).1, (hr.2.1 q hq.2.1).2, hcf.1 q hq.1,
          hcf.2]
        exact ⟨rfl, rfl⟩
      · intro hwf
        rw [hs.2.1]
        exact hr.2.2 (hc.2.1 hwf)
      · intro fname h
        cases h
        simp [glogLocsOf]
    | some err =>
      dsimp only
      obtain ⟨⟨t, ht, hte⟩, hfr, hwf, hok⟩ := ih (some err) w1
      refine ⟨⟨.create (resolve env.cwd (Join dir env.glogFile)) :: t, ?_, ?_⟩, ?_, ?_, ?_⟩
      · rw [ht, hc.1]; simp
      · intro ev hev
        rcases List.mem_cons.mp hev with h | h
        · subst h; simp [Event.isFileOpAt, glogLocsOf]
        · exact Event.isFileOpAt_mono
            (fun l hl => by simp only [glogLocsOf, List.mem_cons]; exact Or.inr (Or.inr hl))
            ev (hte ev h)
      · intro q hq
        simp only [glogLocsOf, List.mem_cons, not_or] at hq
        rw [(hfr q hq.2.2).1, (hfr q hq.2.2).2, hcf.1 q hq.1, hcf.2]
        exact ⟨rfl, rfl⟩
      · intro h; exact hwf (hc.2.1 h)
      · intro fname h
        have := hok fname h
        simp only [glogLocsOf, List.mem_cons]
        exact Or.inr (Or.inr this)

/-- What the start of glog's log file does to the world: file operations at the
locations of its log file and its link only. -/
theorem glogStart_spec (env : Env Spec Pkg) (cmdline : List GoString) (w : World) :
    (∃ t, (glogStart env cmdline w).2.trace = w.trace ++ t ∧
      ∀ ev ∈ t, ev.isFileOpAt (glogLocs env cmdline)) ∧
    (∀ q, q ∉ glogLocs env cmdline →
      (glogStart env cmdline w).2.fs q = w.fs q ∧
      (glogStart env cmdline w).2.links q = w.links q) ∧
    (w.fs.WF → (glogStart env cmdline w).2.fs.WF) := by
  obtain ⟨⟨t, ht, hte⟩, hfr, hwf, hok⟩ := glogCreate_spec env (glogDirs env cmdline) none w
  unfold glogStart
  rcases hcr : glogCreate env (glogDirs env cmdline) none w with ⟨r, w1⟩
  rw [hcr] at ht hfr hwf hok
  dsimp only at ht hfr hwf hok
  cases r with
  | error last => exact ⟨⟨t, ht, hte⟩, hfr, hwf⟩
  | ok fname =>
    dsimp only
    have hw := Write_spec env fname env.glogHeader w1
    have hl := Write_links env fname env.glogHeader w1
    have hloc : resolve env.cwd fname ∈ glogLocs env cmdline := hok fname rfl
    refine ⟨⟨t ++ [.write (resolve env.cwd fname) env.glogHeader], ?_, ?_⟩, ?_, ?_⟩
    · rw [hw.1, ht, List.append_assoc]
    · intro ev hev
      rcases List.mem_append.mp hev with h | h
      · exact hte ev h
      · rw [List.mem_singleton.mp h]; exact hloc
    · intro q hq
      have hne : q ≠ resolve env.cwd fname := fun h => hq (h ▸ hloc)
      rw [hw.2.2.1 q hne, hl]
      exact hfr q hq
    · intro h; exact hw.2.1 (hwf h)

theorem glogNoted_same (env : Env Spec Pkg) (cmdline : List GoString) (msg : GoString)
    (w : World) :
    (glogNoted env cmdline msg w).fs = w.fs ∧ (glogNoted env cmdline msg w).links = w.links ∧
    (glogNoted env cmdline msg w).trace = w.trace := by
  unfold glogNoted
  split <;> exact ⟨rfl, rfl, rfl⟩

/-- What `glog.Infof` does to the world. Its calls are file operations at the
locations of its log file and its link, every other location is as it was, and the
tree shape is kept; with `-logtostderr` nothing happens to the file system, and the
process goes on; the process is ended, with status 2, exactly when glog does not log to
standard error and its log file cannot be started. -/
theorem glogInfof_spec (env : Env Spec Pkg) (cmdline : List GoString) (msg : GoString)
    (w : World) :
    (∃ t, (glogInfof env cmdline msg w).2.trace = w.trace ++ t ∧
      ∀ ev ∈ t, ev.isFileOpAt (glogLocs env cmdline)) ∧
    (∀ q, q ∉ glogLocs env cmdline →
      (glogInfof env cmdline msg w).2.fs q = w.fs q ∧
      (glogInfof env cmdline msg w).2.links q = w.links q) ∧
    (w.fs.WF → (glogInfof env cmdline msg w).2.fs.WF) ∧
    (glogToStderr env cmdline = true →
      (glogInfof env cmdline msg w).2.fs = w.fs ∧
      (glogInfof env cmdline msg w).2.links = w.links ∧
      (glogInfof env cmdline msg w).2.trace = w.trace) ∧
    ((glogInfof env cmdline msg w).1 = some 2 ↔
      glogToStderr env cmdline = false ∧
      (glogStart env cmdline (glogNoted env cmdline msg w)).1 ≠ none) := by
  obtain ⟨hfs, hlinks, htr⟩ := glogNoted_same env cmdline msg w
  obtain ⟨⟨t, ht, hte⟩, hfr, hwf⟩ := glogStart_spec env cmdline (glogNoted env cmdline msg w)
  rw [hfs, hlinks] at hfr
  rw [hfs] at hwf
  rw [htr] at ht
  unfold glogInfof
  by_cases hts : glogToStderr env cmdline = true
  · rw [if_pos hts]
    refine ⟨⟨[], by simp, by simp⟩, fun _ _ => ⟨rfl, rfl⟩, id, fun _ => ⟨rfl, rfl, rfl⟩, ?_⟩
    constructor
    · intro h; cases h
    · intro h; rw [hts] at h; cases h.1
  · rw [if_neg hts]
    have hfalse : glogToStderr env cmdline = false := by
      cases h : glogToStderr env cmdline
      · rfl
      · exact absurd h hts
    rcases hst : glogStart env cmdline (glogNoted env cmdline msg w) with ⟨r, w2⟩
    rw [hst] at ht hfr hwf
    dsimp only at ht hfr hwf ⊢
    cases r with
    | none =>
      refine ⟨⟨t, ht, hte⟩, hfr, hwf, fun h => absurd h hts, ?_⟩
      constructor
      · intro h; cases h
      · intro h; exact absurd rfl h.2
    | some err =>
      refine ⟨⟨t, ht, hte⟩, hfr, hwf, fun h => absurd h hts, ?_⟩
      constructor
      · intro _; exact ⟨hfalse, by simp⟩
      · intro _; rfl

/-- What the end of a failing run does to the world: the status is 1, or 2 exactly
when glog does not log to standard error and cannot start its log file; the calls are
glog's file operations at the locations of its log file and its link, every other
location is as it was, and with `-logtostderr` the file system is as it was. -/
theorem exitLogged_spec (env : Env Spec Pkg) (cmdline : List GoString) (msg : GoString)
    (w : World) :
    ((exitLogged env cmdline msg w).1 = 1 ∨ (exitLogged env cmdline msg w).1 = 2) ∧
    (∃ t, (exitLogged env cmdline msg w).2.trace = w.trace ++ t ∧
      ∀ ev ∈ t, ev.isFileOpAt (glogLocs env cmdline)) ∧
    (∀ q, q ∉ glogLocs env cmdline →
      (exitLogged env cmdline msg w).2.fs q = w.fs q ∧
      (exitLogged env cmdline msg w).2.links q = w.links q) ∧
    (w.fs.WF → (exitLogged env cmdline msg w).2.fs.WF) ∧
    (glogToStderr env cmdline = true →
      (exitLogged env cmdline msg w).2.fs = w.fs ∧
      (exitLogged env cmdline msg w).2.links = w.links ∧
      (exitLogged env cmdline msg w).2.trace = w.trace) ∧
    ((exitLogged env cmdline msg w).1 = 2 ↔
      glogToStderr env cmdline = false ∧
      (glogStart env cmdline (glogNoted env cmdline msg w)).1 ≠ none) := by
  obtain ⟨h1, h2, h3, h4, h5⟩ := glogInfof_spec env cmdline msg w
  have hc := glogInfof_code env cmdline msg w
  unfold exitLogged
  rcases hg : glogInfof env cmdline msg w with ⟨r, w1⟩
  rw [hg] at h1 h2 h3 h4 h5 hc
  dsimp only at h1 h2 h3 h4 h5 hc
  rcases hc with hc | hc
  · subst hc
    refine ⟨Or.inl rfl, h1, h2, h3, h4, ?_⟩
    constructor
    · intro h; cases h
    · intro h; have := h5.mpr h; cases this
  · subst hc
    exact ⟨Or.inr rfl, h1, h2, h3, h4, ⟨fun _ => h5.mp rfl, fun _ => rfl⟩⟩

/-! ## Failing runs of `main`, and its exit status -/

/-- C4 (as stated, refuted): with the schema path `missing.json`, which names nothing,
and with a schema that does not unmarshal, `main` exits with status 1, and the file
system is not as before: `glog.Infof` has created glog's log file in the directory
for temporary files (and the symbolic link to it). And where that directory does not
exist, the status is 2, not 1. -/
theorem main_schema_load_failure_logs :
    (main (sampleEnv emptyMap) "templategen".toList
      ["out".toList, "missing.json".toList] sampleWorld).1 = 1 ∧
    sampleWorld.fs ["tmp".toList, (sampleEnv emptyMap).glogFile] = none ∧
    (main (sampleEnv emptyMap) "templategen".toList
      ["out".toList, "missing.json".toList] sampleWorld).2.fs
        ["tmp".toList, (sampleEnv emptyMap).glogFile] = some (.file [76, 111, 103]) ∧
    (main (sampleEnv emptyMap) "templategen".toList
      ["out".toList, "missing.json".toList] sampleWorld).2.links
        ["tmp".toList, "templategen.INFO".toList] = some (sampleEnv emptyMap).glogFile ∧
    (main (sampleEnv emptyMap) "templategen".toList
      ["out".toList, "missing.json".toList] sampleWorld).2.fs ≠ sampleWorld.fs ∧
    (main { sampleEnv emptyMap with
            Unmarshal := fun _ => .error (.leaf "invalid character".toList) }
      "templategen".toList ["out".toList, "schema.json".toList] sampleWorld).1 = 1 ∧
    (main { sampleEnv emptyMap with
            Unmarshal := fun _ => .error (.leaf "invalid character".toList) }
      "templategen".toList ["out".toList, "schema.json".toList] sampleWorld).2.fs
        ["tmp".toList, (sampleEnv emptyMap).glogFile] = some (.file [76, 111, 103]) ∧
    (main { sampleEnv emptyMap with tempDir := "/nonexistent".toList } "templategen".toList
      ["out".toList, "missing.json".toList] sampleWorld).1 = 2 := by
  refine ⟨by decide, by decide, by decide, by decide, ?_, by decide, by decide, by decide⟩
  intro h
  have := congrFun h ["tmp".toList, (sampleEnv emptyMap).glogFile]
  revert this
  decide

/-- C4 (amended): with two positional arguments or more, when the schema file cannot
be read (its path names nothing, or the read fails for another reason) or the bytes
read do not unmarshal, `main` exits with status 1, or with status 2 when glog cannot
start its log file. The only calls it attempted are the read, the unmarshal (after a
read that succeeded) and glog's file operations on its log file and its link, so
neither the importer nor the generator was called and the program wrote no file of
its own: every location other than those of glog's log file and link holds what it
held. With `-logtostderr` the status is 1 and the file system is as before. -/
theorem main_schema_load_failure (env : Env Spec Pkg) (prog : GoString)
    (cmdline : List GoString) (outDir schemaFile : GoString) (more : List GoString) (w : World)
    (hparse : flagParse env cmdline = .args (outDir :: schemaFile :: more))
    (hfail : w.fs (resolve env.cwd schemaFile) = none ∨
      (∃ e, (ReadFile env schemaFile w).1 = .error e) ∨
      (∃ schema e, (ReadFile env schemaFile w).1 = .ok schema ∧
        env.Unmarshal schema = .error e)) :
    ((main env prog cmdline w).1 = 1 ∨ (main env prog cmdline w).1 = 2) ∧
    (∃ t, (main env prog cmdline w).2.trace = w.trace ++ t ∧
      ∀ ev ∈ t, ev = .readFile schemaFile ∨ ev = .unmarshal ∨
        ev.isFileOpAt (glogLocs env cmdline)) ∧
    (∀ q, q ∉ glogLocs env cmdline →
      (main env prog cmdline w).2.fs q = w.fs q ∧
      (main env prog cmdline w).2.links q = w.links q) ∧
    (glogToStderr env cmdline = true →
      (main env prog cmdline w).1 = 1 ∧
      (main env prog cmdline w).2.fs = w.fs ∧
      (main env prog cmdline w).2.links = w.links ∧
      ((main env prog cmdline w).2.trace = w.trace ++ [.readFile schemaFile] ∨
       (main env prog cmdline w).2.trace = w.trace ++ [.readFile schemaFile, .unmarshal])) ∧
    ((main env prog cmdline w).1 = 2 →
      glogToStderr env cmdline = false ∧
      ∃ w1, w1.fs = w.fs ∧ w1.links = w.links ∧ (glogStart env cmdline w1).1 ≠ none) := by
  have hread : (∃ e, (ReadFile env schemaFile w).1 = .error e) ∨
      (∃ schema e, (ReadFile env schemaFile w).1 = .ok schema ∧
        env.Unmarshal schema = .error e) := by
    rcases hfail with h | h | h
    · exact Or.inl (ReadFile_missing env schemaFile w h)
    · exact Or.inl h
    · exact Or.inr h
  have key : ∀ (msg : GoString) (w0 : World) (t0 : List Event),
      w0.fs = w.fs → w0.links = w.links → w0.trace = w.trace ++ t0 →
      (∀ ev ∈ t0, ev = .readFile schemaFile ∨ ev = .unmarshal) →
      (t0 = [.readFile schemaFile] ∨ t0 = [.readFile schemaFile, .unmarshal]) →
      ((exitLogged env cmdline msg w0).1 = 1 ∨ (exitLogged env cmdline msg w0).1 = 2) ∧
      (∃ t, (exitLogged env cmdline msg w0).2.trace = w.trace ++ t ∧
        ∀ ev ∈ t, ev = .readFile schemaFile ∨ ev = .unmarshal ∨
          ev.isFileOpAt (glogLocs env cmdline)) ∧
      (∀ q, q ∉ glogLocs env cmdline →
        (exitLogged env cmdline msg w0).2.fs q = w.fs q ∧
        (exitLogged env cmdline msg w0).2.links q = w.links q) ∧
      (glogToStderr env cmdline = true →
        (exitLogged env cmdline msg w0).1 = 1 ∧
        (exitLogged env cmdline msg w0).2.fs = w.fs ∧
        (exitLogged env cmdline msg w0).2.links = w.links ∧
        ((exitLogged env cmdline msg w0).2.trace = w.trace ++ [.readFile schemaFile] ∨
         (exitLogged env cmdline msg w0).2.trace
           = w.trace ++ [.readFile schemaFile, .unmarshal])) ∧
      ((exitLogged env cmdline msg w0).1 = 2 →
        glogToStderr env cmdline = false ∧
        ∃ w1, w1.fs = w.fs ∧ w1.links = w.links ∧ (glogStart env cmdline w1).1 ≠ none) := by
    intro msg w0 t0 hfs hlinks htr ht0 hshape
    obtain ⟨hcode, ⟨t, ht, hte⟩, hfr, _, hts, h2⟩ := exitLogged_spec env cmdline msg w0
    refine ⟨hcode, ⟨t0 ++ t, by rw [ht, htr, List.append_assoc], ?_⟩, ?_, ?_, ?_⟩
    · intro ev hev
      rcases List.mem_append.mp hev with h | h
      · rcases ht0 ev h with h1 | h1
        · exact Or.inl h1
        · exact Or.inr (Or.inl h1)
      · exact Or.inr (Or.inr (hte ev h))
    · intro q hq
      rw [(hfr q hq).1, (hfr q hq).2, hfs, hlinks]
      exact ⟨rfl, rfl⟩
    · intro h
      obtain ⟨h3, h4, h5⟩ := hts h
      refine ⟨?_, by rw [h3, hfs], by rw [h4, hlinks], ?_⟩
      · rcases hcode with hc | hc
        · exact hc
        · have := (h2.mp hc).1
          rw [h] at this; cases this
      · rw [h5, htr]
        rcases hshape with hs | hs
        · exact Or.inl (by rw [hs])
        · exact Or.inr (by rw [hs])
    · intro h
      obtain ⟨h3, h4⟩ := h2.mp h
      obtain ⟨g1, g2, _⟩ := glogNoted_same env cmdline msg w0
      exact ⟨h3, glogNoted env cmdline msg w0, by rw [g1, hfs], by rw [g2, hlinks], h4⟩
  have hw := ReadFile_world env schemaFile w
  unfold main
  rw [hparse]
  dsimp only
  rcases hrd : ReadFile env schemaFile w with ⟨r, w1⟩
  rw [hrd] at hread hw
  dsimp only at hread hw
  subst hw
  rcases hread with ⟨e, he⟩ | ⟨schema, e, hs, hu⟩
  · subst he
    dsimp only
    exact key _ _ [.readFile schemaFile] rfl rfl rfl (by simp) (Or.inl rfl)
  · subst hs
    dsimp only
    rw [hu]
    dsimp only
    exact key _ _ [.readFile schemaFile, .unmarshal] rfl rfl (by simp [World.log])
      (by simp) (Or.inr rfl)

/-- With `-logtostderr` and a schema path that names nothing, the file system is as
before. -/
theorem main_schema_load_failure_witness :
    (main (sampleEnv emptyMap) "templategen".toList
      ["-logtostderr".toList, "out".toList, "missing.json".toList] sampleWorld).1 = 1 ∧
    (main (sampleEnv emptyMap) "templategen".toList
      ["-logtostderr".toList, "out".toList, "missing.json".toList] sampleWorld).2.fs
      = sampleWorld.fs :=
  have h := main_schema_load_failure (sampleEnv emptyMap) "templategen".toList
    ["-logtostderr".toList, "out".toList, "missing.json".toList] "out".toList
    "missing.json".toList [] sampleWorld (by decide) (Or.inl (by decide))
  ⟨(h.2.2.2.1 (by decide)).1, (h.2.2.2.1 (by decide)).2.1⟩

theorem flagStep_rejected (env : Env Spec Pkg) (s : GoString) (code : Nat)
    (h : flagStep env s = .rejected code) : code = 2 ∨ code = env.helpExit := by
  unfold flagStep at h
  by_cases h1 : s.length < 2 ∨ s.head? ≠ some '-'
  · rw [if_pos h1] at h; cases h
  rw [if_neg h1] at h
  by_cases h2 : s = ['-', '-']
  · rw [if_pos h2] at h; cases h
  rw [if_neg h2] at h
  dsimp only at h
  generalize (if s.get? 1 = some '-' then s.drop 2 else s.drop 1) = body at h
  by_cases h3 : body = [] ∨ body.head? = some '-' ∨ body.head? = some '='
  · rw [if_pos h3] at h; cases h; exact Or.inl rfl
  rw [if_neg h3] at h
  generalize (splitFlag body).1 = name at h
  generalize (splitFlag body).2 = value at h
  cases hf : env.formal name with
  | none =>
    rw [hf] at h
    dsimp only at h
    split_ifs at h
    · cases h; exact Or.inr rfl
    · cases h; exact Or.inl rfl
  | some b =>
    rw [hf] at h
    cases b with
    | true =>
      dsimp only at h
      split_ifs at h
      cases h; exact Or.inl rfl
    | false =>
      cases value with
      | none => cases h
      | some v =>
        dsimp only at h
        split_ifs at h
        cases h; exact Or.inl rfl

theorem flagParse_exit (env : Env Spec Pkg) :
    ∀ (n : Nat) (cmdline : List GoString) (code : Nat), cmdline.length ≤ n →
      flagParse env cmdline = .exit code → code = 2 ∨ code = env.helpExit := by
  intro n
  induction n with
  | zero =>
    intro cmdline code hlen h
    match cmdline, hlen with
    | [], _ => simp [flagParse] at h
  | succ n ih =>
    intro cmdline code hlen h
    match cmdline, hlen with
    | [], _ => simp [flagParse] at h
    | s :: rest, hlen =>
      have hlen1 : rest.length ≤ n := by simpa using hlen
      unfold flagParse at h
      cases hs : flagStep env s with
      | positional => rw [hs] at h; cases h
      | terminator => rw [hs] at h; cases h
      | rejected c =>
        rw [hs] at h
        cases h
        exact flagStep_rejected env s _ hs
      | seen a b =>
        rw [hs] at h
        exact ih rest code hlen1 h
      | wantsValue name =>
        rw [hs] at h
        match rest, hlen1 with
        | [], _ => cases h; exact Or.inl rfl
        | v :: rest1, hlen1 =>
          dsimp only at h
          split_ifs at h
          · exact ih rest1 code (by simp at hlen1; omega) h
          · cases h; exact Or.inl rfl

theorem exitLogged_status (env : Env Spec Pkg) (cmdline : List GoString) (msg : GoString)
    (w0 : World) (r : Nat × World) (hr : r = exitLogged env cmdline msg w0) :
    (r.1 = 0 ∨ r.1 = 1 ∨ r.1 = 2) ∧ r.1 ≠ 0 ∧
    (r.1 = 2 ↔ glogToStderr env cmdline = false ∧
      ∃ msg w1, r = exitLogged env cmdline msg w1 ∧
        (glogStart env cmdline (glogNoted env cmdline msg w1)).1 ≠ none) := by
  obtain ⟨hcode, _, _, _, _, h2⟩ := exitLogged_spec env cmdline msg w0
  rw [← hr] at hcode h2
  refine ⟨Or.inr hcode, ?_, ?_, ?_⟩
  · rcases hcode with h | h <;> omega
  · intro h
    exact ⟨(h2.mp h).1, msg, w0, hr, (h2.mp h).2⟩
  · rintro ⟨hts, msg1, w1, hr1, hst⟩
    rw [hr1]
    exact (exitLogged_spec env cmdline msg1 w1).2.2.2.2.2.mpr ⟨hts, hst⟩

/-- C5 (as stated, refuted): a flag that is not registered makes `flag.Parse()` end
the process with status 2, which is neither 0 nor 1; and where the help status of
package `flag` is 0, `-h` ends the process with status 0 although no stage has run. -/
theorem main_exit_code_two :
    (main (sampleEnv emptyMap) "templategen".toList
      ["-nosuchflag".toList, "out".toList, "schema.json".toList] sampleWorld).1 = 2 ∧
    ¬ ((main (sampleEnv emptyMap) "templategen".toList
        ["-nosuchflag".toList, "out".toList, "schema.json".toList] sampleWorld).1 = 0 ∨
       (main (sampleEnv emptyMap) "templategen".toList
        ["-nosuchflag".toList, "out".toList, "schema.json".toList] sampleWorld).1 = 1) ∧
    (main { sampleEnv emptyMap with helpExit := 0 } "templategen".toList
      ["-h".toList, "out".toList, "schema.json".toList] sampleWorld).1 = 0 ∧
    (main { sampleEnv emptyMap with helpExit := 0 } "templategen".toList
      ["-h".toList, "out".toList, "schema.json".toList] sampleWorld).2.trace = [] := by
  decide

/-- C5 (amended): the exit status of `main`, for every invocation. When `flag.Parse()`
ends the process, the status is the one of package `flag`: 2, or the help status for
`-h` and `-help`; nothing was read or written. When the flags parse, the status is 0,
1 or 2; it is 1 with fewer than two positional arguments; it is 0 exactly when there
are two positional arguments or more, the schema file is read, the bytes unmarshal,
the importer and the generator succeed, and the loop over the generated files ends
without an error of `emitFile`; and it is 2 exactly when glog, not logging to standard
error, cannot start its log file for the message of the stage that failed. -/
theorem main_exit_code (env : Env Spec Pkg) (prog : GoString) (cmdline : List GoString)
    (w : World) :
    (∀ code, flagParse env cmdline = .exit code →
      (main env prog cmdline w).1 = code ∧ (code = 2 ∨ code = env.helpExit) ∧
      (main env prog cmdline w).2.trace = w.trace ∧
      (main env prog cmdline w).2.fs = w.fs) ∧
    (∀ args, flagParse env cmdline = .args args →
      ((main env prog cmdline w).1 = 0 ∨ (main env prog cmdline w).1 = 1 ∨
        (main env prog cmdline w).1 = 2) ∧
      (args.length < 2 → (main env prog cmdline w).1 = 1) ∧
      ((main env prog cmdline w).1 = 0 ↔
        ∃ outDir schemaFile more schema mainSpec pulPkg files,
          args = outDir :: schemaFile :: more ∧
          (ReadFile env schemaFile w).1 = .ok schema ∧
          env.Unmarshal schema = .ok mainSpec ∧
          env.ImportSpec mainSpec = .ok pulPkg ∧
          env.GeneratePackage toolName pulPkg = .ok files ∧
          (emitAll env outDir
            (env.rangeOrder (w.trace ++ [.readFile schemaFile, .unmarshal,
              .importSpec, .generatePackage]) files)
            ((((w.log (.readFile schemaFile)).log .unmarshal).log
              .importSpec).log .generatePackage)).1 = none) ∧
      ((main env prog cmdline w).1 = 2 ↔
        glogToStderr env cmdline = false ∧
        ∃ msg w1, main env prog cmdline w = exitLogged env cmdline msg w1 ∧
          (glogStart env cmdline (glogNoted env cmdline msg w1)).1 ≠ none)) := by
  constructor
  · intro code hparse
    unfold main
    rw [hparse]
    exact ⟨rfl, flagParse_exit env cmdline.length cmdline code (Nat.le_refl _) hparse, rfl, rfl⟩
  intro args hparse
  have fail : ∀ (P : Prop),
      (∃ msg w0, main env prog cmdline w = exitLogged env cmdline msg w0) → ¬ P →
      2 ≤ args.length →
      ((main env prog cmdline w).1 = 0 ∨ (main env prog cmdline w).1 = 1 ∨
        (main env prog cmdline w).1 = 2) ∧
      (args.length < 2 → (main env prog cmdline w).1 = 1) ∧
      ((main env prog cmdline w).1 = 0 ↔ P) ∧
      ((main env prog cmdline w).1 = 2 ↔
        glogToStderr env cmdline = false ∧
        ∃ msg w1, main env prog cmdline w = exitLogged env cmdline msg w1 ∧
          (glogStart env cmdline (glogNoted env cmdline msg w1)).1 ≠ none) := by
    rintro P ⟨msg, w0, hm⟩ hP hlen
    obtain ⟨h1, h2, h3⟩ := exitLogged_status env cmdline msg w0 _ hm
    exact ⟨h1, fun h => by omega, ⟨fun h => absurd h h2, fun h => absurd h hP⟩, h3⟩
  have back : (glogToStderr env cmdline = false ∧
      ∃ msg w1, main env prog cmdline w = exitLogged env cmdline msg w1 ∧
        (glogStart env cmdline (glogNoted env cmdline msg w1)).1 ≠ none) →
      (main env prog cmdline w).1 = 2 := by
    rintro ⟨hts, msg, w1, hm, hst⟩
    rw [hm]
    exact (exitLogged_spec env cmdline msg w1).2.2.2.2.2.mpr ⟨hts, hst⟩
  match args, hparse with
  | [], hparse =>
    have h1 : (main env prog cmdline w).1 = 1 := by
      unfold main; rw [hparse]
    exact ⟨Or.inr (Or.inl h1), fun _ => h1,
      ⟨fun h => by omega, fun ⟨_, _, _, _, _, _, _, hargs, _⟩ => by cases hargs⟩,
      ⟨fun h => by omega, back⟩⟩
  | [_], hparse =>
    have h1 : (main env prog cmdline w).1 = 1 := by
      unfold main; rw [hparse]
    exact ⟨Or.inr (Or.inl h1), fun _ => h1,
      ⟨fun h => by omega, fun ⟨_, _, _, _, _, _, _, hargs, _⟩ => by cases hargs⟩,
      ⟨fun h => by omega, back⟩⟩
  | outDir :: schemaFile :: more, hparse =>
    have hlen : 2 ≤ (outDir :: schemaFile :: more).length := by simp
    have hw := ReadFile_world env schemaFile w
    rcases hrd : ReadFile env schemaFile w with ⟨r, w1⟩
    rw [hrd] at hw
    dsimp only at hw
    subst hw
    cases r with
    | error e =>
      refine fail _ ?_ ?_ hlen
      · apply Exists.intro
        apply Exists.intro
        unfold main
        rw [hparse]
        dsimp only
        rw [hrd]
        try rfl
      · rintro ⟨_, _, _, _, _, _, _, hargs, hr, _⟩
        cases hargs
        rw [hrd] at hr
        cases hr
    | ok schema =>
      cases hu : env.Unmarshal schema with
      | error e =>
        refine fail _ ?_ ?_ hlen
        · apply Exists.intro
          apply Exists.intro
          unfold main
          rw [hparse]
          dsimp only
          rw [hrd]
          dsimp only
          rw [hu]
          try rfl
        · rintro ⟨_, _, _, _, _, _, _, hargs, hr, hu1, _⟩
          cases hargs
          rw [hrd] at hr
          cases hr
          rw [hu] at hu1
          cases hu1
      | ok mainSpec =>
        cases hi : env.ImportSpec mainSpec with
        | error e =>
          refine fail _ ?_ ?_ hlen
          · apply Exists.intro
            apply Exists.intro
            unfold main
            rw [hparse]
            dsimp only
            rw [hrd]
            dsimp only
            rw [hu]
            dsimp only
            unfold generateDocsFromSchema
            dsimp only
            rw [hi]
            try rfl
          · rintro ⟨_, _, _, _, _, _, _, hargs, hr, hu1, hi1, _⟩
            cases hargs
            rw [hrd] at hr
            cases hr
            rw [hu] at hu1
            cases hu1
            rw [hi] at hi1
            cases hi1
        | ok pulPkg =>
          cases hg : env.GeneratePackage toolName pulPkg with
          | error e =>
            refine fail _ ?_ ?_ hlen
            · apply Exists.intro
              apply Exists.intro
              unfold main
              rw [hparse]
              dsimp only
              rw [hrd]
              dsimp only
              rw [hu]
              dsimp only
              unfold generateDocsFromSchema
              dsimp only
              rw [hi]
              dsimp only
              rw [hg]
              try rfl
            · rintro ⟨_, _, _, _, _, _, _, hargs, hr, hu1, hi1, hg1, _⟩
              cases hargs
              rw [hrd] at hr
              cases hr
              rw [hu] at hu1
              cases hu1
              rw [hi] at hi1
              cases hi1
              rw [hg] at hg1
              cases hg1
          | ok files =>
            have htr : ((((w.log (.readFile schemaFile)).log .unmarshal).log
                .importSpec).log .generatePackage).trace =
                w.trace ++ [.readFile schemaFile, .unmarshal,
                  .importSpec, .generatePackage] := by
              simp [World.log]
            rcases hem : emitAll env outDir
              (env.rangeOrder (w.trace ++ [.readFile schemaFile, .unmarshal,
                .importSpec, .generatePackage]) files)
              ((((w.log (.readFile schemaFile)).log .unmarshal).log
                .importSpec).log .generatePackage) with ⟨r, w3⟩
            cases r with
            | none =>
              have h0 : (main env prog cmdline w).1 = 0 := by
                unfold main; rw [hparse]; dsimp only; rw [hrd]; dsimp only
                rw [hu]; dsimp only; unfold generateDocsFromSchema; dsimp only; rw [hi]
                dsimp only; rw [hg]; dsimp only; rw [htr, hem]
              exact ⟨Or.inl h0, fun h => by omega,
                ⟨fun _ => ⟨outDir, schemaFile, more, schema, mainSpec, pulPkg, files, rfl,
                  by rw [hrd], hu, hi, hg, by rw [hem]⟩, fun _ => h0⟩,
                ⟨fun h => by omega, back⟩⟩
            | some err =>
              refine fail _ ?_ ?_ hlen
              · apply Exists.intro
                apply Exists.intro
                unfold main
                rw [hparse]
                dsimp only
                rw [hrd]
                dsimp only
                rw [hu]
                dsimp only
                unfold generateDocsFromSchema
                dsimp only
                rw [hi]
                dsimp only
                rw [hg]
                dsimp only
                rw [htr, hem]
                try rfl
              · rintro ⟨_, _, _, _, _, _, _, hargs, hr, hu1, hi1, hg1, hem1⟩
                cases hargs
                rw [hrd] at hr
                cases hr
                rw [hu] at hu1
                cases hu1
                rw [hi] at hi1
                cases hi1
                rw [hg] at hg1
                cases hg1
                rw [hem] at hem1
                cases hem1

/-- Three runs: one that generates two files exits with status 0, `-h` exits with the
help status, and one whose schema file is missing exits with status 2 when the
directory for temporary files does not exist. -/
theorem main_exit_code_witness :
    (main (sampleEnv nestedMap) "templategen".toList
      ["out".toList, "schema.json".toList] sampleWorld).1 = 0 ∧
    (main (sampleEnv emptyMap) "templategen".toList ["-h".toList] sampleWorld).1
      = (sampleEnv emptyMap).helpExit ∧
    (main { sampleEnv emptyMap with tempDir := "/nonexistent".toList } "templategen".toList
      ["out".toList, "missing.json".toList] sampleWorld).1 = 2 :=
  ⟨((main_exit_code (sampleEnv nestedMap) "templategen".toList
      ["out".toList, "schema.json".toList] sampleWorld).2
      ["out".toList, "schema.json".toList] (by decide)).2.2.1.mpr
      ⟨"out".toList, "schema.json".toList, [], [123, 125], (), (), nestedMap, rfl, rfl, rfl,
        rfl, rfl, by decide⟩,
   ((main_exit_code (sampleEnv emptyMap) "templategen".toList ["-h".toList] sampleWorld).1
      (sampleEnv emptyMap).helpExit (by decide)).1,
   ((main_exit_code { sampleEnv emptyMap with tempDir := "/nonexistent".toList }
      "templategen".toList ["out".toList, "missing.json".toList] sampleWorld).2
      ["out".toList, "missing.json".toList] (by decide)).2.2.2.mpr
      ⟨by decide,
        "error reading schema file from path: ".toList ++
          (PathError "open".toList "missing.json".toList ENOENT).Error,
        sampleWorld.log (.readFile "missing.json".toList), rfl, by decide⟩⟩

/-- Every run of `main` keeps the file system tree-shaped. -/
theorem main_WF (env : Env Spec Pkg) (prog : GoString) (cmdline : List GoString) (w : World)
    (hwf : w.fs.WF) : (main env prog cmdline w).2.fs.WF := by
  have hel : ∀ msg (w0 : World), w0.fs.WF → (exitLogged env cmdline msg w0).2.fs.WF :=
    fun msg w0 h => (exitLogged_spec env cmdline msg w0).2.2.2.1 h
  unfold main
  cases flagParse env cmdline with
  | exit code => exact hwf
  | args args =>
    match args with
    | [] => exact hwf
    | [_] => exact hwf
    | outDir :: schemaFile :: more =>
      dsimp only
      have hw := ReadFile_world env schemaFile w
      rcases hrd : ReadFile env schemaFile w with ⟨r, w1⟩
      rw [hrd] at hw
      dsimp only at hw
      subst hw
      cases r with
      | error e => exact hel _ _ hwf
      | ok schema =>
        dsimp only
        cases env.Unmarshal schema with
        | error e => exact hel _ _ hwf
        | ok mainSpec =>
          dsimp only
          have hgen : (generateDocsFromSchema env outDir mainSpec
              ((w.log (.readFile schemaFile)).log .unmarshal)).2.fs.WF := by
            unfold generateDocsFromSchema
            dsimp only
            cases env.ImportSpec mainSpec with
            | error e => exact hwf
            | ok pulPkg =>
              dsimp only
              cases env.GeneratePackage toolName pulPkg with
              | error e => exact hwf
              | ok files => exact emitAll_WF env outDir _ _ hwf
          rcases hg : generateDocsFromSchema env outDir mainSpec
            ((w.log (.readFile schemaFile)).log .unmarshal) with ⟨r, w3⟩
          rw [hg] at hgen
          cases r with
          | some err => exact hel _ _ hgen
          | none => exact hgen

/-- C7: in a tree-shaped file system, `emitFile` first ensures the directory
`path.Dir(path.Join(outDir, relPath))`, by `Mkdir` calls only. When that fails with `e`,
`emitFile` returns `e` wrapped with `creating directory`, having attempted neither the
`Create` nor the `Write`, and every regular file is as it was. When it succeeds, every
location above the destination is a directory in the world in which the file is then
created, `Create` of the destination is the next call, and those locations are
directories after `emitFile` too. And it does succeed, however many levels are missing,
when the environment forces no failure, the working directory exists and no location
on the way is a regular file. -/
theorem emitFile_ensures_parent (env : Env Spec Pkg) (outDir relPath : GoString)
    (contents : Bytes) (w : World) (hwf : w.fs.WF) :
    ∃ r1 w1, EnsureDir env (Dir (Join outDir relPath)) w = (r1, w1) ∧
      (∃ t, w1.trace = w.trace ++ t ∧ ∀ e ∈ t, ∃ l, e = Event.mkdir l) ∧
      (∀ e, r1 = some e →
        emitFile env outDir relPath contents w
          = (some (Wrap e "creating directory".toList), w1) ∧
        (Wrap e "creating directory".toList).Error
          = "creating directory".toList ++ ": ".toList ++ e.Error ∧
        ∀ q c, w1.fs q = some (.file c) ↔ w.fs q = some (.file c)) ∧
      (r1 = none →
        (∀ a, a <+: dest env outDir relPath → a ≠ dest env outDir relPath →
          w1.fs a = some .dir) ∧
        (∃ t, (emitFile env outDir relPath contents w).2.trace
          = w1.trace ++ .create (dest env outDir relPath) :: t) ∧
        (∀ a, a <+: dest env outDir relPath → a ≠ dest env outDir relPath →
          (emitFile env outDir relPath contents w).2.fs a = some .dir)) ∧
      (Quiet env w.trace → w.fs env.cwd = some .dir →
        (∀ a, a <+: resolve env.cwd (Dir (Join outDir relPath)) →
          ∀ c, w.fs a ≠ some (.file c)) →
        r1 = none) := by
  obtain ⟨r1, w1, he, hg, htr, hwf1, hcase⟩ := emitFile_cases env outDir relPath contents w
  refine ⟨r1, w1, he, htr, ?_, ?_, ?_⟩
  · intro e hr
    rcases hcase with ⟨e', hr', h⟩ | ⟨hr', _⟩
    · rw [hr] at hr'
      cases hr'
      refine ⟨h, rfl, ?_⟩
      intro q c
      rcases hg q with h1 | ⟨h1, h2⟩
      · rw [h1]
      · rw [h1, h2]; simp
    · rw [hr] at hr'; cases hr'
  · intro hr
    rcases hcase with ⟨e', hr', _⟩ | ⟨_, hdir, hrest⟩
    · rw [hr] at hr'; cases hr'
    · have habove : ∀ a, a <+: dest env outDir relPath → a ≠ dest env outDir relPath →
          w1.fs a = some .dir := by
        intro a ha hne
        have h1 := prefix_dropLast_of_ne a _ ha hne
        have h2 := dropLast_resolve_prefix env.cwd (Join outDir relPath)
        exact (hwf1 hwf).dir_above a _ (h1.trans h2) hdir
      refine ⟨habove, ?_, ?_⟩
      · rcases hrest with ⟨e, _, h⟩ | ⟨c, _, _, _, h, _⟩
        · rw [h]; exact ⟨[], rfl⟩
        · rw [h]; exact ⟨[.write (dest env outDir relPath) contents], rfl⟩
      · intro a ha hne
        rcases hrest with ⟨e, _, h⟩ | ⟨c, _, _, h, _⟩
        · rw [h]; exact habove a ha hne
        · rw [h, FS.set_other _ _ _ _ hne]; exact habove a ha hne
  · intro hquiet hcwd hfree
    have := EnsureDir_Dir_ok env (Join outDir relPath) w hwf hquiet hcwd hfree
    rw [he] at this
    exact this

/-- The output directory `out/x/y` and the relative path `a/b/c.txt`, none of whose
directories exists at first. -/
theorem emitFile_ensures_parent_witness :
    sampleWorld.fs ["home".toList, "out".toList] = none ∧
    (emitFile (sampleEnv emptyMap) "out/x/y".toList "a/b/c.txt".toList [7] sampleWorld).2.fs
      ["home".toList, "out".toList, "x".toList, "y".toList, "a".toList, "b".toList]
      = some .dir ∧
    (emitFile (sampleEnv emptyMap) "out/x/y".toList "a/b/c.txt".toList [7] sampleWorld).2.fs
      ["home".toList, "out".toList, "x".toList] = some .dir := by
  obtain ⟨r1, w1, he, _, _, hs, _⟩ := emitFile_ensures_parent (sampleEnv emptyMap)
    "out/x/y".toList "a/b/c.txt".toList [7] sampleWorld sampleFS_WF
  have hr : r1 = none := by
    have := congrArg Prod.fst he
    dsimp only at this
    rw [← this]
    decide
  refine ⟨rfl, (hs hr).2.2 _ ?_ (by decide), (hs hr).2.2 _ ?_ (by decide)⟩
  · have hd : dest (sampleEnv emptyMap) "out/x/y".toList "a/b/c.txt".toList
        = ["home".toList, "out".toList, "x".toList, "y".toList, "a".toList, "b".toList]
          ++ ["c.txt".toList] := by decide
    rw [hd]; exact List.prefix_append _ _
  · have hd : dest (sampleEnv emptyMap) "out/x/y".toList "a/b/c.txt".toList
        = ["home".toList, "out".toList, "x".toList]
          ++ ["y".toList, "a".toList, "b".toList, "c.txt".toList] := by decide
    rw [hd]; exact List.prefix_append _ _

/-- `ioutil.ReadFile` on paths as given, in the sample file system with the working
directory `/home`: the schema file is read through `schema.json`, `./schema.json` and
`/home/../home//schema.json`; the read fails for `nodir/../schema.json` (`nodir` does
not exist), for `schema.json/` and `schema.json/.` (not a directory), for the empty
path, for a path that names nothing and for a directory. -/
theorem ReadFile_table :
    (ReadFile (sampleEnv emptyMap) "schema.json".toList sampleWorld).1 = .ok [123, 125] ∧
    (ReadFile (sampleEnv emptyMap) "./schema.json".toList sampleWorld).1 = .ok [123, 125] ∧
    (ReadFile (sampleEnv emptyMap) "/home/../home//schema.json".toList sampleWorld).1
      = .ok [123, 125] ∧
    (ReadFile (sampleEnv emptyMap) "nodir/../schema.json".toList sampleWorld).1
      = .error (PathError "open".toList "nodir/../schema.json".toList ENOENT) ∧
    (ReadFile (sampleEnv emptyMap) "schema.json/".toList sampleWorld).1
      = .error (PathError "open".toList "schema.json/".toList ENOTDIR) ∧
    (ReadFile (sampleEnv emptyMap) "schema.json/.".toList sampleWorld).1
      = .error (PathError "open".toList "schema.json/.".toList ENOTDIR) ∧
    (ReadFile (sampleEnv emptyMap) [] sampleWorld).1
      = .error (PathError "open".toList [] ENOENT) ∧
    (ReadFile (sampleEnv emptyMap) "missing.json".toList sampleWorld).1
      = .error (PathError "open".toList "missing.json".toList ENOENT) ∧
    (ReadFile (sampleEnv emptyMap) "/home".toList sampleWorld).1
      = .error (PathError "read".toList "/home".toList EISDIR) ∧
    (PathError "open".toList "missing.json".toList ENOENT).Error
      = "open missing.json: no such file or directory".toList :=
  ⟨rfl, rfl, rfl, rfl, rfl, rfl, rfl, rfl, rfl, by decide⟩

end Templategen
